import Mathlib

/-!
# Verification of the mini-shell lexer, parser and execution engine

This file embeds the core of the mini-shell repository
(`src/tokenizer/src/lib.rs` and `src/shell/src/command.rs`) into Lean and
settles a list of claims about it.

Modelling conventions:

* A Rust `String` is modelled as its character sequence `List Char`.  The
  tokenizer mixes byte indices (`self.source.len()`, byte slicing
  `self.source[a..b]`) with character indices (`self.source.chars().nth(i)`):
  the embedding keeps both views, with `byteLen` for the UTF-8 byte length and
  `byteSlice` for byte-indexed slicing (returning `none` where Rust would
  panic on a non-boundary or out-of-range slice).
* Rust panics (`unwrap` on `None`, out-of-bounds indexing, `unimplemented!`)
  are modelled by `Option`: a `none` result means the Rust code panics.
* The scanning loops take a fuel parameter so that all definitions are
  structurally recursive and executable.  `scan` passes `byteLen source + 1`
  fuel, which is shown sufficient: every loop iteration strictly advances
  `current`, which never exceeds the byte length (see `scanLoop_mono` and the
  fuel-stability lemmas).
* Process side effects are modelled by an explicit event trace (`Effect`) and
  an oracle (`OS`) supplying the outcomes of OS calls (spawn results, exit
  statuses, the working directory, the persisted history).
-/

set_option maxRecDepth 100000

deriving instance DecidableEq for Except

namespace MiniShell

/-! ## Tokens (tokenizer/src/lib.rs, `TokenType` and `Token`) -/

inductive TokenType where
  | Cmd
  | Arg
  | Flag
  | LongFlag
  | LongFlagWithValue
  | Pipe
  | InputRedir
  | OutputRedir
  | Background
  | Eof
deriving DecidableEq, Repr

structure Token where
  kind : TokenType
  lexeme : String
deriving DecidableEq, Repr

/-! ## Byte-level view of a Rust string -/

/-- Number of bytes of the UTF-8 encoding of `c` (Rust `char::len_utf8`). -/
def charBytes (c : Char) : Nat :=
  if c.toNat < 0x80 then 1
  else if c.toNat < 0x800 then 2
  else if c.toNat < 0x10000 then 3
  else 4

/-- Rust `String::len`: the byte length of the UTF-8 encoding. -/
def byteLen (s : List Char) : Nat := (s.map charBytes).sum

/-- Drop the first `n` bytes; `none` if `n` is not a character boundary
(where Rust slicing would panic). -/
def byteDrop : List Char → Nat → Option (List Char)
  | s, 0 => some s
  | [], _ + 1 => none
  | c :: cs, n + 1 =>
    if charBytes c ≤ n + 1 then byteDrop cs (n + 1 - charBytes c) else none

/-- Take the first `n` bytes; `none` if `n` is not a character boundary. -/
def byteTake : List Char → Nat → Option (List Char)
  | _, 0 => some []
  | [], _ + 1 => none
  | c :: cs, n + 1 =>
    if charBytes c ≤ n + 1 then (byteTake cs (n + 1 - charBytes c)).map (c :: ·) else none

/-- Rust byte-indexed slice `&s[a..b]`; `none` where Rust panics. -/
def byteSlice (s : List Char) (a b : Nat) : Option (List Char) :=
  if a ≤ b then (byteDrop s a).bind (fun t => byteTake t (b - a)) else none

/-- Rust `char::is_whitespace` (the Unicode `White_Space` property), written via code points. -/
def rustIsWhitespace (c : Char) : Bool :=
  (0x09 ≤ c.toNat && c.toNat ≤ 0x0d) || c.toNat == 0x20 ||
  c.toNat == 0x85 || c.toNat == 0xa0 || c.toNat == 0x1680 ||
  (0x2000 ≤ c.toNat && c.toNat ≤ 0x200a) ||
  c.toNat == 0x2028 || c.toNat == 0x2029 || c.toNat == 0x202f ||
  c.toNat == 0x205f || c.toNat == 0x3000

/-- Remove leading characters satisfying `p`. -/
def dropLead (p : Char → Bool) : List Char → List Char
  | [] => []
  | c :: cs => if p c then dropLead p cs else c :: cs

/-- Rust `str::trim`: strip Unicode whitespace from both ends. -/
def rustTrim (s : List Char) : List Char :=
  ((dropLead rustIsWhitespace s).reverse |> dropLead rustIsWhitespace).reverse

/-- Rust `str::trim_matches('"')`: strip double quotes from both ends. -/
def trimQuotes (s : List Char) : List Char :=
  ((dropLead (· == '"') s).reverse |> dropLead (· == '"')).reverse

/-- The whitespace characters the scanner's whitespace arm handles
(`' ' | '\r' | '\t' | '\n'`, a strict subset of Rust
`char::is_whitespace`). -/
def inSkipWs (c : Char) : Bool :=
  c == ' ' || c == '\r' || c == '\t' || c == '\n'

/-- The characters the scanner's `scan_token` dispatches on before falling
through to `handle_word`.  A word token's first character is never one of
these. -/
def specialChar (c : Char) : Bool :=
  inSkipWs c || c == '-' || c == '|' || c == '<' || c == '>' || c == '&'

/-- The characters `handle_long_flag` consumes (alphanumeric or `-`). -/
def longFlagChar (c : Char) : Bool :=
  c.isAlphanum || c == '-'

/-! ## The tokenizer state machine (tokenizer/src/lib.rs, `Tokenizer`) -/

structure Tokenizer where
  tokens : List Token
  source : List Char
  start : Nat
  current : Nat
  had_cmd : Bool
deriving Repr

/-- `Tokenizer::add_token`: slice `source[start..current]`, trim it, and push
the token unless the trimmed lexeme is empty.  `none` models the slicing
panic on a non-character-boundary byte range. -/
def addToken (st : Tokenizer) (k : TokenType) : Option Tokenizer :=
  match byteSlice st.source st.start st.current with
  | none => none
  | some cs =>
    let text := rustTrim cs
    if text = [] then some st
    else some { st with tokens := st.tokens ++ [⟨k, String.mk text⟩] }

/-- `Tokenizer::match_char`: peek and consume the expected character.
`none` models the panic of `chars().nth(current).unwrap()` inside `peek`
when `current` is below the byte length but at or past the char count. -/
def matchChar (st : Tokenizer) (expected : Char) : Option (Bool × Tokenizer) :=
  if byteLen st.source ≤ st.current then some (false, st)
  else
    match st.source.get? st.current with
    | none => none
    | some c =>
      if c = expected then some (true, { st with current := st.current + 1 })
      else some (false, st)

/-- `Tokenizer::skip_whitespace`: consume the run of `' '`, `'\r'`, `'\t'`,
`'\n'` characters. -/
def skipWhitespace : Nat → Tokenizer → Option Tokenizer
  | 0, _ => none
  | fuel + 1, st =>
    if byteLen st.source ≤ st.current then some st
    else
      match st.source.get? st.current with
      | none => none
      | some c =>
        if inSkipWs c then
          skipWhitespace fuel { st with current := st.current + 1 }
        else some st

/-- The loop of `Tokenizer::handle_flag` followed by its `add_token(Flag)`. -/
def flagLoop : Nat → Tokenizer → Option Tokenizer
  | 0, _ => none
  | fuel + 1, st =>
    if byteLen st.source ≤ st.current then addToken st .Flag
    else
      match st.source.get? st.current with
      | none => none
      | some c =>
        if c.isAlphanum then flagLoop fuel { st with current := st.current + 1 }
        else addToken st .Flag

/-- The tail of `Tokenizer::handle_flag_value`: build the
`LongFlagWithValue` token from `source[start..value_start-1]` (trimmed) and
`source[value_start..current]` (quotes stripped).  This push is
unconditional in the Rust code. -/
def finishFlagValue (st : Tokenizer) (vstart : Nat) : Option Tokenizer :=
  match byteSlice st.source st.start (vstart - 1) with
  | none => none
  | some f =>
    match byteSlice st.source vstart st.current with
    | none => none
    | some v =>
      some { st with
        tokens := st.tokens ++
          [⟨.LongFlagWithValue, String.mk (rustTrim f ++ '=' :: trimQuotes v)⟩] }

/-- The loop of `Tokenizer::handle_flag_value`: consume the value, toggling
`in_quotes` at `'"'` and stopping at an unquoted space or the end. -/
def flagValueLoop : Nat → Tokenizer → Nat → Bool → Option Tokenizer
  | 0, _, _, _ => none
  | fuel + 1, st, vstart, inq =>
    if byteLen st.source ≤ st.current then finishFlagValue st vstart
    else
      match st.source.get? st.current with
      | none => none
      | some c =>
        if c = '"' then flagValueLoop fuel { st with current := st.current + 1 } vstart (!inq)
        else if c = ' ' && !inq then finishFlagValue st vstart
        else flagValueLoop fuel { st with current := st.current + 1 } vstart inq

/-- `Tokenizer::handle_flag_value` entry: `value_start = current`. -/
def handleFlagValue (fuel : Nat) (st : Tokenizer) : Option Tokenizer :=
  flagValueLoop fuel st st.current false

/-- `Tokenizer::handle_long_flag`: consume alphanumeric or `'-'` characters;
on a `'='` switch to value capture, otherwise emit a `LongFlag` token. -/
def longFlagLoop : Nat → Tokenizer → Option Tokenizer
  | 0, _ => none
  | fuel + 1, st =>
    if byteLen st.source ≤ st.current then addToken st .LongFlag
    else
      match st.source.get? st.current with
      | none => none
      | some c =>
        if c = '=' then handleFlagValue fuel { st with current := st.current + 1 }
        else if longFlagChar c then longFlagLoop fuel { st with current := st.current + 1 }
        else addToken st .LongFlag

/-- Characters that continue a word in `Tokenizer::handle_word`. -/
def wordChar (c : Char) : Bool :=
  c.isAlphanum || c == '_' || c == '/' || c == '.'

/-- The loop of `Tokenizer::handle_word`. -/
def wordLoop : Nat → Tokenizer → Option Tokenizer
  | 0, _ => none
  | fuel + 1, st =>
    if byteLen st.source ≤ st.current then some st
    else
      match st.source.get? st.current with
      | none => none
      | some c =>
        if wordChar c then wordLoop fuel { st with current := st.current + 1 }
        else some st

/-- `Tokenizer::handle_word`: consume the word, then emit `Cmd` (setting
`had_cmd`) for the first word of a stage and `Arg` afterwards. -/
def wordHandle (fuel : Nat) (st : Tokenizer) : Option Tokenizer :=
  match wordLoop fuel st with
  | none => none
  | some st =>
    if st.had_cmd then addToken st .Arg
    else
      match addToken st .Cmd with
      | none => none
      | some st2 => some { st2 with had_cmd := true }

/-- `Tokenizer::scan_token`: advance one character and dispatch.  The
initial `advance` is `chars().nth(current).unwrap()`: `none` models its
panic. -/
def scanToken (fuel : Nat) (st : Tokenizer) : Option Tokenizer :=
  match st.source.get? st.current with
  | none => none
  | some c =>
    let st1 : Tokenizer := { st with current := st.current + 1 }
    if inSkipWs c then skipWhitespace fuel st1
    else if c = '-' then
      match matchChar st1 '-' with
      | none => none
      | some (true, st2) => longFlagLoop fuel st2
      | some (false, st2) => flagLoop fuel st2
    else if c = '|' then
      match addToken st1 .Pipe with
      | none => none
      | some st2 => some { st2 with had_cmd := false }
    else if c = '<' then addToken st1 .InputRedir
    else if c = '>' then addToken st1 .OutputRedir
    else if c = '&' then addToken st1 .Background
    else wordHandle fuel st1

/-- The loop of `Tokenizer::scan_tokens`: while not at the (byte!) end,
set `start := current` and scan one token. -/
def scanLoop : Nat → Tokenizer → Option Tokenizer
  | 0, _ => none
  | fuel + 1, st =>
    if byteLen st.source ≤ st.current then some st
    else
      match scanToken fuel { st with start := st.current } with
      | none => none
      | some st' => scanLoop fuel st'

/-- `Tokenizer::scan_tokens` on a fresh tokenizer, followed by the final
`Eof` push.  `none` means the Rust code panics. -/
def scanTokens (source : List Char) : Option (List Token) :=
  match scanLoop (byteLen source + 1) ⟨[], source, 0, 0, false⟩ with
  | none => none
  | some st => some (st.tokens ++ [⟨.Eof, ""⟩])

/-- Scan a Rust string given as a Lean string literal. -/
def scan (s : String) : Option (List Token) := scanTokens s.data

/-! ## Flags and commands (shell/src/command.rs) -/

structure FlagIdent where
  short : Option String
  long : Option String
deriving DecidableEq, Repr

/-- Rust `str::starts_with`, via the character sequences (kept structural
so that proofs can evaluate it). -/
def strStartsWith (s pre : String) : Bool := pre.data.isPrefixOf s.data

/-- `TryFrom<&str> for FlagIdent`. -/
def FlagIdent.tryFrom (value : String) : Except String FlagIdent :=
  if strStartsWith value "--" then .ok ⟨none, some value⟩
  else if strStartsWith value "-" then .ok ⟨some value, none⟩
  else .error ("Invalid flag: " ++ value)

/-- `ToString for FlagIdent`: the short spelling if present, else the long
spelling, else the empty string. -/
def FlagIdent.render (fi : FlagIdent) : String :=
  match fi.short with
  | some s => s
  | none =>
    match fi.long with
    | some l => l
    | none => ""

structure Flag where
  ident : FlagIdent
  value : Option String
deriving DecidableEq, Repr

/-- The concrete `Command` implementors a parsed stage can be
(`ChangeDirCommand`, `PwdCommand`, `HistoryCommand`, `SystemCommand`). -/
inductive CKind where
  | cd
  | pwd
  | history
  | system
deriving DecidableEq, Repr

/-- A single parsed command.  For `kind = pwd` the Rust struct has no
argument or flag fields; the parser can only produce `pwd` commands with
both lists empty (pushing into them panics, see `pushTok`). -/
structure SCmd where
  kind : CKind
  name : String
  args : List String
  flags : List Flag
deriving DecidableEq, Repr

/-- `Command::get_args` as a trait call: `PwdCommand` returns `&[]`. -/
def SCmd.getArgs (c : SCmd) : List String :=
  match c.kind with
  | .pwd => []
  | _ => c.args

/-- `Command::get_flags` as a trait call: `PwdCommand` returns `&[]`. -/
def SCmd.getFlags (c : SCmd) : List Flag :=
  match c.kind with
  | .pwd => []
  | _ => c.flags

def SCmd.getName (c : SCmd) : String := c.name

/-- The value produced by `CommandParser::parse`: a single command, or a
`Pipeline` of stages. -/
inductive PCmd where
  | single (c : SCmd)
  | pipeline (cs : List SCmd)
deriving DecidableEq, Repr

/-- `Pipeline::get_name` is the fixed string `"pipeline"`. -/
def PCmd.getName : PCmd → String
  | .single c => c.getName
  | .pipeline _ => "pipeline"

/-- `Pipeline::get_args` returns `&[]`. -/
def PCmd.getArgs : PCmd → List String
  | .single c => c.getArgs
  | .pipeline _ => []

/-- `Pipeline::get_flags` returns `&[]`. -/
def PCmd.getFlags : PCmd → List Flag
  | .single c => c.getFlags
  | .pipeline _ => []

/-! ## Parser (shell/src/command.rs, `CommandParser`) -/

/-- Dispatch on the command-name lexeme (`parse_single_command`). -/
def dispatch (lexeme : String) : SCmd :=
  if lexeme = "cd" then ⟨.cd, "cd", [], []⟩
  else if lexeme = "history" then ⟨.history, "history", [], []⟩
  else if lexeme = "pwd" then ⟨.pwd, "pwd", [], []⟩
  else ⟨.system, lexeme, [], []⟩

/-- Rust `splitn(2, '=')`: the part before the first `'='` and, when a
`'='` occurs, the rest. -/
def splitAtEq : List Char → List Char × Option (List Char)
  | [] => ([], none)
  | c :: cs =>
    if c = '=' then ([], some cs)
    else
      let r := splitAtEq cs
      (c :: r.1, r.2)

/-- Processing of one non-leading token of a stage in
`parse_single_command`.  `none` models the `unimplemented!` panic of
`PwdCommand::get_args_mut` / `get_flags_mut` (the mutators are fetched
before the pushed `Flag` is built) and the `parts[1]` indexing panic of a
`LongFlagWithValue` lexeme without `'='`. -/
def pushTok (c : SCmd) (t : Token) : Option SCmd :=
  match t.kind with
  | .Arg =>
    if c.kind = .pwd then none
    else some { c with args := c.args ++ [t.lexeme] }
  | .Flag =>
    if c.kind = .pwd then none
    else some { c with flags := c.flags ++ [⟨⟨some t.lexeme, none⟩, none⟩] }
  | .LongFlag =>
    if c.kind = .pwd then none
    else some { c with flags := c.flags ++ [⟨⟨none, some t.lexeme⟩, none⟩] }
  | .LongFlagWithValue =>
    if c.kind = .pwd then none
    else
      match splitAtEq t.lexeme.data with
      | (_, none) => none
      | (a, some b) =>
        some { c with flags := c.flags ++ [⟨⟨none, some (String.mk a)⟩, some (String.mk b)⟩] }
  | _ => some c

/-- Fold `pushTok` over the body of a stage. -/
def pushBody : SCmd → List Token → Option SCmd
  | c, [] => some c
  | c, t :: ts =>
    match pushTok c t with
    | none => none
    | some c' => pushBody c' ts

/-- `CommandParser::parse_single_command(start, fin)`.  `none` models the
panics: indexing `tokens[start]` out of range, slicing
`tokens[start+1..fin]` out of range, and the panics of `pushTok`. -/
def parseSingle (toks : List Token) (start fin : Nat) : Option (Except String SCmd) :=
  match toks.get? start with
  | none => none
  | some t =>
    if t.kind ≠ .Cmd then some (.error ("Expected command, got: " ++ t.lexeme))
    else if start + 1 > fin ∨ fin > toks.length then none
    else
      match pushBody (dispatch t.lexeme) ((toks.take fin).drop (start + 1)) with
      | none => none
      | some c => some (.ok c)

/-- `tokens.iter().enumerate().filter(Pipe).map(index)`. -/
def pipePositionsAux : List Token → Nat → List Nat
  | [], _ => []
  | t :: ts, i =>
    if t.kind = .Pipe then i :: pipePositionsAux ts (i + 1)
    else pipePositionsAux ts (i + 1)

def pipePositions (toks : List Token) : List Nat := pipePositionsAux toks 0

/-- The stage loop of `CommandParser::parse`: one stage before each pipe
position, and a final stage from after the last pipe to the end. -/
def parseStages (toks : List Token) : List Nat → Nat → Option (Except String (List SCmd))
  | [], start =>
    match parseSingle toks start toks.length with
    | none => none
    | some (.error e) => some (.error e)
    | some (.ok c) => some (.ok [c])
  | p :: ps, start =>
    match parseSingle toks start p with
    | none => none
    | some (.error e) => some (.error e)
    | some (.ok c) =>
      match parseStages toks ps (p + 1) with
      | none => none
      | some (.error e) => some (.error e)
      | some (.ok cs) => some (.ok (c :: cs))

/-- `CommandParser::parse`.  `none` means the Rust code panics. -/
def parse (toks : List Token) : Option (Except String PCmd) :=
  if toks.isEmpty then some (.error "No command provided")
  else
    match pipePositions toks with
    | [] =>
      match parseSingle toks 0 toks.length with
      | none => none
      | some (.error e) => some (.error e)
      | some (.ok c) => some (.ok (.single c))
    | p :: ps =>
      match parseStages toks (p :: ps) 0 with
      | none => none
      | some (.error e) => some (.error e)
      | some (.ok cs) => some (.ok (.pipeline cs))

/-- End-to-end resolution as the shell's eval loop performs it. -/
def resolve (s : String) : Option (Except String PCmd) :=
  match scan s with
  | none => none
  | some toks => parse toks

/-! ## Display (`ToString for dyn Command`) -/

/-- Rust `[String]::join(" ")` (structurally recursive). -/
def joinSpace : List String → String
  | [] => ""
  | [x] => x
  | x :: y :: t => x ++ " " ++ joinSpace (y :: t)

/-- `ToString for dyn Command`: name, one space, the positional arguments
joined by spaces, then (with no separating space) the flag identities
joined by spaces. -/
def PCmd.render (p : PCmd) : String :=
  p.getName ++ " " ++ joinSpace p.getArgs ++
    joinSpace (p.getFlags.map (fun f => f.ident.render))

/-! ## Execution model -/

/-- Observable side effects of executing a command.  `spawn` carries the
stage index inside a pipeline (`none` for a lone `SystemCommand`), the
program, its argument list, whether stdin is connected to the previous
stage's stdout pipe, and whether stdout is piped. -/
inductive Effect where
  | printHelp (name : String)
  | chdir (path : String)
  | writeOut (s : String)
  | writeErr (s : String)
  | clearHistory
  | spawn (stage : Option Nat) (prog : String) (argv : List String)
      (stdinFromPrev : Bool) (stdoutPiped : Bool)
  | waitStage (stage : Nat)
deriving DecidableEq, Repr

/-- Oracle for OS interactions during one `execute()` call.  The fields
give the outcomes Rust would observe: `chdirErr p` is the error of
`set_current_dir(p)` if it fails; `cwd` is `current_dir()`; `histLoad` is
`History::load_from_disk()`; `sysOut` is `Command::output()` for a lone
`SystemCommand` (captured stdout, captured stderr, exit code — `none`
models termination by signal); `outRelayErr` and `errRelayErr` are the
failures of the `stdout().write_all(..)` / `stderr().write_all(..)`
relays of the captured output (consulted only when the corresponding
capture is nonempty, since the writes are guarded by `is_empty()`);
`spawnErr i` is the spawn failure of pipeline stage `i`; `waitErr`,
`lastOk` and `lastStatusStr` describe the `wait()` on the terminal
pipeline stage. -/
structure OS where
  chdirErr : String → Option String
  cwd : Except String String
  histLoad : Except String (List String)
  sysOut : Except String (String × String × Option Int)
  outRelayErr : Option String
  errRelayErr : Option String
  spawnErr : Nat → Option String
  waitErr : Option String
  lastOk : Bool
  lastStatusStr : String

/-- A benign oracle: every OS call succeeds, the lone external command
produces no output and exits 0. -/
def osOk : OS :=
  ⟨fun _ => none, .ok "/", .ok [], .ok ("", "", some 0), none, none,
    fun _ => none, none, true, "exit status: 0"⟩

/-- `Command::get_flag`: build a `FlagIdent` from the literal and search the
flag list for an identical identity. -/
def getFlag (flags : List Flag) (s : String) : Option Flag :=
  match FlagIdent.tryFrom s with
  | .error _ => none
  | .ok fi => flags.find? (fun f => f.ident = fi)

/-- The help check at the top of the default `Command::execute`. -/
def hasHelpFlag (flags : List Flag) : Bool :=
  (getFlag flags "--help").isSome || (getFlag flags "-h").isSome

/-- The textual form of one flag as `SystemCommand::execute_impl` passes it
to the child process: the identity, followed by `=value` when a value is
present. -/
def flagArg (f : Flag) : String :=
  match f.value with
  | some v => f.ident.render ++ "=" ++ v
  | none => f.ident.render

/-- The argument list `SystemCommand::execute_impl` passes to the child:
the positional arguments, then the rendered flags. -/
def sysArgv (c : SCmd) : List String := c.args ++ c.flags.map flagArg

/-- `execute_impl` of the four single-command variants. -/
def SCmd.executeImpl (c : SCmd) (os : OS) : Except String Unit × List Effect :=
  match c.kind with
  | .cd =>
    match c.args.get? 0 with
    | none => (.error "No path provided", [])
    | some p =>
      match os.chdirErr p with
      | some e => (.error e, [])
      | none => (.ok (), [.chdir p])
  | .pwd =>
    match os.cwd with
    | .error e => (.error e, [])
    | .ok d => (.ok (), [.writeOut d])
  | .history =>
    match os.histLoad with
    | .error e => (.error e, [])
    | .ok h =>
      if (getFlag c.getFlags "--clear").isSome || (getFlag c.getFlags "-c").isSome then
        match os.histLoad with
        | .error e => (.error e, [])
        | .ok _ => (.ok (), [.clearHistory])
      else
        (.ok (), h.reverse.map Effect.writeOut)
  | .system =>
    match os.sysOut with
    | .error e => (.error e, [])
    | .ok (o, e, code) =>
      match (if o ≠ "" then os.outRelayErr else none) with
      | some we => (.error we, [Effect.spawn none c.name (sysArgv c) false false])
      | none =>
        match (if e ≠ "" then os.errRelayErr else none) with
        | some we =>
          (.error we, [Effect.spawn none c.name (sysArgv c) false false] ++
            (if o ≠ "" then [Effect.writeOut o] else []))
        | none =>
          let evs := [Effect.spawn none c.name (sysArgv c) false false] ++
            (if o ≠ "" then [Effect.writeOut o] else []) ++
            (if e ≠ "" then [Effect.writeErr e] else [])
          if code = some 0 then (.ok (), evs)
          else
            (.error ("Command '" ++ c.name ++ "' failed with exit code: " ++
              toString (code.getD (-1))), evs)

/-- The default `Command::execute` for a single command: help check first,
then the variant's `execute_impl`. -/
def SCmd.executeTop (c : SCmd) (os : OS) : Except String Unit × List Effect :=
  if hasHelpFlag c.getFlags then (.ok (), [.printHelp c.name])
  else c.executeImpl os

/-- The built-in name check of the pipeline `execute_impl`
(`"cd" | "pwd" | "history"`). -/
def builtinName (s : String) : Bool :=
  s == "cd" || s == "pwd" || s == "history"

/-- The result of the final `wait()` on the terminal stage of a multi-stage
pipeline. -/
def pipelineWaitResult (os : OS) : Except String Unit :=
  match os.waitErr with
  | some e => .error e
  | none =>
    if os.lastOk then .ok ()
    else .error ("Pipeline failed with status: " ++ os.lastStatusStr)

/-- The spawn loop of `impl Command for Pipeline :: execute_impl`: spawn
every stage in order — stage `i > 0` takes its stdin from the previous
stage's stdout pipe (`Stdio::from(prev.stdout)`), stages before the last
have stdout piped — then wait on the last stage only.  `n` is the total
number of stages. -/
def spawnLoop (os : OS) (n : Nat) : List SCmd → Nat → Except String Unit × List Effect
  | [], _ => (pipelineWaitResult os, [.waitStage (n - 1)])
  | c :: rest, i =>
    match os.spawnErr i with
    | some e => (.error e, [])
    | none =>
      let ev := Effect.spawn (some i) c.getName c.getArgs (decide (0 < i)) (decide (i + 1 < n))
      let r := spawnLoop os n rest (i + 1)
      (r.1, ev :: r.2)

/-- `impl Command for Pipeline :: execute_impl`: the execution path reached
through the `Command` trait (the path the shell's eval loop invokes).
Zero stages succeed trivially; one stage delegates to that stage's own
`execute()`; two or more stages first reject built-ins anywhere (while the
handles are being built, before anything is spawned), then run the spawn
loop. -/
def pipelineImpl (cs : List SCmd) (os : OS) : Except String Unit × List Effect :=
  match cs with
  | [] => (.ok (), [])
  | [c] => c.executeTop os
  | c1 :: c2 :: rest =>
    let stages := c1 :: c2 :: rest
    if (stages.dropLast.any (fun c => builtinName c.getName)) then
      (.error "Built-in commands cannot be used in pipes", [])
    else if builtinName (stages.getLastD c1).getName then
      (.error "Built-in commands cannot be used in pipes", [])
    else
      spawnLoop os stages.length stages 0

/-- The trait `execute()` on the value `CommandParser::parse` returned:
the uniform help check, then the variant's `execute_impl` (for a
`Pipeline`, `get_flags()` is `&[]`, so the help branch is never taken). -/
def PCmd.executeTop (p : PCmd) (os : OS) : Except String Unit × List Effect :=
  if hasHelpFlag p.getFlags then (.ok (), [.printHelp p.getName])
  else
    match p with
    | .single c => c.executeImpl os
    | .pipeline cs => pipelineImpl cs os

/-! ## Specification-level predicates used to state the claims -/

/-- The spawn events `spawnLoop` emits for the given stages starting at
stage index `i` of an `n`-stage pipeline. -/
def stageSpawnEvents (n : Nat) : List SCmd → Nat → List Effect
  | [], _ => []
  | c :: rest, i =>
    Effect.spawn (some i) c.getName c.getArgs (decide (0 < i)) (decide (i + 1 < n)) ::
      stageSpawnEvents n rest (i + 1)

/-- The ordering property claimed for buffer-relayed pipelines: every
spawn of a stage `k + 1` is preceded in the trace by a wait on stage `k`
(each stage runs to completion before the next stage is spawned). -/
def bufferRelaySequential (evs : List Effect) : Bool :=
  (List.range evs.length).all (fun j =>
    match evs.get? j with
    | some (Effect.spawn (some (k + 1)) _ _ _ _) =>
      (evs.take j).any (fun e => e == Effect.waitStage k)
    | _ => true)

/-- Split a token sequence into pipeline stages: maximal segments not
containing a `Pipe` token (the pipes themselves excluded). -/
def splitAtPipes : List Token → List (List Token)
  | [] => [[]]
  | t :: ts =>
    if t.kind = .Pipe then [] :: splitAtPipes ts
    else
      match splitAtPipes ts with
      | [] => [[t]]
      | s :: rest => (t :: s) :: rest

/-- The stages of a scanned line, with the terminating `Eof` marker
removed (it is the end-of-input sentinel, not part of any stage). -/
def stageTokens (ts : List Token) : List (List Token) :=
  splitAtPipes (ts.filter (fun t => t.kind != .Eof))

/-- The per-stage property claimed in C5: the first token of the stage is
classified `Cmd`, and no later token of the stage is classified `Cmd`
(so every later word-shaped token is an `Arg`). -/
def c5StageClaim (stage : List Token) : Bool :=
  match stage with
  | [] => true
  | t :: rest => t.kind == .Cmd && rest.all (fun u => u.kind != .Cmd)

/-- Word classification consistency, tracking the `had_cmd` flag exactly:
a `Cmd` token may appear only when the flag is unset (and sets it), an
`Arg` token only when it is set, and a `Pipe` token resets it. -/
def classOk : Bool → List Token → Bool
  | _, [] => true
  | had, t :: ts =>
    match t.kind with
    | .Cmd => !had && classOk true ts
    | .Arg => had && classOk true ts
    | .Pipe => classOk false ts
    | _ => classOk had ts

/-- Weak word-classification shape, allowing for suppressed (empty-lexeme)
word tokens which set the flag without emitting a token: within each stage
no `Cmd` token may follow a `Cmd` or `Arg` token. -/
def stageShape : Bool → List Token → Bool
  | _, [] => true
  | seen, t :: ts =>
    match t.kind with
    | .Cmd => !seen && stageShape true ts
    | .Arg => stageShape true ts
    | .Pipe => stageShape false ts
    | _ => stageShape seen ts

/-- An oracle whose lone external command exits with code 3. -/
def osExit3 : OS :=
  ⟨fun _ => none, .ok "/", .ok [], .ok ("", "", some 3), none, none,
    fun _ => none, none, true, "exit status: 3"⟩

/-- The index ranges of the pipeline stages: one range ending at each pipe
position (pipe excluded), and a final range running to the end of the
token sequence. -/
def stageRangesAux (len : Nat) : List Nat → Nat → List (Nat × Nat)
  | [], start => [(start, len)]
  | p :: ps, start => (start, p) :: stageRangesAux len ps (p + 1)

/-- The stage ranges `CommandParser::parse` resolves, derived from the
pipe positions. -/
def stageRanges (toks : List Token) : List (Nat × Nat) :=
  stageRangesAux toks.length (pipePositions toks) 0

/-- Whether `parse_single_command` can process token `t` in the body of a
stage dispatched to kind `k` without panicking: pushing an argument or
flag into a `pwd` command panics, and a `LongFlagWithValue` lexeme
without `'='` panics on `parts[1]`. -/
def tokPushSafe (k : CKind) (t : Token) : Bool :=
  match t.kind with
  | .Arg => !(k == .pwd)
  | .Flag => !(k == .pwd)
  | .LongFlag => !(k == .pwd)
  | .LongFlagWithValue => !(k == .pwd) && t.lexeme.data.contains '='
  | _ => true

/-- A stage range that resolves without error or panic: its leading token
exists and is a `Cmd`, the body slice is in range, and every body token is
pushable for the dispatched command kind. -/
def goodStage (toks : List Token) (r : Nat × Nat) : Bool :=
  match toks.get? r.1 with
  | none => false
  | some t =>
    (t.kind == .Cmd) && decide (r.1 + 1 ≤ r.2) && decide (r.2 ≤ toks.length) &&
      ((toks.take r.2).drop (r.1 + 1)).all (tokPushSafe (dispatch t.lexeme).kind)

/-- Shape of a word lexeme (`Cmd`/`Arg`): nonempty, the head is neither a
dispatch character nor whitespace, and the tail consists of word
characters. -/
def wordishL : List Char → Bool
  | [] => false
  | c :: cs => !(specialChar c) && !(rustIsWhitespace c) && cs.all wordChar

/-- Shape of a short-flag lexeme: `-` followed by alphanumerics. -/
def shortFlagL : List Char → Bool
  | [] => false
  | c :: cs => c == '-' && cs.all (fun x => x.isAlphanum)

/-- Shape of a long-flag identity lexeme: `--` followed by alphanumerics
and dashes (never `=`). -/
def longFlagL : List Char → Bool
  | c1 :: c2 :: cs => c1 == '-' && c2 == '-' && cs.all longFlagChar
  | _ => false

/-- All characters are one-byte (ASCII). -/
def asciiL (l : List Char) : Bool := l.all (fun c => charBytes c == 1)

/-- The lexeme shape every token kind produced by a successful scan
satisfies. -/
def shapeOk (t : Token) : Bool :=
  match t.kind with
  | .Cmd => wordishL t.lexeme.data && asciiL t.lexeme.data
  | .Arg => wordishL t.lexeme.data && asciiL t.lexeme.data
  | .Flag => shortFlagL t.lexeme.data && asciiL t.lexeme.data
  | .LongFlag => longFlagL t.lexeme.data && asciiL t.lexeme.data
  | .LongFlagWithValue =>
    (splitAtEq t.lexeme.data).2.isSome && longFlagL (splitAtEq t.lexeme.data).1 &&
      asciiL (splitAtEq t.lexeme.data).1
  | .Pipe => t.lexeme == "|"
  | .InputRedir => t.lexeme == "<"
  | .OutputRedir => t.lexeme == ">"
  | .Background => t.lexeme == "&"
  | .Eof => t.lexeme == ""

/-- Token kinds that neither start a word nor delimit a stage: appending
one changes neither the word classification state nor the stage split. -/
def nonWordKind (k : TokenType) : Bool :=
  match k with
  | .Flag => true
  | .LongFlag => true
  | .LongFlagWithValue => true
  | .InputRedir => true
  | .OutputRedir => true
  | .Background => true
  | _ => false

/-- The final value of the weak word-classification flag after a token
sequence (`stageShape` semantics). -/
def shapeFlag : Bool → List Token → Bool
  | seen, [] => seen
  | seen, t :: ts =>
    match t.kind with
    | .Cmd => shapeFlag true ts
    | .Arg => shapeFlag true ts
    | .Pipe => shapeFlag false ts
    | _ => shapeFlag seen ts

/-- The final value of the exact `had_cmd` flag after a token sequence
(`classOk` semantics). -/
def classFlag : Bool → List Token → Bool
  | had, [] => had
  | had, t :: ts =>
    match t.kind with
    | .Cmd => classFlag true ts
    | .Arg => classFlag true ts
    | .Pipe => classFlag false ts
    | _ => classFlag had ts

/-- Inputs whose whitespace is limited to the four characters the scanner
skips: no vertical tab, form feed, or exotic Unicode whitespace. -/
def tameWs (l : List Char) : Bool :=
  l.all (fun c => !(rustIsWhitespace c) || inSkipWs c)

/-- The token a rendered flag identity scans back to: a `Flag` for a
short identity, a `LongFlag` for a long one. -/
def flagTok (f : Flag) : Token :=
  match f.ident.short with
  | some s => ⟨.Flag, s⟩
  | none =>
    match f.ident.long with
    | some l => ⟨.LongFlag, l⟩
    | none => ⟨.LongFlag, ""⟩


/-- A flag whose identity is exactly one of the two spellings, with the
lexeme shape the scanner produces for it. -/
def flagGood (f : Flag) : Bool :=
  match f.ident.short, f.ident.long with
  | some s, none => shortFlagL s.data && asciiL s.data
  | none, some l => longFlagL l.data && asciiL l.data
  | _, _ => false

/-- The shape of every single command the parser can produce from scanner
output: the kind is the dispatch of the name, name and positional
arguments are word lexemes, every flag is well-formed, and a `pwd`
command is bare (pushing into its collections panics). -/
def cmdGood (c : SCmd) : Bool :=
  (c.kind == (dispatch c.name).kind) &&
  (wordishL c.name.data && asciiL c.name.data) &&
  c.args.all (fun a => wordishL a.data && asciiL a.data) &&
  c.flags.all flagGood &&
  (!(c.kind == .pwd) || (c.args.isEmpty && c.flags.isEmpty))

/-! # Theorems

First the tokenizer facts the repository's own test-suite checks, as
sanity anchors for the embedding. -/

theorem scan_basic_command :
    scan "ls -l" = some [⟨.Cmd, "ls"⟩, ⟨.Flag, "-l"⟩, ⟨.Eof, ""⟩] := by decide

theorem scan_long_flags :
    scan "cp --hello-world --format=json file.txt" =
      some [⟨.Cmd, "cp"⟩, ⟨.LongFlag, "--hello-world"⟩,
            ⟨.LongFlagWithValue, "--format=json"⟩, ⟨.Arg, "file.txt"⟩, ⟨.Eof, ""⟩] := by decide

theorem scan_quoted_value :
    scan "cp --format=\"json with spaces\" file.txt" =
      some [⟨.Cmd, "cp"⟩, ⟨.LongFlagWithValue, "--format=json with spaces"⟩,
            ⟨.Arg, "file.txt"⟩, ⟨.Eof, ""⟩] := by decide

theorem scan_pipe_operator :
    scan "ls -l | grep pattern" =
      some [⟨.Cmd, "ls"⟩, ⟨.Flag, "-l"⟩, ⟨.Pipe, "|"⟩,
            ⟨.Cmd, "grep"⟩, ⟨.Arg, "pattern"⟩, ⟨.Eof, ""⟩] := by decide

/-! ## Tokenizer frame lemmas

For every scanning function: the source is never modified, `start` and
`had_cmd` change only where the Rust code changes them, tokens are only
appended, and `current` only moves forward, never past the character
count. -/

/-- A successful `get?` exposes the list structure at that index. -/
theorem drop_of_get (l : List Char) (n : Nat) (c : Char) (h : l.get? n = some c) :
    l.drop n = c :: l.drop (n + 1) := by
  have hn : n < l.length := (List.get?_eq_some.mp h).1
  have hc : l[n] = c := by
    rw [List.get?_eq_getElem?, List.getElem?_eq_getElem hn] at h
    injection h with h
  rw [List.drop_eq_getElem_cons hn, hc]

theorem addToken_frame (st st' : Tokenizer) (k : TokenType) (h : addToken st k = some st') :
    st'.source = st.source ∧ st'.start = st.start ∧ st'.current = st.current ∧
    st'.had_cmd = st.had_cmd ∧
    ∃ Δ, st'.tokens = st.tokens ++ Δ ∧ (Δ = [] ∨ ∃ l, Δ = [⟨k, l⟩]) := by
  simp only [addToken] at h
  split at h
  · exact absurd h (by simp)
  next cs hcs =>
    split at h
    · injection h with h
      rw [← h]
      exact ⟨rfl, rfl, rfl, rfl, [], by simp, Or.inl rfl⟩
    · injection h with h
      rw [← h]
      exact ⟨rfl, rfl, rfl, rfl, [⟨k, String.mk (rustTrim cs)⟩], rfl, Or.inr ⟨_, rfl⟩⟩

theorem matchChar_frame (st : Tokenizer) (e : Char) (b : Bool) (st' : Tokenizer)
    (h : matchChar st e = some (b, st')) :
    st'.source = st.source ∧ st'.start = st.start ∧ st'.tokens = st.tokens ∧
    st'.had_cmd = st.had_cmd ∧ st.current ≤ st'.current ∧
    (st'.current = st.current ∨ st'.current ≤ st.source.length) := by
  rw [matchChar] at h
  split at h
  · simp only [Option.some.injEq, Prod.mk.injEq] at h
    rw [← h.2]
    exact ⟨rfl, rfl, rfl, rfl, le_refl _, Or.inl rfl⟩
  · split at h
    · exact absurd h (by simp)
    next c hc =>
      have hlen : st.current < st.source.length := (List.get?_eq_some.mp hc).1
      split at h
      · simp only [Option.some.injEq, Prod.mk.injEq] at h
        rw [← h.2]
        exact ⟨rfl, rfl, rfl, rfl, by simp, Or.inr (by simp; omega)⟩
      · simp only [Option.some.injEq, Prod.mk.injEq] at h
        rw [← h.2]
        exact ⟨rfl, rfl, rfl, rfl, le_refl _, Or.inl rfl⟩

theorem skipWhitespace_frame : ∀ (fuel : Nat) (st st' : Tokenizer),
    skipWhitespace fuel st = some st' →
    st'.source = st.source ∧ st'.start = st.start ∧ st'.tokens = st.tokens ∧
    st'.had_cmd = st.had_cmd ∧ st.current ≤ st'.current ∧
    (st'.current = st.current ∨ st'.current ≤ st.source.length) := by
  intro fuel
  induction fuel with
  | zero => intro st st' h; exact absurd h (by simp [skipWhitespace])
  | succ fuel ih =>
    intro st st' h
    rw [skipWhitespace] at h
    split at h
    · injection h with h
      rw [← h]
      exact ⟨rfl, rfl, rfl, rfl, le_refl _, Or.inl rfl⟩
    · split at h
      · exact absurd h (by simp)
      next c hc =>
        have hlen : st.current < st.source.length := (List.get?_eq_some.mp hc).1
        split at h
        · obtain ⟨h1, h2, h3, h4, h5, h6⟩ := ih _ _ h
          simp only at h1 h2 h3 h4 h5 h6
          refine ⟨h1, h2, h3, h4, by omega, Or.inr ?_⟩
          rcases h6 with h6 | h6 <;> omega
        · injection h with h
          rw [← h]
          exact ⟨rfl, rfl, rfl, rfl, le_refl _, Or.inl rfl⟩

theorem wordLoop_frame : ∀ (fuel : Nat) (st st' : Tokenizer),
    wordLoop fuel st = some st' →
    st'.source = st.source ∧ st'.start = st.start ∧ st'.tokens = st.tokens ∧
    st'.had_cmd = st.had_cmd ∧ st.current ≤ st'.current ∧
    (st'.current = st.current ∨ st'.current ≤ st.source.length) := by
  intro fuel
  induction fuel with
  | zero => intro st st' h; exact absurd h (by simp [wordLoop])
  | succ fuel ih =>
    intro st st' h
    rw [wordLoop] at h
    split at h
    · injection h with h
      rw [← h]
      exact ⟨rfl, rfl, rfl, rfl, le_refl _, Or.inl rfl⟩
    · split at h
      · exact absurd h (by simp)
      next c hc =>
        have hlen : st.current < st.source.length := (List.get?_eq_some.mp hc).1
        split at h
        · obtain ⟨h1, h2, h3, h4, h5, h6⟩ := ih _ _ h
          simp only at h1 h2 h3 h4 h5 h6
          refine ⟨h1, h2, h3, h4, by omega, Or.inr ?_⟩
          rcases h6 with h6 | h6 <;> omega
        · injection h with h
          rw [← h]
          exact ⟨rfl, rfl, rfl, rfl, le_refl _, Or.inl rfl⟩

theorem flagLoop_frame : ∀ (fuel : Nat) (st st' : Tokenizer),
    flagLoop fuel st = some st' →
    st'.source = st.source ∧ st'.start = st.start ∧
    st'.had_cmd = st.had_cmd ∧ st.current ≤ st'.current ∧
    (st'.current = st.current ∨ st'.current ≤ st.source.length) ∧
    ∃ Δ, st'.tokens = st.tokens ++ Δ ∧ (Δ = [] ∨ ∃ l, Δ = [⟨.Flag, l⟩]) := by
  intro fuel
  induction fuel with
  | zero => intro st st' h; exact absurd h (by simp [flagLoop])
  | succ fuel ih =>
    intro st st' h
    rw [flagLoop] at h
    split at h
    · obtain ⟨h1, h2, h3, h4, hΔ⟩ := addToken_frame st st' .Flag h
      exact ⟨h1, h2, h4, by omega, Or.inl h3, hΔ⟩
    · split at h
      · exact absurd h (by simp)
      next c hc =>
        have hlen : st.current < st.source.length := (List.get?_eq_some.mp hc).1
        split at h
        · obtain ⟨h1, h2, h4, h5, h6, hΔ⟩ := ih _ _ h
          simp only at h1 h2 h4 h5 h6
          refine ⟨h1, h2, h4, by omega, Or.inr ?_, hΔ⟩
          rcases h6 with h6 | h6 <;> omega
        · obtain ⟨h1, h2, h3, h4, hΔ⟩ := addToken_frame st st' .Flag h
          exact ⟨h1, h2, h4, by omega, Or.inl h3, hΔ⟩

theorem finishFlagValue_frame (st st' : Tokenizer) (v : Nat)
    (h : finishFlagValue st v = some st') :
    st'.source = st.source ∧ st'.start = st.start ∧ st'.current = st.current ∧
    st'.had_cmd = st.had_cmd ∧
    ∃ l, st'.tokens = st.tokens ++ [⟨.LongFlagWithValue, l⟩] := by
  rw [finishFlagValue] at h
  split at h
  · exact absurd h (by simp)
  next f hf =>
    split at h
    · exact absurd h (by simp)
    next vv hvv =>
      injection h with h
      rw [← h]
      exact ⟨rfl, rfl, rfl, rfl, _, rfl⟩

theorem flagValueLoop_frame : ∀ (fuel : Nat) (st st' : Tokenizer) (v : Nat) (inq : Bool),
    flagValueLoop fuel st v inq = some st' →
    st'.source = st.source ∧ st'.start = st.start ∧
    st'.had_cmd = st.had_cmd ∧ st.current ≤ st'.current ∧
    (st'.current = st.current ∨ st'.current ≤ st.source.length) ∧
    ∃ l, st'.tokens = st.tokens ++ [⟨.LongFlagWithValue, l⟩] := by
  intro fuel
  induction fuel with
  | zero => intro st st' v inq h; exact absurd h (by simp [flagValueLoop])
  | succ fuel ih =>
    intro st st' v inq h
    rw [flagValueLoop] at h
    split at h
    · obtain ⟨h1, h2, h3, h4, hΔ⟩ := finishFlagValue_frame st st' v h
      exact ⟨h1, h2, h4, by omega, Or.inl h3, hΔ⟩
    · split at h
      · exact absurd h (by simp)
      next c hc =>
        have hlen : st.current < st.source.length := (List.get?_eq_some.mp hc).1
        split at h
        · obtain ⟨h1, h2, h4, h5, h6, hΔ⟩ := ih _ _ _ _ h
          simp only at h1 h2 h4 h5 h6
          refine ⟨h1, h2, h4, by omega, Or.inr ?_, hΔ⟩
          rcases h6 with h6 | h6 <;> omega
        · split at h
          · obtain ⟨h1, h2, h3, h4, hΔ⟩ := finishFlagValue_frame st st' v h
            exact ⟨h1, h2, h4, by omega, Or.inl h3, hΔ⟩
          · obtain ⟨h1, h2, h4, h5, h6, hΔ⟩ := ih _ _ _ _ h
            simp only at h1 h2 h4 h5 h6
            refine ⟨h1, h2, h4, by omega, Or.inr ?_, hΔ⟩
            rcases h6 with h6 | h6 <;> omega

theorem longFlagLoop_frame : ∀ (fuel : Nat) (st st' : Tokenizer),
    longFlagLoop fuel st = some st' →
    st'.source = st.source ∧ st'.start = st.start ∧
    st'.had_cmd = st.had_cmd ∧ st.current ≤ st'.current ∧
    (st'.current = st.current ∨ st'.current ≤ st.source.length) ∧
    ∃ Δ, st'.tokens = st.tokens ++ Δ ∧
      (Δ = [] ∨ (∃ l, Δ = [⟨.LongFlag, l⟩]) ∨ ∃ l, Δ = [⟨.LongFlagWithValue, l⟩]) := by
  intro fuel
  induction fuel with
  | zero => intro st st' h; exact absurd h (by simp [longFlagLoop])
  | succ fuel ih =>
    intro st st' h
    rw [longFlagLoop] at h
    split at h
    · obtain ⟨h1, h2, h3, h4, Δ, hΔ, hk⟩ := addToken_frame st st' .LongFlag h
      refine ⟨h1, h2, h4, by omega, Or.inl h3, Δ, hΔ, ?_⟩
      rcases hk with hk | hk
      · exact Or.inl hk
      · exact Or.inr (Or.inl hk)
    · split at h
      · exact absurd h (by simp)
      next c hc =>
        have hlen : st.current < st.source.length := (List.get?_eq_some.mp hc).1
        split at h
        · rw [handleFlagValue] at h
          obtain ⟨h1, h2, h4, h5, h6, l, hΔ⟩ := flagValueLoop_frame _ _ _ _ _ h
          simp only at h1 h2 h4 h5 h6 hΔ
          refine ⟨h1, h2, h4, by omega, Or.inr ?_, [⟨.LongFlagWithValue, l⟩], hΔ,
            Or.inr (Or.inr ⟨l, rfl⟩)⟩
          rcases h6 with h6 | h6 <;> omega
        · split at h
          · obtain ⟨h1, h2, h4, h5, h6, hΔ⟩ := ih _ _ h
            simp only at h1 h2 h4 h5 h6
            refine ⟨h1, h2, h4, by omega, Or.inr ?_, hΔ⟩
            rcases h6 with h6 | h6 <;> omega
          · obtain ⟨h1, h2, h3, h4, Δ, hΔ, hk⟩ := addToken_frame st st' .LongFlag h
            refine ⟨h1, h2, h4, by omega, Or.inl h3, Δ, hΔ, ?_⟩
            rcases hk with hk | hk
            · exact Or.inl hk
            · exact Or.inr (Or.inl hk)

theorem wordHandle_frame (fuel : Nat) (st st' : Tokenizer) (h : wordHandle fuel st = some st') :
    st'.source = st.source ∧ st'.start = st.start ∧ st.current ≤ st'.current ∧
    (st'.current = st.current ∨ st'.current ≤ st.source.length) ∧
    st'.had_cmd = true ∧
    ∃ Δ, st'.tokens = st.tokens ++ Δ ∧
      (Δ = [] ∨ (st.had_cmd = false ∧ ∃ l, Δ = [⟨.Cmd, l⟩]) ∨
       (st.had_cmd = true ∧ ∃ l, Δ = [⟨.Arg, l⟩])) := by
  rw [wordHandle] at h
  split at h
  · exact absurd h (by simp)
  next st1 hw =>
    obtain ⟨w1, w2, w3, w4, w5, w6⟩ := wordLoop_frame fuel st st1 hw
    split at h
    next hhad =>
      obtain ⟨a1, a2, a3, a4, Δ, hΔ, hk⟩ := addToken_frame st1 st' .Arg h
      refine ⟨a1.trans w1, a2.trans w2, by omega, ?_, a4.trans hhad,
        Δ, by rw [hΔ, w3], ?_⟩
      · rcases w6 with w6 | w6
        · exact Or.inl (a3.trans w6)
        · right; rw [a3]; exact w6
      · rcases hk with hk | ⟨l, hk⟩
        · exact Or.inl hk
        · exact Or.inr (Or.inr ⟨w4.symm.trans hhad, l, hk⟩)
    next hhad =>
      split at h
      · exact absurd h (by simp)
      next st2 ha =>
        obtain ⟨a1, a2, a3, a4, Δ, hΔ, hk⟩ := addToken_frame st1 st2 .Cmd ha
        injection h with h
        rw [← h]
        refine ⟨a1.trans w1, a2.trans w2, by simp; omega, ?_, rfl, Δ, by simp; rw [hΔ, w3], ?_⟩
        · rcases w6 with w6 | w6
          · exact Or.inl (by simp; exact a3.trans w6)
          · right; simp; rw [a3]; exact w6
        · rcases hk with hk | ⟨l, hk⟩
          · exact Or.inl hk
          · refine Or.inr (Or.inl ⟨?_, l, hk⟩)
            rw [← w4]
            simpa using hhad


theorem scanToken_frame (fuel : Nat) (st st' : Tokenizer) (h : scanToken fuel st = some st') :
    st'.source = st.source ∧ st'.start = st.start ∧
    st.current < st'.current ∧ st'.current ≤ st.source.length := by
  simp only [scanToken] at h
  split at h
  · exact absurd h (by simp)
  next c hc =>
    have hlen : st.current < st.source.length := (List.get?_eq_some.mp hc).1
    split at h
    · obtain ⟨h1, h2, _, _, h5, h6⟩ := skipWhitespace_frame fuel _ _ h
      simp only at h1 h2 h5 h6
      exact ⟨h1, h2, by omega, by rcases h6 with h6 | h6 <;> omega⟩
    · split at h
      · split at h
        · exact absurd h (by simp)
        next st2 hm =>
          obtain ⟨m1, m2, _, _, m5, m6⟩ := matchChar_frame _ '-' _ _ hm
          simp only at m1 m2 m5 m6
          obtain ⟨h1, h2, _, h5, h6, _⟩ := longFlagLoop_frame fuel _ _ h
          refine ⟨h1.trans m1, h2.trans m2, by omega, ?_⟩
          rcases h6 with h6 | h6
          · rcases m6 with m6 | m6 <;> omega
          · rw [m1] at h6; omega
        next st2 hm =>
          obtain ⟨m1, m2, _, _, m5, m6⟩ := matchChar_frame _ '-' _ _ hm
          simp only at m1 m2 m5 m6
          obtain ⟨h1, h2, _, h5, h6, _⟩ := flagLoop_frame fuel _ _ h
          refine ⟨h1.trans m1, h2.trans m2, by omega, ?_⟩
          rcases h6 with h6 | h6
          · rcases m6 with m6 | m6 <;> omega
          · rw [m1] at h6; omega
      · split at h
        · split at h
          · exact absurd h (by simp)
          next st2 ha =>
            obtain ⟨a1, a2, a3, _, _⟩ := addToken_frame _ st2 .Pipe ha
            injection h with h
            rw [← h]
            simp only at a1 a2 a3 ⊢
            exact ⟨a1, a2, by omega, by omega⟩
        · split at h
          · obtain ⟨a1, a2, a3, _, _⟩ := addToken_frame _ st' .InputRedir h
            simp only at a1 a2 a3
            exact ⟨a1, a2, by omega, by omega⟩
          · split at h
            · obtain ⟨a1, a2, a3, _, _⟩ := addToken_frame _ st' .OutputRedir h
              simp only at a1 a2 a3
              exact ⟨a1, a2, by omega, by omega⟩
            · split at h
              · obtain ⟨a1, a2, a3, _, _⟩ := addToken_frame _ st' .Background h
                simp only at a1 a2 a3
                exact ⟨a1, a2, by omega, by omega⟩
              · obtain ⟨h1, h2, h5, h6, _, _⟩ := wordHandle_frame fuel _ _ h
                simp only at h1 h2 h5 h6
                exact ⟨h1, h2, by omega, by rcases h6 with h6 | h6 <;> omega⟩

/-- The scanning loop only ends with `current` at or past the byte length
and never past the character count. -/
theorem scanLoop_exit : ∀ (fuel : Nat) (st st' : Tokenizer), scanLoop fuel st = some st' →
    st.current ≤ st.source.length →
    st'.source = st.source ∧ byteLen st.source ≤ st'.current ∧
    st'.current ≤ st.source.length := by
  intro fuel
  induction fuel with
  | zero => intro st st' h; exact absurd h (by simp [scanLoop])
  | succ fuel ih =>
    intro st st' h hcur
    rw [scanLoop] at h
    split at h
    next hend =>
      injection h with h
      rw [← h]
      exact ⟨rfl, hend, hcur⟩
    next hend =>
      split at h
      · exact absurd h (by simp)
      next st1 hstep =>
        obtain ⟨s1, _, s3, s4⟩ := scanToken_frame fuel _ _ hstep
        simp only at s1 s3 s4
        have := ih st1 st' h (by rw [s1]; omega)
        rw [s1] at this
        exact this

theorem charBytes_pos (c : Char) : 1 ≤ charBytes c := by
  rw [charBytes]
  split
  · omega
  · split
    · omega
    · split <;> omega

theorem length_le_byteLen (l : List Char) : l.length ≤ byteLen l := by
  induction l with
  | nil => simp [byteLen]
  | cons c cs ih =>
    have := charBytes_pos c
    simp only [byteLen, List.map_cons, List.sum_cons, List.length_cons] at *
    omega

/-- If the byte length does not exceed the character count, every
character is one byte. -/
theorem ascii_of_byteLen_le_length : ∀ (l : List Char), byteLen l ≤ l.length →
    ∀ c ∈ l, charBytes c = 1 := by
  intro l
  induction l with
  | nil => intro _ c hc; exact absurd hc (by simp)
  | cons d ds ih =>
    intro h c hc
    have h1 := charBytes_pos d
    have h2 := length_le_byteLen ds
    simp only [byteLen, List.map_cons, List.sum_cons, List.length_cons] at h
    rcases List.mem_cons.mp hc with hc | hc
    · rw [hc]
      have : byteLen ds ≥ ds.length := h2
      simp only [byteLen] at this
      omega
    · refine ih ?_ c hc
      simp only [byteLen] at h2 ⊢
      omega

/-- A successful scan forces the whole input to be ASCII: `current`
advances one character at a time yet must reach the byte length. -/
theorem scan_ascii (s : String) (ts : List Token) (h : scan s = some ts) :
    ∀ c ∈ s.data, charBytes c = 1 := by
  rw [scan, scanTokens] at h
  split at h
  · exact absurd h (by simp)
  next st hst =>
    obtain ⟨_, h2, h3⟩ := scanLoop_exit _ _ _ hst (by simp)
    simp only at h2 h3
    exact ascii_of_byteLen_le_length s.data (by omega)

/-! ## ASCII alignment and character-class lemmas -/

theorem byteLen_ascii : ∀ (l : List Char), (∀ c ∈ l, charBytes c = 1) → byteLen l = l.length := by
  intro l
  induction l with
  | nil => intro _; rfl
  | cons c cs ih =>
    intro hA
    simp only [byteLen, List.map_cons, List.sum_cons, List.length_cons] at *
    rw [hA c (by simp), ih (fun x hx => hA x (by simp [hx]))]
    omega

theorem byteDrop_ascii : ∀ (l : List Char), (∀ c ∈ l, charBytes c = 1) →
    ∀ a, a ≤ l.length → byteDrop l a = some (l.drop a) := by
  intro l
  induction l with
  | nil =>
    intro _ a ha
    have : a = 0 := by simpa using ha
    rw [this]
    rfl
  | cons c cs ih =>
    intro hA a ha
    cases a with
    | zero => rfl
    | succ n =>
      rw [byteDrop, hA c (by simp)]
      simp only [List.length_cons] at ha
      simp only [List.drop_succ_cons]
      rw [if_pos (by omega)]
      have : n + 1 - 1 = n := by omega
      rw [this]
      exact ih (fun x hx => hA x (by simp [hx])) n (by omega)

theorem byteTake_ascii : ∀ (l : List Char), (∀ c ∈ l, charBytes c = 1) →
    ∀ a, a ≤ l.length → byteTake l a = some (l.take a) := by
  intro l
  induction l with
  | nil =>
    intro _ a ha
    have : a = 0 := by simpa using ha
    rw [this]
    rfl
  | cons c cs ih =>
    intro hA a ha
    cases a with
    | zero => rfl
    | succ n =>
      rw [byteTake, hA c (by simp)]
      simp only [List.length_cons] at ha
      rw [if_pos (by omega)]
      have : n + 1 - 1 = n := by omega
      rw [this, ih (fun x hx => hA x (by simp [hx])) n (by omega)]
      simp [List.take_succ_cons]

theorem byteSlice_ascii (l : List Char) (hA : ∀ c ∈ l, charBytes c = 1)
    (a b : Nat) (hab : a ≤ b) (hb : b ≤ l.length) :
    byteSlice l a b = some ((l.drop a).take (b - a)) := by
  rw [byteSlice, if_pos hab, byteDrop_ascii l hA a (by omega)]
  rw [Option.some_bind]
  exact byteTake_ascii (l.drop a) (fun x hx => hA x (List.mem_of_mem_drop hx)) (b - a)
    (by rw [List.length_drop]; omega)

/-- Alphanumeric characters occupy the digit and letter code ranges. -/
theorem alnum_toNat (c : Char) (h : c.isAlphanum = true) :
    (65 ≤ c.toNat ∧ c.toNat ≤ 90) ∨ (97 ≤ c.toNat ∧ c.toNat ≤ 122) ∨
    (48 ≤ c.toNat ∧ c.toNat ≤ 57) := by
  simp only [Char.isAlphanum, Char.isAlpha, Char.isDigit, Char.isUpper, Char.isLower,
    Bool.or_eq_true, Bool.and_eq_true, decide_eq_true_eq] at h
  rcases h with (⟨a, b⟩ | ⟨a, b⟩) | ⟨a, b⟩
  · exact Or.inl ⟨a, b⟩
  · exact Or.inr (Or.inl ⟨a, b⟩)
  · exact Or.inr (Or.inr ⟨a, b⟩)

theorem alnum_not_ws (c : Char) (h : c.isAlphanum = true) : rustIsWhitespace c = false := by
  have h3 := alnum_toNat c h
  simp only [rustIsWhitespace, Bool.or_eq_false_iff, Bool.and_eq_false_iff,
    decide_eq_false_iff_not, not_le, beq_eq_false_iff_ne, ne_eq]
  omega

theorem wordChar_not_ws (c : Char) (h : wordChar c = true) : rustIsWhitespace c = false := by
  simp only [wordChar, Bool.or_eq_true, beq_iff_eq] at h
  rcases h with ((h | h) | h) | h
  · exact alnum_not_ws c h
  all_goals rw [h]; decide

theorem longFlagChar_not_ws (c : Char) (h : longFlagChar c = true) :
    rustIsWhitespace c = false := by
  simp only [longFlagChar, Bool.or_eq_true, beq_iff_eq] at h
  rcases h with h | h
  · exact alnum_not_ws c h
  · rw [h]; decide

theorem longFlagChar_ne_eq (c : Char) (h : longFlagChar c = true) : ¬(c = '=') := by
  intro hc
  rw [hc] at h
  exact absurd h (by decide)

theorem wordChar_not_special (c : Char) (h : wordChar c = true) : specialChar c = false := by
  cases hs : specialChar c with
  | false => rfl
  | true =>
    simp only [specialChar, inSkipWs, Bool.or_eq_true, beq_iff_eq] at hs
    rcases hs with ((((((((hs | hs) | hs) | hs) | hs) | hs) | hs) | hs) | hs) <;>
      rw [hs] at h <;> exact absurd h (by decide)

theorem dropLead_all (p : Char → Bool) : ∀ (l : List Char), (∀ c ∈ l, p c = false) →
    dropLead p l = l := by
  intro l
  induction l with
  | nil => intro _; rfl
  | cons c cs _ =>
    intro h
    rw [dropLead, h c (by simp)]
    simp

theorem rustTrim_all (l : List Char) (h : ∀ c ∈ l, rustIsWhitespace c = false) :
    rustTrim l = l := by
  rw [rustTrim]
  rw [dropLead_all _ l h]
  rw [dropLead_all _ l.reverse (fun c hc => h c (List.mem_reverse.mp hc))]
  simp

theorem rustTrim_cons_ws (c : Char) (l : List Char) (hc : rustIsWhitespace c = true)
    (h : ∀ x ∈ l, rustIsWhitespace x = false) : rustTrim (c :: l) = l := by
  rw [rustTrim, dropLead, hc]
  simp only [if_true]
  rw [dropLead_all _ l h]
  rw [dropLead_all _ l.reverse (fun x hx => h x (List.mem_reverse.mp hx))]
  simp

theorem splitAtEq_append : ∀ (f v : List Char), (∀ c ∈ f, ¬(c = '=')) →
    splitAtEq (f ++ '=' :: v) = (f, some v) := by
  intro f
  induction f with
  | nil => intro v _; simp [splitAtEq]
  | cons c cs ih =>
    intro v h
    have hc : ¬(c = '=') := h c (by simp)
    have ih2 := ih v (fun x hx => h x (by simp [hx]))
    simp only [List.cons_append, splitAtEq, if_neg hc]
    rw [show cs.append ('=' :: v) = cs ++ '=' :: v from rfl, ih2]

theorem take_takeWhile_length (p : Char → Bool) : ∀ (l : List Char),
    l.take (l.takeWhile p).length = l.takeWhile p := by
  intro l
  induction l with
  | nil => rfl
  | cons c cs ih =>
    rw [List.takeWhile_cons]
    by_cases h : p c = true
    · rw [if_pos h]
      simp only [List.length_cons, List.take_succ_cons]
      rw [ih]
    · rw [if_neg h]
      simp

/-! ## Run characterisation of the scanning loops (on ASCII sources) -/

/-- A successful whitespace skip consumes exactly the run of skip
characters. -/
theorem skipWhitespace_run : ∀ (fuel : Nat) (st st' : Tokenizer),
    (∀ c ∈ st.source, charBytes c = 1) →
    skipWhitespace fuel st = some st' →
    st' = { st with current :=
      st.current + ((st.source.drop st.current).takeWhile inSkipWs).length } := by
  intro fuel
  induction fuel with
  | zero => intro st st' hA h; exact absurd h (by simp [skipWhitespace])
  | succ fuel ih =>
    intro st st' hA h
    rw [skipWhitespace] at h
    split at h
    next hend =>
      injection h with h
      rw [byteLen_ascii _ hA] at hend
      rw [List.drop_eq_nil_of_le hend]
      simp [← h]
    next hend =>
      split at h
      · exact absurd h (by simp)
      next c hc =>
        split at h
        next hws =>
          have ih2 := ih _ _ (by simpa using hA) h
          rw [ih2]
          dsimp only
          rw [drop_of_get _ _ _ hc, List.takeWhile_cons, if_pos hws]
          simp only [List.length_cons]
          have harith : st.current + 1 +
              ((st.source.drop (st.current + 1)).takeWhile inSkipWs).length =
              st.current + (((st.source.drop (st.current + 1)).takeWhile inSkipWs).length + 1) := by
            omega
          rw [harith]
        next hws =>
          injection h with h
          rw [drop_of_get _ _ _ hc, List.takeWhile_cons, if_neg hws]
          simp [← h]

/-- A successful word scan consumes exactly the run of word characters. -/
theorem wordLoop_run : ∀ (fuel : Nat) (st st' : Tokenizer),
    (∀ c ∈ st.source, charBytes c = 1) →
    wordLoop fuel st = some st' →
    st' = { st with current :=
      st.current + ((st.source.drop st.current).takeWhile wordChar).length } := by
  intro fuel
  induction fuel with
  | zero => intro st st' hA h; exact absurd h (by simp [wordLoop])
  | succ fuel ih =>
    intro st st' hA h
    rw [wordLoop] at h
    split at h
    next hend =>
      injection h with h
      rw [byteLen_ascii _ hA] at hend
      rw [List.drop_eq_nil_of_le hend]
      simp [← h]
    next hend =>
      split at h
      · exact absurd h (by simp)
      next c hc =>
        split at h
        next hwc =>
          have ih2 := ih _ _ (by simpa using hA) h
          rw [ih2]
          dsimp only
          rw [drop_of_get _ _ _ hc, List.takeWhile_cons, if_pos hwc]
          simp only [List.length_cons]
          have harith : st.current + 1 +
              ((st.source.drop (st.current + 1)).takeWhile wordChar).length =
              st.current + (((st.source.drop (st.current + 1)).takeWhile wordChar).length + 1) := by
            omega
          rw [harith]
        next hwc =>
          injection h with h
          rw [drop_of_get _ _ _ hc, List.takeWhile_cons, if_neg hwc]
          simp [← h]

/-- A successful short-flag scan is an `add_token` at the end of the
alphanumeric run. -/
theorem flagLoop_run : ∀ (fuel : Nat) (st st' : Tokenizer),
    (∀ c ∈ st.source, charBytes c = 1) →
    flagLoop fuel st = some st' →
    addToken { st with current :=
        st.current + ((st.source.drop st.current).takeWhile (fun c => c.isAlphanum)).length }
      .Flag = some st' := by
  intro fuel
  induction fuel with
  | zero => intro st st' hA h; exact absurd h (by simp [flagLoop])
  | succ fuel ih =>
    intro st st' hA h
    rw [flagLoop] at h
    split at h
    next hend =>
      rw [byteLen_ascii _ hA] at hend
      rw [List.drop_eq_nil_of_le hend]
      simpa using h
    next hend =>
      split at h
      · exact absurd h (by simp)
      next c hc =>
        split at h
        next hal =>
          have ih2 := ih _ _ (by simpa using hA) h
          dsimp only at ih2
          rw [drop_of_get _ _ _ hc, List.takeWhile_cons, if_pos hal]
          simp only [List.length_cons]
          have harith : st.current +
              (((st.source.drop (st.current + 1)).takeWhile (fun c => c.isAlphanum)).length + 1) =
              st.current + 1 +
              ((st.source.drop (st.current + 1)).takeWhile (fun c => c.isAlphanum)).length := by
            omega
          rw [harith]
          exact ih2
        next hal =>
          rw [drop_of_get _ _ _ hc, List.takeWhile_cons, if_neg hal]
          simpa using h

/-- A successful long-flag scan either stops short of a `=` and emits the
`LongFlag` token, or hits `=` at the end of its run and switches to value
capture. -/
theorem longFlagLoop_run : ∀ (fuel : Nat) (st st' : Tokenizer),
    (∀ c ∈ st.source, charBytes c = 1) →
    longFlagLoop fuel st = some st' →
    ∃ pos, pos = st.current + ((st.source.drop st.current).takeWhile longFlagChar).length ∧
      ((st.source.get? pos ≠ some '=' ∧
        addToken { st with current := pos } .LongFlag = some st') ∨
       (st.source.get? pos = some '=' ∧
        ∃ fuel2, flagValueLoop fuel2 { st with current := pos + 1 } (pos + 1) false = some st')) := by
  intro fuel
  induction fuel with
  | zero => intro st st' hA h; exact absurd h (by simp [longFlagLoop])
  | succ fuel ih =>
    intro st st' hA h
    rw [longFlagLoop] at h
    split at h
    next hend =>
      rw [byteLen_ascii _ hA] at hend
      refine ⟨st.current, by rw [List.drop_eq_nil_of_le hend]; simp, Or.inl ⟨?_, ?_⟩⟩
      · rw [List.get?_eq_none.mpr (by omega)]
        simp
      · simpa using h
    next hend =>
      split at h
      · exact absurd h (by simp)
      next c hc =>
        split at h
        next heq =>
          rw [heq] at hc
          refine ⟨st.current, ?_, Or.inr ⟨hc, fuel, ?_⟩⟩
          · rw [drop_of_get _ _ _ hc, List.takeWhile_cons]
            simp [longFlagChar]
          · rw [handleFlagValue] at h
            exact h
        next heq =>
          split at h
          next hlf =>
            obtain ⟨pos, hpos, hres⟩ := ih _ _ (by simpa using hA) h
            dsimp only at hpos hres
            refine ⟨pos, ?_, hres⟩
            rw [hpos, drop_of_get _ _ _ hc, List.takeWhile_cons, if_pos hlf]
            simp only [List.length_cons]
            omega
          next hlf =>
            refine ⟨st.current, ?_, Or.inl ⟨?_, ?_⟩⟩
            · rw [drop_of_get _ _ _ hc, List.takeWhile_cons, if_neg hlf]
              simp
            · rw [hc]
              intro hcontra
              injection hcontra with hcontra
              exact heq hcontra
            · simpa using h

/-- `add_token` on an ASCII source with `start ≤ current ≤ length`:
append the trimmed slice unless it trims to nothing. -/
theorem addToken_eq (st : Tokenizer) (k : TokenType)
    (hA : ∀ c ∈ st.source, charBytes c = 1)
    (h1 : st.start ≤ st.current) (h2 : st.current ≤ st.source.length) :
    addToken st k =
      some (if rustTrim ((st.source.drop st.start).take (st.current - st.start)) = [] then st
        else { st with tokens := st.tokens ++
          [⟨k, String.mk (rustTrim ((st.source.drop st.start).take (st.current - st.start)))⟩] }) := by
  rw [addToken, byteSlice_ascii _ hA _ _ h1 h2]
  by_cases hT : rustTrim ((st.source.drop st.start).take (st.current - st.start)) = []
  · rw [if_pos hT]
    simp [hT]
  · rw [if_neg hT]
    simp [hT]

/-- The value-capture loop always pushes exactly one `LongFlagWithValue`
token; when the identity slice before the `=` has the long-flag shape,
that token satisfies `shapeOk`. -/
theorem flagValueLoop_shapeOk : ∀ (fuel : Nat) (st st' : Tokenizer) (v : Nat) (inq : Bool),
    (∀ c ∈ st.source, charBytes c = 1) →
    flagValueLoop fuel st v inq = some st' →
    st.start ≤ v - 1 → v - 1 ≤ st.current → st.current ≤ st.source.length →
    (∃ run, (st.source.drop st.start).take (v - 1 - st.start) = '-' :: '-' :: run ∧
      ∀ c ∈ run, longFlagChar c = true) →
    ∃ l, st'.tokens = st.tokens ++ [⟨.LongFlagWithValue, l⟩] ∧
      shapeOk ⟨.LongFlagWithValue, l⟩ = true := by
  have hfin : ∀ (st st' : Tokenizer) (v : Nat),
      (∀ c ∈ st.source, charBytes c = 1) →
      finishFlagValue st v = some st' →
      st.start ≤ v - 1 → v - 1 ≤ st.current → st.current ≤ st.source.length →
      (∃ run, (st.source.drop st.start).take (v - 1 - st.start) = '-' :: '-' :: run ∧
        ∀ c ∈ run, longFlagChar c = true) →
      ∃ l, st'.tokens = st.tokens ++ [⟨.LongFlagWithValue, l⟩] ∧
        shapeOk ⟨.LongFlagWithValue, l⟩ = true := by
    intro st st' v hA h hb1 hb2 hb3 hrun
    obtain ⟨run, hslice, hrunc⟩ := hrun
    rw [finishFlagValue] at h
    rw [byteSlice_ascii _ hA _ _ hb1 (by omega)] at h
    split at h
    · exact absurd h (by simp)
    next vv hvv =>
      rw [Option.some.injEq] at hvv
      split at h
      · exact absurd h (by simp)
      next vv2 hvv2 =>
        injection h with h
        rw [← h]
        dsimp only
        have hnws : ∀ c ∈ '-' :: '-' :: run, rustIsWhitespace c = false := by
          intro c hcm
          rcases List.mem_cons.mp hcm with hcm | hcm
          · rw [hcm]; decide
          · rcases List.mem_cons.mp hcm with hcm | hcm
            · rw [hcm]; decide
            · exact longFlagChar_not_ws c (hrunc c hcm)
        have hne : ∀ c ∈ '-' :: '-' :: run, ¬(c = '=') := by
          intro c hcm
          rcases List.mem_cons.mp hcm with hcm | hcm
          · rw [hcm]; decide
          · rcases List.mem_cons.mp hcm with hcm | hcm
            · rw [hcm]; decide
            · exact longFlagChar_ne_eq c (hrunc c hcm)
        rw [hslice] at hvv
        rw [← hvv, rustTrim_all _ hnws]
        refine ⟨_, rfl, ?_⟩
        have hasc : asciiL ('-' :: '-' :: run) = true := by
          rw [asciiL, List.all_eq_true]
          intro x hx
          rw [← hslice] at hx
          have hx2 : x ∈ st.source :=
            List.mem_of_mem_drop (List.mem_of_mem_take hx)
          simp [hA x hx2]
        simp only [shapeOk]
        rw [splitAtEq_append ('-' :: '-' :: run) (trimQuotes vv2) hne]
        simp only [Option.isSome_some, Bool.true_and]
        rw [Bool.and_eq_true]
        constructor
        · rw [longFlagL]
          simp only [Bool.and_eq_true, beq_self_eq_true, true_and]
          rw [List.all_eq_true]
          intro x hx
          exact hrunc x hx
        · exact hasc
  intro fuel
  induction fuel with
  | zero => intro st st' v inq hA h; exact absurd h (by simp [flagValueLoop])
  | succ fuel ih =>
    intro st st' v inq hA h hb1 hb2 hb3 hrun
    rw [flagValueLoop] at h
    split at h
    · exact hfin st st' v hA h hb1 hb2 hb3 hrun
    next hend =>
      split at h
      · exact absurd h (by simp)
      next c hc =>
        have hlt : st.current < st.source.length := (List.get?_eq_some.mp hc).1
        split at h
        · exact ih { st with current := st.current + 1 } st' v (!inq) hA h hb1
            (Nat.le_succ_of_le hb2) hlt hrun
        · split at h
          · exact hfin st st' v hA h hb1 hb2 hb3 hrun
          · exact ih { st with current := st.current + 1 } st' v inq hA h hb1
              (Nat.le_succ_of_le hb2) hlt hrun

/-- Discharging the help check for a pipeline: `Pipeline::get_flags`
returns `&[]`, so `execute` always reaches `execute_impl`. -/
theorem executeTop_pipeline_eq (cs : List SCmd) (os : OS) :
    PCmd.executeTop (.pipeline cs) os = pipelineImpl cs os := by
  have h : hasHelpFlag (PCmd.getFlags (.pipeline cs)) = false := rfl
  simp [PCmd.executeTop, h]

/-- With no spawn failures, the spawn loop spawns every remaining stage in
order and then waits on the terminal stage only. -/
theorem spawnLoop_clean (os : OS) (n : Nat) (hs : ∀ j, os.spawnErr j = none) :
    ∀ (rest : List SCmd) (i : Nat),
      spawnLoop os n rest i =
        (pipelineWaitResult os, stageSpawnEvents n rest i ++ [.waitStage (n - 1)]) := by
  intro rest
  induction rest with
  | nil => intro i; simp [spawnLoop, stageSpawnEvents]
  | cons c t ih =>
    intro i
    simp [spawnLoop, hs i, stageSpawnEvents, ih (i + 1)]

/-- Every spawn event the spawn loop emits belongs to the stage at the
matching index and carries exactly that stage's name and argument list. -/
theorem spawnLoop_spawn_mem (os : OS) (n : Nat) :
    ∀ (rest : List SCmd) (i j : Nat) (prog : String) (argv : List String) (b1 b2 : Bool),
      Effect.spawn (some j) prog argv b1 b2 ∈ (spawnLoop os n rest i).2 →
      ∃ k st, rest.get? k = some st ∧ j = i + k ∧ prog = st.getName ∧ argv = st.getArgs := by
  intro rest
  induction rest with
  | nil =>
    intro i j prog argv b1 b2 hmem
    simp [spawnLoop] at hmem
  | cons c t ih =>
    intro i j prog argv b1 b2 hmem
    rw [spawnLoop] at hmem
    cases hsp : os.spawnErr i with
    | some e => rw [hsp] at hmem; simp at hmem
    | none =>
      rw [hsp] at hmem
      simp only [List.mem_cons] at hmem
      rcases hmem with heq | hmem
      · injection heq with h1 h2 h3 h4 h5
        injection h1 with h1
        exact ⟨0, c, rfl, by omega, h2, h3⟩
      · obtain ⟨k, st, hk, hj, hp, ha⟩ := ih (i + 1) j prog argv b1 b2 hmem
        exact ⟨k + 1, st, hk, by omega, hp, ha⟩

/-- For a nonempty list, `any` splits into the initial segment and the
last element. -/
theorem any_dropLast_getLastD (p : SCmd → Bool) :
    ∀ (cs : List SCmd) (d : SCmd), cs ≠ [] →
      (cs.dropLast.any p || p (cs.getLastD d)) = cs.any p := by
  intro cs
  induction cs with
  | nil => intro d h; exact absurd rfl h
  | cons c t ih =>
    intro d _
    cases t with
    | nil => simp [List.getLastD]
    | cons c2 t2 =>
      have h2 := ih c2 (by simp)
      simp only [List.getLastD_cons] at h2
      simp only [List.dropLast_cons₂, List.any_cons, List.getLastD_cons, Bool.or_assoc]
      rw [h2]
      simp [List.any_cons]

/-- A multi-stage pipeline containing a built-in stage anywhere fails with
the fixed message before emitting any event (in particular before any
stage is spawned). -/
theorem pipelineImpl_builtin (cs : List SCmd) (os : OS) (h2 : 2 ≤ cs.length)
    (hb : cs.any (fun c => builtinName c.getName) = true) :
    pipelineImpl cs os = (.error "Built-in commands cannot be used in pipes", []) := by
  match cs with
  | [] => simp at h2
  | [c] => simp at h2
  | c1 :: c2 :: rest =>
    rw [pipelineImpl]
    by_cases hdl : ((c1 :: c2 :: rest).dropLast.any fun c => builtinName c.getName) = true
    · rw [hdl]
      simp
    · rw [Bool.not_eq_true] at hdl
      have hlast : builtinName ((c1 :: c2 :: rest).getLastD c1).getName = true := by
        have hsplit :=
          any_dropLast_getLastD (fun c => builtinName c.getName) (c1 :: c2 :: rest) c1 (by simp)
        rw [← hsplit] at hb
        rcases Bool.or_eq_true_iff.mp hb with h | h
        · rw [hdl] at h; exact absurd h (by simp)
        · exact h
      rw [hdl, hlast]
      simp

/-- A multi-stage pipeline with no built-in stage and no spawn failure
spawns every stage in order (stage `i > 0` reading the previous stage's
stdout pipe), then waits on the terminal stage only; the result is the
terminal stage's wait status. -/
theorem pipelineImpl_clean (cs : List SCmd) (os : OS) (h2 : 2 ≤ cs.length)
    (hb : ∀ c ∈ cs, builtinName c.getName = false) (hs : ∀ j, os.spawnErr j = none) :
    pipelineImpl cs os =
      (pipelineWaitResult os, stageSpawnEvents cs.length cs 0 ++ [.waitStage (cs.length - 1)]) := by
  match cs with
  | [] => simp at h2
  | [c] => simp at h2
  | c1 :: c2 :: rest =>
    rw [pipelineImpl]
    have hany : (c1 :: c2 :: rest).any (fun c => builtinName c.getName) = false := by
      rw [List.any_eq_false]; intro c hc; simp [hb c hc]
    rw [← any_dropLast_getLastD (fun c => builtinName c.getName) (c1 :: c2 :: rest) c1 (by simp)]
      at hany
    rcases Bool.or_eq_false_iff.mp hany with ⟨hdl, hlast⟩
    rw [hdl, hlast]
    simp only [Bool.false_eq_true, if_false]
    exact spawnLoop_clean os (c1 :: c2 :: rest).length hs (c1 :: c2 :: rest) 0

/-! ## Claim C1 — pipeline data transport and stage sequencing -/

/-- C1, counterexample.  The claim states that in every executed
multi-stage pipeline each stage is run to completion and waited on before
the next stage is spawned (`bufferRelaySequential`).  Executing the
two-stage pipeline parsed from `ls -l | grep pattern` through the
`Command` trait (the path `Shell::eval` invokes) spawns stage 1 — its
stdin connected to stage 0's live stdout pipe — while stage 0 has not
been waited on; indeed only the terminal stage is ever waited on. -/
theorem c1_counterexample :
    (PCmd.executeTop
        (.pipeline [⟨.system, "ls", [], [⟨⟨some "-l", none⟩, none⟩]⟩,
                    ⟨.system, "grep", ["pattern"], []⟩]) osOk).2 =
      [.spawn (some 0) "ls" [] false true,
       .spawn (some 1) "grep" ["pattern"] true false,
       .waitStage 1] ∧
    bufferRelaySequential
      [.spawn (some 0) "ls" [] false true,
       .spawn (some 1) "grep" ["pattern"] true false,
       .waitStage 1] = false := by decide

/-- C1, amended.  The execution path actually dispatched for a pipeline
(`impl Command for Pipeline :: execute_impl`) connects stages with live
OS pipes: with no built-in stage and no spawn failure, every stage is
spawned in order — stage `i > 0` reading the previous stage's stdout pipe,
stages before the last with stdout piped — before any wait occurs, and
only the terminal stage is waited on; the overall result is the terminal
stage's wait status.  The buffer-relay implementation the claim describes
(the inherent method `Pipeline::execute`) is not the path invoked through
the `Command` trait. -/
theorem c1_amended (cs : List SCmd) (os : OS) (h2 : 2 ≤ cs.length)
    (hb : ∀ c ∈ cs, builtinName c.getName = false) (hs : ∀ j, os.spawnErr j = none) :
    PCmd.executeTop (.pipeline cs) os =
      (pipelineWaitResult os, stageSpawnEvents cs.length cs 0 ++ [.waitStage (cs.length - 1)]) := by
  rw [executeTop_pipeline_eq]
  exact pipelineImpl_clean cs os h2 hb hs

/-- Witness for `c1_amended` at the pipeline parsed from
`ls -l | grep pattern` and the benign oracle. -/
theorem c1_amended_witness :
    PCmd.executeTop
        (.pipeline [⟨.system, "ls", [], [⟨⟨some "-l", none⟩, none⟩]⟩,
                    ⟨.system, "grep", ["pattern"], []⟩]) osOk =
      (pipelineWaitResult osOk,
       stageSpawnEvents 2
         [⟨.system, "ls", [], [⟨⟨some "-l", none⟩, none⟩]⟩,
          ⟨.system, "grep", ["pattern"], []⟩] 0 ++ [.waitStage 1] ) :=
  c1_amended
    [⟨.system, "ls", [], [⟨⟨some "-l", none⟩, none⟩]⟩, ⟨.system, "grep", ["pattern"], []⟩]
    osOk (by decide) (by decide) (fun _ => rfl)

/-! ## Claim C2 — `pwd` with arguments or flags reaches the
unimplemented mutators -/

/-- C2.  The lexer classifies `pwd -h` as a `pwd` command stage followed
by a flag token, and `CommandParser::parse` on that very token sequence
panics (`none`): `parse_single_command` calls `get_flags_mut()` on
`PwdCommand`, which is `unimplemented!`.  So resolution is not total on
lexer-produced input, and the pwd mutators are reachable at runtime. -/
theorem c2_pwd_flag_panics :
    scan "pwd -h" = some [⟨.Cmd, "pwd"⟩, ⟨.Flag, "-h"⟩, ⟨.Eof, ""⟩] ∧
    parse [⟨.Cmd, "pwd"⟩, ⟨.Flag, "-h"⟩, ⟨.Eof, ""⟩] = none := by decide

/-! ## Claim C3 — totality of scanning -/

/-- C3.  Scanning the one-character non-ASCII input `é` panics: `current`
counts characters but is compared against the byte length, so after
consuming the single character the loop continues and
`chars().nth(1).unwrap()` panics. -/
theorem c3_scan_panics_on_non_ascii : scan "é" = none := by decide

/-! ## Claim C4 — built-ins rejected in multi-stage pipelines -/

/-- C4, counterexample.  The pipeline parsed from `cd /tmp | ls` does
fail before any stage is spawned (no events), but the fixed message is
`"Built-in commands cannot be used in pipes"` — capital `B` — not the
lowercase string the claim states. -/
theorem c4_counterexample :
    PCmd.executeTop (.pipeline [⟨.cd, "cd", ["/tmp"], []⟩, ⟨.system, "ls", [], []⟩]) osOk =
      (.error "Built-in commands cannot be used in pipes", []) ∧
    ("Built-in commands cannot be used in pipes" ≠ "built-in commands cannot be used in pipes") := by
  decide

/-- C4, amended.  Every multi-stage pipeline containing a built-in stage
(`cd`, `pwd` or `history`) at any position fails with
`"Built-in commands cannot be used in pipes"` and emits no event at all —
in particular no stage's process is spawned and no state changes. -/
theorem c4_amended (cs : List SCmd) (os : OS) (h2 : 2 ≤ cs.length)
    (hb : ∃ c ∈ cs, builtinName c.getName = true) :
    PCmd.executeTop (.pipeline cs) os =
      (.error "Built-in commands cannot be used in pipes", []) := by
  rw [executeTop_pipeline_eq]
  exact pipelineImpl_builtin cs os h2 (List.any_eq_true.mpr hb)

/-- Witness for `c4_amended` at the pipeline parsed from `cd /tmp | ls`. -/
theorem c4_amended_witness :
    PCmd.executeTop (.pipeline [⟨.cd, "cd", ["/tmp"], []⟩, ⟨.system, "ls", [], []⟩]) osOk =
      (.error "Built-in commands cannot be used in pipes", []) :=
  c4_amended [⟨.cd, "cd", ["/tmp"], []⟩, ⟨.system, "ls", [], []⟩] osOk (by decide)
    ⟨⟨.cd, "cd", ["/tmp"], []⟩, by decide⟩

/-! ## Claim C7 — the help flag short-circuits every variant -/

/-- C7.  For every command variant (including a `Pipeline`) and every
flag set, the trait `execute` evaluates the help check before any domain
logic: when `--help` or `-h` is among the command's flags, the result is
success, the only effect is emitting the help text, and no domain effect
(directory change, spawn, wait, history access, output relay) occurs. -/
theorem c7_help_first (p : PCmd) (os : OS) (h : hasHelpFlag p.getFlags = true) :
    PCmd.executeTop p os = (.ok (), [.printHelp p.getName]) := by
  rw [PCmd.executeTop.eq_def, h]
  simp

/-- Witness for `c7_help_first`: `cd --help` prints help and succeeds,
performing no directory change. -/
theorem c7_help_first_witness :
    PCmd.executeTop (.single ⟨.cd, "cd", [], [⟨⟨none, some "--help"⟩, none⟩]⟩) osOk =
      (.ok (), [.printHelp "cd"]) :=
  c7_help_first (.single ⟨.cd, "cd", [], [⟨⟨none, some "--help"⟩, none⟩]⟩) osOk (by decide)

/-! ## Claim C8 — external command invocation and exit-code errors -/

/-- C8, counterexample.  The relay writes of the captured output sit
between the spawn and the exit-code check and are `?`-propagated: a
failed stdout relay surfaces an I/O error although the child exited with
code 0, and a failed stderr relay after a non-zero exit surfaces the I/O
error message, which does not embed the exit code — refuting the claimed
"error if and only if the exit code is non-zero, embedding the code". -/
theorem c8_counterexample :
    (SCmd.executeImpl ⟨.system, "foo", ["a"], []⟩
        ⟨fun _ => none, .ok "/", .ok [], .ok ("out", "", some 0),
          some "Broken pipe (os error 32)", none,
          fun _ => none, none, true, "exit status: 0"⟩).1 =
      .error "Broken pipe (os error 32)" ∧
    (SCmd.executeImpl ⟨.system, "foo", ["a"], []⟩
        ⟨fun _ => none, .ok "/", .ok [], .ok ("", "boom", some 3),
          none, some "Broken pipe (os error 32)",
          fun _ => none, none, true, "exit status: 3"⟩).1 =
      .error "Broken pipe (os error 32)" ∧
    "Broken pipe (os error 32)" ≠
      "Command 'foo' failed with exit code: 3" := by decide

/-- C8, amended.  `SystemCommand::execute_impl` builds the child
invocation from the name, then the positional arguments in order, then
each flag rendered as its identity (plus `=value` when a value is
present); when the spawn succeeds, the child exits with code `k`, and
the relays of the captured output succeed, the call fails if and only if
`k ≠ 0`, and the error string embeds the exit code.  (A failed relay
write instead surfaces that I/O error, see the counterexample.) -/
theorem c8_amended (name : String) (args : List String) (flags : List Flag)
    (os : OS) (o er : String) (k : Int) (hout : os.sysOut = .ok (o, er, some k))
    (hrelay1 : os.outRelayErr = none) (hrelay2 : os.errRelayErr = none) :
    SCmd.executeImpl ⟨.system, name, args, flags⟩ os =
      ((if k = 0 then .ok () else
          .error ("Command '" ++ name ++ "' failed with exit code: " ++ toString k)),
       [Effect.spawn none name (args ++ flags.map flagArg) false false] ++
         (if o ≠ "" then [Effect.writeOut o] else []) ++
         (if er ≠ "" then [Effect.writeErr er] else [])) ∧
    ((SCmd.executeImpl ⟨.system, name, args, flags⟩ os).1 = .ok () ↔ k = 0) := by
  have hr1 : (if o ≠ "" then os.outRelayErr else none) = none := by
    rw [hrelay1]; simp
  have hr2 : (if er ≠ "" then os.errRelayErr else none) = none := by
    rw [hrelay2]; simp
  have hmain : SCmd.executeImpl ⟨.system, name, args, flags⟩ os =
      ((if k = 0 then .ok () else
          .error ("Command '" ++ name ++ "' failed with exit code: " ++ toString k)),
       [Effect.spawn none name (args ++ flags.map flagArg) false false] ++
         (if o ≠ "" then [Effect.writeOut o] else []) ++
         (if er ≠ "" then [Effect.writeErr er] else [])) := by
    rw [SCmd.executeImpl]
    rw [hout]
    by_cases hk : k = 0
    · simp [hk, sysArgv, hr1, hr2]
    · have hne : ¬(some k = some (0 : Int)) := by simp [hk]
      simp only [hne, if_false, hk]
      simp [sysArgv, hr1, hr2]
  refine ⟨hmain, ?_⟩
  rw [hmain]
  by_cases hk : k = 0 <;> simp [hk]

/-- Witness for `c8_amended`: a child exiting with code 3 under
successful relays turns into the error
`"Command 'foo' failed with exit code: 3"`. -/
theorem c8_amended_witness :
    (SCmd.executeImpl ⟨.system, "foo", ["a"], []⟩ osExit3).1 =
      .error "Command 'foo' failed with exit code: 3" ∧
    ¬((SCmd.executeImpl ⟨.system, "foo", ["a"], []⟩ osExit3).1 = .ok ()) := by
  have h := c8_amended "foo" ["a"] [] osExit3 "" "" 3 rfl rfl rfl
  constructor
  · rw [h.1]; decide
  · intro hok
    exact absurd (h.2.mp hok) (by decide)

/-! ## Claim C10 — pipeline stages are spawned without their flags -/

/-- C10.  In every multi-stage pipeline execution through the `Command`
trait, each spawned stage process receives exactly the stage's positional
arguments (`get_args()`) — the stage's parsed flags are never rendered
into the child's argument list — whereas a lone `SystemCommand` executed
outside a pipeline appends its rendered flags after the positional
arguments. -/
theorem c10_pipeline_drops_flags :
    (∀ (cs : List SCmd) (os : OS) (j : Nat) (prog : String) (argv : List String) (b1 b2 : Bool),
        2 ≤ cs.length →
        Effect.spawn (some j) prog argv b1 b2 ∈ (PCmd.executeTop (.pipeline cs) os).2 →
        ∃ st, cs.get? j = some st ∧ prog = st.getName ∧ argv = st.getArgs) ∧
    (∀ (name : String) (args : List String) (flags : List Flag) (os : OS)
        (o er : String) (k : Option Int), os.sysOut = .ok (o, er, k) →
        Effect.spawn none name (args ++ flags.map flagArg) false false ∈
          (SCmd.executeImpl ⟨.system, name, args, flags⟩ os).2) := by
  constructor
  · intro cs os j prog argv b1 b2 h2 hmem
    rw [executeTop_pipeline_eq] at hmem
    match cs, h2 with
    | c1 :: c2 :: rest, _ =>
      rw [pipelineImpl] at hmem
      by_cases hdl : ((c1 :: c2 :: rest).dropLast.any fun c => builtinName c.getName) = true
      · rw [hdl] at hmem; simp at hmem
      · rw [Bool.not_eq_true] at hdl
        rw [hdl] at hmem
        simp only [Bool.false_eq_true, if_false] at hmem
        by_cases hlast : builtinName ((c1 :: c2 :: rest).getLastD c1).getName = true
        · rw [hlast] at hmem; simp at hmem
        · rw [Bool.not_eq_true] at hlast
          rw [hlast] at hmem
          simp only [Bool.false_eq_true, if_false] at hmem
          obtain ⟨k, st, hk, hj, hp, ha⟩ :=
            spawnLoop_spawn_mem os (c1 :: c2 :: rest).length (c1 :: c2 :: rest) 0 j prog argv
              b1 b2 hmem
          exact ⟨st, by rw [hj]; simpa using hk, hp, ha⟩
  · intro name args flags os o er k hout
    rw [SCmd.executeImpl, hout]
    dsimp only
    cases h1 : (if o ≠ "" then os.outRelayErr else none) with
    | some we => simp [sysArgv]
    | none =>
      cases h2 : (if er ≠ "" then os.errRelayErr else none) with
      | some we => simp [sysArgv]
      | none => by_cases hk : k = some 0 <;> simp [hk, sysArgv]

/-! ## Parser lemmas for claim C6 -/

/-- `splitAtEq` finds a right part exactly when the lexeme contains `'='`. -/
theorem splitAtEq_isSome : ∀ (l : List Char), (splitAtEq l).2.isSome = l.contains '=' := by
  intro l
  induction l with
  | nil => rfl
  | cons c cs ih =>
    by_cases hc : c = '='
    · simp [splitAtEq, hc, List.contains_cons]
    · simp only [splitAtEq, if_neg hc, List.contains_cons]
      rw [ih]
      have h1 : ('=' == c) = false := by
        simp only [beq_eq_false_iff_ne, ne_eq]
        exact fun hh => hc hh.symm
      rw [h1, Bool.false_or]

/-- `pushTok` succeeds exactly on pushable tokens. -/
theorem pushTok_isSome (c : SCmd) (t : Token) :
    (pushTok c t).isSome = tokPushSafe c.kind t := by
  obtain ⟨k, lex⟩ := t
  cases k <;> simp only [pushTok, tokPushSafe]
  case Arg | Flag | LongFlag =>
    by_cases hp : c.kind = .pwd <;> simp [hp]
  case LongFlagWithValue =>
    by_cases hp : c.kind = .pwd
    · simp [hp]
    · have hne : (c.kind == CKind.pwd) = false := by simp [hp]
      rw [if_neg hp, hne]
      rcases hsp : splitAtEq lex.data with ⟨a, b⟩
      have hsp2 := splitAtEq_isSome lex.data
      rw [hsp] at hsp2
      rw [← hsp2]
      cases b <;> simp
  all_goals simp

/-- `pushTok` never changes the command's kind or name. -/
theorem pushTok_kind_name (c c' : SCmd) (t : Token) (h : pushTok c t = some c') :
    c'.kind = c.kind ∧ c'.name = c.name := by
  obtain ⟨k, lex⟩ := t
  cases k <;> simp only [pushTok] at h
  case Arg | Flag | LongFlag =>
    split at h
    · exact absurd h (by simp)
    · injection h with h; rw [← h]; exact ⟨rfl, rfl⟩
  case LongFlagWithValue =>
    split at h
    · exact absurd h (by simp)
    · split at h
      · exact absurd h (by simp)
      · injection h with h; rw [← h]; exact ⟨rfl, rfl⟩
  all_goals injection h with h; rw [← h]; exact ⟨rfl, rfl⟩

/-- `pushBody` never changes the command's kind or name. -/
theorem pushBody_kind_name : ∀ (ts : List Token) (c c' : SCmd),
    pushBody c ts = some c' → c'.kind = c.kind ∧ c'.name = c.name := by
  intro ts
  induction ts with
  | nil => intro c c' h; injection h with h; rw [← h]; exact ⟨rfl, rfl⟩
  | cons t ts ih =>
    intro c c' h
    rw [pushBody] at h
    cases hp : pushTok c t with
    | none => rw [hp] at h; exact absurd h (by simp)
    | some c1 =>
      rw [hp] at h
      obtain ⟨h1, h2⟩ := ih c1 c' h
      obtain ⟨h3, h4⟩ := pushTok_kind_name c c1 t hp
      exact ⟨h1.trans h3, h2.trans h4⟩

/-- `pushBody` succeeds exactly when every body token is pushable. -/
theorem pushBody_isSome : ∀ (ts : List Token) (c : SCmd),
    (pushBody c ts).isSome = ts.all (fun t => tokPushSafe c.kind t) := by
  intro ts
  induction ts with
  | nil => intro c; rfl
  | cons t ts ih =>
    intro c
    rw [pushBody, List.all_cons]
    cases hp : pushTok c t with
    | none =>
      have hsafe := pushTok_isSome c t
      rw [hp] at hsafe
      simp only [Option.isSome_none] at hsafe
      rw [← hsafe, Bool.false_and]
      rfl
    | some c1 =>
      have hsafe := pushTok_isSome c t
      rw [hp] at hsafe
      simp only [Option.isSome_some] at hsafe
      rw [← hsafe, Bool.true_and]
      show (pushBody c1 ts).isSome = ts.all fun u => tokPushSafe c.kind u
      rw [ih c1, (pushTok_kind_name c c1 t hp).1]

/-- The only `ParseError` `parse_single_command` produces names the
offending leading lexeme. -/
theorem parseSingle_error (toks : List Token) (s f : Nat) (e : String)
    (h : parseSingle toks s f = some (.error e)) :
    ∃ t, toks.get? s = some t ∧ t.kind ≠ .Cmd ∧
      e = "Expected command, got: " ++ t.lexeme := by
  rw [parseSingle] at h
  split at h
  · exact absurd h (by simp)
  next t hg =>
    split at h
    next hk =>
      injection h with h
      injection h with h
      exact ⟨t, hg, hk, h.symm⟩
    next hk =>
      split at h
      · exact absurd h (by simp)
      · split at h
        · exact absurd h (by simp)
        next c hc => injection h with h; exact absurd h (by simp)

/-- A good stage resolves to a command whose kind and name come from
dispatching the leading lexeme. -/
theorem parseSingle_ok_of_good (toks : List Token) (s f : Nat)
    (hg : goodStage toks (s, f) = true) :
    ∃ c, parseSingle toks s f = some (.ok c) := by
  rw [goodStage] at hg
  cases hget : toks.get? s with
  | none => rw [hget] at hg; exact absurd hg (by simp)
  | some t =>
    rw [hget] at hg
    simp only [Bool.and_eq_true, beq_iff_eq, decide_eq_true_eq] at hg
    obtain ⟨⟨⟨hk, hb1⟩, hb2⟩, hsafe⟩ := hg
    have hsome : (pushBody (dispatch t.lexeme) ((toks.take f).drop (s + 1))).isSome = true := by
      rw [pushBody_isSome]
      exact hsafe
    obtain ⟨c, hc⟩ := Option.isSome_iff_exists.mp hsome
    have h1 := eq_false (show ¬(t.kind ≠ TokenType.Cmd) by simp [hk])
    have h2 := eq_false (show ¬(s + 1 > f ∨ f > toks.length) by omega)
    refine ⟨c, ?_⟩
    simp only [parseSingle, hget, h1, h2, if_false, hc]

/-- A panic of `parse_single_command` refutes `goodStage`. -/
theorem parseSingle_none (toks : List Token) (s f : Nat)
    (h : parseSingle toks s f = none) : goodStage toks (s, f) = false := by
  cases hgs : goodStage toks (s, f) with
  | false => rfl
  | true =>
    obtain ⟨c, hc⟩ := parseSingle_ok_of_good toks s f hgs
    rw [h] at hc
    exact Option.noConfusion hc

/-- Errors of the stage loop come from the error of some stage range. -/
theorem parseStages_error (toks : List Token) :
    ∀ (ps : List Nat) (start : Nat) (e : String),
      parseStages toks ps start = some (.error e) →
      ∃ r ∈ stageRangesAux toks.length ps start, parseSingle toks r.1 r.2 = some (.error e) := by
  intro ps
  induction ps with
  | nil =>
    intro start e h
    rw [parseStages] at h
    cases hp : parseSingle toks start toks.length with
    | none => rw [hp] at h; exact absurd h (by simp)
    | some r =>
      cases r with
      | error e' =>
        rw [hp] at h
        injection h with h
        injection h with h
        exact ⟨(start, toks.length), by simp [stageRangesAux], by rw [hp, h]⟩
      | ok c => rw [hp] at h; exact absurd h (by simp)
  | cons p ps ih =>
    intro start e h
    rw [parseStages] at h
    cases hp : parseSingle toks start p with
    | none => rw [hp] at h; exact absurd h (by simp)
    | some r =>
      cases r with
      | error e' =>
        rw [hp] at h
        injection h with h
        injection h with h
        exact ⟨(start, p), by simp [stageRangesAux], by rw [hp, h]⟩
      | ok c =>
        rw [hp] at h
        cases hrest : parseStages toks ps (p + 1) with
        | none => rw [hrest] at h; exact absurd h (by simp)
        | some r2 =>
          cases r2 with
          | error e2 =>
            rw [hrest] at h
            injection h with h
            injection h with h
            obtain ⟨r, hr, hre⟩ := ih (p + 1) e2 hrest
            exact ⟨r, by simp [stageRangesAux, hr], by rw [hre, h]⟩
          | ok cs => rw [hrest] at h; exact absurd h (by simp)

/-- If every stage range is good, the stage loop succeeds. -/
theorem parseStages_ok_of_good (toks : List Token) :
    ∀ (ps : List Nat) (start : Nat),
      (∀ r ∈ stageRangesAux toks.length ps start, goodStage toks r = true) →
      ∃ cs, parseStages toks ps start = some (.ok cs) := by
  intro ps
  induction ps with
  | nil =>
    intro start hgood
    obtain ⟨c, hc⟩ := parseSingle_ok_of_good toks start toks.length
      (hgood (start, toks.length) (by simp [stageRangesAux]))
    rw [parseStages, hc]
    exact ⟨[c], rfl⟩
  | cons p ps ih =>
    intro start hgood
    obtain ⟨c, hc⟩ := parseSingle_ok_of_good toks start p
      (hgood (start, p) (by simp [stageRangesAux]))
    obtain ⟨cs, hcs⟩ := ih (p + 1) (fun r hr => hgood r (by simp [stageRangesAux, hr]))
    rw [parseStages, hc, hcs]
    exact ⟨c :: cs, rfl⟩

/-- A panic of the stage loop comes from the panic of some stage range. -/
theorem parseStages_none (toks : List Token) :
    ∀ (ps : List Nat) (start : Nat),
      parseStages toks ps start = none →
      ∃ r ∈ stageRangesAux toks.length ps start, parseSingle toks r.1 r.2 = none := by
  intro ps
  induction ps with
  | nil =>
    intro start h
    rw [parseStages] at h
    cases hp : parseSingle toks start toks.length with
    | none => exact ⟨(start, toks.length), by simp [stageRangesAux], hp⟩
    | some r =>
      rw [hp] at h
      cases r <;> exact absurd h (by simp)
  | cons p ps ih =>
    intro start h
    rw [parseStages] at h
    cases hp : parseSingle toks start p with
    | none => exact ⟨(start, p), by simp [stageRangesAux], hp⟩
    | some r =>
      rw [hp] at h
      cases r with
      | error e => exact absurd h (by simp)
      | ok c =>
        cases hrest : parseStages toks ps (p + 1) with
        | none =>
          obtain ⟨r, hr, hrn⟩ := ih (p + 1) hrest
          exact ⟨r, by simp [stageRangesAux, hr], hrn⟩
        | some r2 =>
          rw [hrest] at h
          cases r2 <;> exact absurd h (by simp)

/-- The "Expected command" messages never collide with the
"No command provided" message. -/
theorem expectedMsg_ne (l : String) :
    ("Expected command, got: " ++ l) ≠ "No command provided" := by
  intro h
  have := congrArg String.data h
  rw [String.data_append] at this
  simp at this

/-! ## Claim C6 — parse failure and success characterisation -/

/-- C6, counterexample.  The empty-input failure message is
`"No command provided"` (capital `N`), not the lowercase string the claim
quotes; and the claim's "every other lexer-produced input succeeds" is
false: the lexer output of `pwd x` has a `Cmd` leading token yet `parse`
panics on it (the `pwd` mutators), which is neither a returned `Command`
value nor a string `ParseError`. -/
theorem c6_counterexample :
    parse [] = some (.error "No command provided") ∧
    "No command provided" ≠ "no command provided" ∧
    scan "pwd x" = some [⟨.Cmd, "pwd"⟩, ⟨.Arg, "x"⟩, ⟨.Eof, ""⟩] ∧
    parse [⟨.Cmd, "pwd"⟩, ⟨.Arg, "x"⟩, ⟨.Eof, ""⟩] = none := by decide

/-- C6, amended.  `parse` fails with `"No command provided"` exactly on
the empty token sequence; every other `ParseError` is
`"Expected command, got: <lexeme>"` for the leading token — not a
`Cmd` — of some stage range; if every stage range is good (leading `Cmd`
token, body in range, and no `pwd` stage with argument/flag tokens nor a
malformed `LongFlagWithValue` lexeme) the parse succeeds; a panic happens
exactly when some stage range is not good; and an unrecognized command
name falls through to an external-process command carrying the remaining
positional arguments, never a parse error. -/
theorem c6_amended :
    (parse [] = some (.error "No command provided")) ∧
    (∀ toks, parse toks = some (.error "No command provided") → toks = []) ∧
    (∀ toks e, toks ≠ [] → parse toks = some (.error e) →
      ∃ r ∈ stageRanges toks, ∃ t, toks.get? r.1 = some t ∧ t.kind ≠ .Cmd ∧
        e = "Expected command, got: " ++ t.lexeme) ∧
    (∀ toks, toks ≠ [] → (∀ r ∈ stageRanges toks, goodStage toks r = true) →
      ∃ p, parse toks = some (.ok p)) ∧
    (∀ toks, parse toks = none → ∃ r ∈ stageRanges toks, goodStage toks r = false) ∧
    (resolve "unknown_cmd arg1 arg2" =
      some (.ok (.single ⟨.system, "unknown_cmd", ["arg1", "arg2"], []⟩))) := by
  have herr : ∀ toks e, toks ≠ [] → parse toks = some (.error e) →
      ∃ r ∈ stageRanges toks, ∃ t, toks.get? r.1 = some t ∧ t.kind ≠ .Cmd ∧
        e = "Expected command, got: " ++ t.lexeme := by
    intro toks e hne h
    rw [parse] at h
    rw [if_neg (by simp [hne])] at h
    split at h
    · rename_i hpp
      split at h
      · exact absurd h (by simp)
      · rename_i e' hp
        injection h with h
        injection h with h
        obtain ⟨t, hget, hkind, hmsg⟩ := parseSingle_error toks 0 toks.length e' hp
        exact ⟨(0, toks.length), by simp [stageRanges, hpp, stageRangesAux],
          t, hget, hkind, by rw [← h]; exact hmsg⟩
      · exact absurd h (by simp)
    · rename_i p ps hpp
      split at h
      · exact absurd h (by simp)
      · rename_i e' hs
        injection h with h
        injection h with h
        obtain ⟨r, hr, hre⟩ := parseStages_error toks (p :: ps) 0 e' hs
        obtain ⟨t, hget, hkind, hmsg⟩ := parseSingle_error toks r.1 r.2 e' hre
        exact ⟨r, by simpa [stageRanges, hpp] using hr, t, hget, hkind,
          by rw [← h]; exact hmsg⟩
      · exact absurd h (by simp)
  refine ⟨by decide, ?_, herr, ?_, ?_, by decide⟩
  · intro toks h
    by_cases hne : toks = []
    · exact hne
    · obtain ⟨r, _, t, _, _, hmsg⟩ := herr toks "No command provided" hne h
      exact absurd hmsg.symm (expectedMsg_ne t.lexeme)
  · intro toks hne hgood
    rcases hpp : pipePositions toks with _ | ⟨p, ps⟩
    · obtain ⟨c, hc⟩ := parseSingle_ok_of_good toks 0 toks.length
        (hgood (0, toks.length) (by simp [stageRanges, hpp, stageRangesAux]))
      refine ⟨.single c, ?_⟩
      rw [parse, if_neg (by simp [hne])]
      simp only [hpp, hc]
    · obtain ⟨cs, hcs⟩ := parseStages_ok_of_good toks (p :: ps) 0
        (fun r hr => hgood r (by simpa [stageRanges, hpp] using hr))
      refine ⟨.pipeline cs, ?_⟩
      rw [parse, if_neg (by simp [hne])]
      simp only [hpp, hcs]
  · intro toks h
    rw [parse] at h
    by_cases hne : toks.isEmpty
    · rw [if_pos hne] at h
      exact absurd h (by simp)
    · rw [if_neg hne] at h
      split at h
      · rename_i hpp
        split at h
        · rename_i hp
          exact ⟨(0, toks.length), by simp [stageRanges, hpp, stageRangesAux],
            parseSingle_none toks 0 toks.length hp⟩
        · exact absurd h (by simp)
        · exact absurd h (by simp)
      · rename_i p ps hpp
        split at h
        · rename_i hs
          obtain ⟨r, hr, hrn⟩ := parseStages_none toks (p :: ps) 0 hs
          exact ⟨r, by simpa [stageRanges, hpp] using hr,
            parseSingle_none toks r.1 r.2 hrn⟩
        · exact absurd h (by simp)
        · exact absurd h (by simp)

/-- Witness for `c6_amended`, exercising its universally quantified parts
at concrete inputs: the error clause at the lexer output of `| x` (whose
first stage range starts at a `Pipe` token) and the success clause at the
lexer output of `unknown_cmd arg1 arg2`. -/
theorem c6_amended_witness :
    (∃ r ∈ stageRanges ([⟨.Pipe, "|"⟩, ⟨.Cmd, "x"⟩, ⟨.Eof, ""⟩] : List Token),
      ∃ t, ([⟨.Pipe, "|"⟩, ⟨.Cmd, "x"⟩, ⟨.Eof, ""⟩] : List Token).get? r.1 = some t ∧
        t.kind ≠ .Cmd ∧ "Expected command, got: |" = "Expected command, got: " ++ t.lexeme) ∧
    (∃ p, parse ([⟨.Cmd, "unknown_cmd"⟩, ⟨.Arg, "arg1"⟩, ⟨.Arg, "arg2"⟩, ⟨.Eof, ""⟩] : List Token) =
      some (.ok p)) := by
  constructor
  · exact c6_amended.2.2.1 ([⟨.Pipe, "|"⟩, ⟨.Cmd, "x"⟩, ⟨.Eof, ""⟩] : List Token)
      "Expected command, got: |" (by decide) (by decide)
  · exact c6_amended.2.2.2.1
      ([⟨.Cmd, "unknown_cmd"⟩, ⟨.Arg, "arg1"⟩, ⟨.Arg, "arg2"⟩, ⟨.Eof, ""⟩] : List Token)
      (by decide) (by decide)

/-- Witness for `c10_pipeline_drops_flags`: stage 0 of the pipeline parsed
from `ls -l | grep pattern` is spawned with the empty argument list (its
`-l` flag dropped), while `ls -l` run alone passes `-l` to the child. -/
theorem c10_witness :
    (∃ st, [⟨.system, "ls", [], [⟨⟨some "-l", none⟩, none⟩]⟩,
            (⟨.system, "grep", ["pattern"], []⟩ : SCmd)].get? 0 = some st ∧
       "ls" = st.getName ∧ ([] : List String) = st.getArgs) ∧
    Effect.spawn none "ls" ["-l"] false false ∈
      (SCmd.executeImpl ⟨.system, "ls", [], [⟨⟨some "-l", none⟩, none⟩]⟩ osOk).2 := by
  constructor
  · exact c10_pipeline_drops_flags.1
      [⟨.system, "ls", [], [⟨⟨some "-l", none⟩, none⟩]⟩, ⟨.system, "grep", ["pattern"], []⟩]
      osOk 0 "ls" [] false true (by decide) (by decide)
  · exact c10_pipeline_drops_flags.2 "ls" [] [⟨⟨some "-l", none⟩, none⟩] osOk "" "" (some 0) rfl


/-! ## Scanner step metatheory: helpers -/

theorem takeWhile_length_le (p : Char → Bool) (l : List Char) :
    (l.takeWhile p).length ≤ l.length :=
  (List.takeWhile_prefix p).length_le

theorem mem_of_mem_takeWhile (p : Char → Bool) (l : List Char) (x : Char)
    (hx : x ∈ l.takeWhile p) : x ∈ l := by
  rw [← take_takeWhile_length p l] at hx
  exact List.mem_of_mem_take hx

theorem takeWhile_all (p : Char → Bool) (l : List Char) (h : ∀ x ∈ l, p x = true) :
    l.takeWhile p = l := by
  induction l with
  | nil => rfl
  | cons a as ih => simp_all [List.takeWhile_cons]

theorem takeWhile_all_cons (p : Char → Bool) (l : List Char) (c : Char) (r : List Char)
    (h : ∀ x ∈ l, p x = true) (hc : p c = false) : (l ++ c :: r).takeWhile p = l := by
  induction l with
  | nil => simp [List.takeWhile_cons, hc]
  | cons a as ih => simp_all [List.takeWhile_cons]

/-- A `match_char` that reports `true` consumed exactly the expected
character. -/
theorem matchChar_true_inv (st : Tokenizer) (e : Char) (st2 : Tokenizer)
    (h : matchChar st e = some (true, st2)) :
    st.source.get? st.current = some e ∧ st2 = { st with current := st.current + 1 } := by
  rw [matchChar] at h
  split at h
  · simp at h
  · split at h
    · exact absurd h (by simp)
    next c hc =>
      split at h
      next hce =>
        simp only [Option.some.injEq, Prod.mk.injEq] at h
        rw [hce] at hc
        exact ⟨hc, h.2.symm⟩
      · simp at h

/-- A `match_char` that reports `false` leaves the state unchanged. -/
theorem matchChar_false_inv (st : Tokenizer) (e : Char) (st2 : Tokenizer)
    (h : matchChar st e = some (false, st2)) : st2 = st := by
  rw [matchChar] at h
  split at h
  · simp only [Option.some.injEq, Prod.mk.injEq] at h
    exact h.2.symm
  · split at h
    · exact absurd h (by simp)
    · split at h
      · simp at h
      · simp only [Option.some.injEq, Prod.mk.injEq] at h
        exact h.2.symm

/-! ## Append laws for the word-classification invariants -/

theorem shapeFlag_append : ∀ (ts : List Token) (b : Bool) (t : Token),
    shapeFlag b (ts ++ [t]) =
      (match t.kind with
       | .Cmd => true
       | .Arg => true
       | .Pipe => false
       | _ => shapeFlag b ts) := by
  intro ts
  induction ts with
  | nil =>
    intro b t
    obtain ⟨kt, lt⟩ := t
    cases kt <;> rfl
  | cons u ts ih =>
    intro b t
    obtain ⟨ku, lu⟩ := u
    cases ku <;> simp only [List.cons_append, List.append_eq, shapeFlag, ih]

theorem stageShape_append : ∀ (ts : List Token) (b : Bool) (t : Token),
    stageShape b (ts ++ [t]) =
      (stageShape b ts &&
        (match t.kind with
         | .Cmd => !(shapeFlag b ts)
         | _ => true)) := by
  intro ts
  induction ts with
  | nil =>
    intro b t
    obtain ⟨kt, lt⟩ := t
    cases kt <;> simp [stageShape, shapeFlag]
  | cons u ts ih =>
    intro b t
    obtain ⟨ku, lu⟩ := u
    cases ku <;> simp only [List.cons_append, List.append_eq, stageShape, shapeFlag, ih, Bool.and_assoc]

theorem classFlag_append : ∀ (ts : List Token) (b : Bool) (t : Token),
    classFlag b (ts ++ [t]) =
      (match t.kind with
       | .Cmd => true
       | .Arg => true
       | .Pipe => false
       | _ => classFlag b ts) := by
  intro ts
  induction ts with
  | nil =>
    intro b t
    obtain ⟨kt, lt⟩ := t
    cases kt <;> rfl
  | cons u ts ih =>
    intro b t
    obtain ⟨ku, lu⟩ := u
    cases ku <;> simp only [List.cons_append, List.append_eq, classFlag, ih]

theorem classOk_append : ∀ (ts : List Token) (b : Bool) (t : Token),
    classOk b (ts ++ [t]) =
      (classOk b ts &&
        (match t.kind with
         | .Cmd => !(classFlag b ts)
         | .Arg => classFlag b ts
         | _ => true)) := by
  intro ts
  induction ts with
  | nil =>
    intro b t
    obtain ⟨kt, lt⟩ := t
    cases kt <;> simp [classOk, classFlag]
  | cons u ts ih =>
    intro b t
    obtain ⟨ku, lu⟩ := u
    cases ku <;> simp only [List.cons_append, List.append_eq, classOk, classFlag, ih, Bool.and_assoc]


/-- `add_token` over a freshly advanced single non-whitespace character
produces exactly the one-character token. -/
theorem addToken_single (st : Tokenizer) (k : TokenType) (c : Char) (st2 : Tokenizer)
    (hA : ∀ x ∈ st.source, charBytes x = 1)
    (hsc : st.start = st.current)
    (hc : st.source.get? st.current = some c)
    (hws : rustIsWhitespace c = false)
    (h : addToken { st with current := st.current + 1 } k = some st2) :
    st2 = { st with current := st.current + 1
                    tokens := st.tokens ++ [⟨k, String.mk [c]⟩] } := by
  have hlt : st.current < st.source.length := (List.get?_eq_some.mp hc).1
  rw [addToken_eq { st with current := st.current + 1 } k hA
    (show st.start ≤ st.current + 1 by omega)
    (show st.current + 1 ≤ st.source.length by omega)] at h
  dsimp only at h
  rw [hsc] at h
  rw [show st.current + 1 - st.current = 1 from by omega] at h
  rw [drop_of_get _ _ _ hc] at h
  rw [show (c :: st.source.drop (st.current + 1)).take 1 = [c] from rfl] at h
  rw [rustTrim_all [c] (by intro x hx; rw [List.mem_singleton.mp hx]; exact hws)] at h
  rw [if_neg (by simp)] at h
  injection h with h
  rw [hsc]
  exact h.symm

/-- One `scan_token` step from a loop-top state (`start = current`) on an
ASCII source: the token list grows by at most one well-shaped token, and
`had_cmd` moves exactly as word classification dictates — except that a
word suppressed by degenerate whitespace sets the flag without a token. -/
theorem scanToken_step (fuel : Nat) (st st' : Tokenizer)
    (hA : ∀ x ∈ st.source, charBytes x = 1)
    (hsc : st.start = st.current)
    (h : scanToken fuel st = some st') :
    ∃ Δ, st'.tokens = st.tokens ++ Δ ∧
      ((Δ = [] ∧ st'.had_cmd = st.had_cmd) ∨
       (∃ t, Δ = [t] ∧ shapeOk t = true ∧
         ((nonWordKind t.kind = true ∧ st'.had_cmd = st.had_cmd) ∨
          (t.kind = .Pipe ∧ st'.had_cmd = false) ∨
          (t.kind = .Cmd ∧ st.had_cmd = false ∧ st'.had_cmd = true) ∨
          (t.kind = .Arg ∧ st.had_cmd = true ∧ st'.had_cmd = true))) ∨
       (Δ = [] ∧ st.had_cmd = false ∧ st'.had_cmd = true ∧
         ∃ c, c ∈ st.source ∧ rustIsWhitespace c = true ∧ inSkipWs c = false)) := by
  simp only [scanToken] at h
  split at h
  · exact absurd h (by simp)
  next c hc =>
    have hlt : st.current < st.source.length := (List.get?_eq_some.mp hc).1
    have hdropc := drop_of_get _ _ _ hc
    split at h
    next hwsk =>
      obtain ⟨w1, w2, w3, w4, _, _⟩ := skipWhitespace_frame fuel _ _ h
      simp only at w3 w4
      exact ⟨[], by rw [w3, List.append_nil], Or.inl ⟨rfl, w4⟩⟩
    next hwsk =>
      split at h
      next hdash =>
        subst hdash
        split at h
        · exact absurd h (by simp)
        next st2 hm =>
          -- long flag: `--` seen
          obtain ⟨hget2, hst2⟩ := matchChar_true_inv _ '-' st2 hm
          dsimp only at hget2
          subst hst2
          have hlt2 : st.current + 1 < st.source.length := (List.get?_eq_some.mp hget2).1
          have hdropc2 := drop_of_get _ _ _ hget2
          obtain ⟨pos, hpos, hres⟩ := longFlagLoop_run fuel _ st' (by dsimp only; exact hA) h
          dsimp only at hpos hres
          have hrunlen := takeWhile_length_le longFlagChar (st.source.drop (st.current + 1 + 1))
          have hdl := List.length_drop (st.current + 1 + 1) st.source
          have hrunP : ∀ x ∈ (st.source.drop (st.current + 1 + 1)).takeWhile longFlagChar,
              longFlagChar x = true := fun x hx => List.mem_takeWhile_imp hx
          have hrunMem : ∀ x ∈ (st.source.drop (st.current + 1 + 1)).takeWhile longFlagChar,
              x ∈ st.source := fun x hx =>
            List.mem_of_mem_drop (mem_of_mem_takeWhile _ _ _ hx)
          have hslice : (st.source.drop st.current).take (pos - st.current) =
              '-' :: '-' :: (st.source.drop (st.current + 1 + 1)).takeWhile longFlagChar := by
            rw [hdropc, hdropc2]
            rw [show pos - st.current =
              ((st.source.drop (st.current + 1 + 1)).takeWhile longFlagChar).length + 1 + 1 from by omega]
            rw [List.take_succ_cons, List.take_succ_cons, take_takeWhile_length]
          have hnws : ∀ x ∈ '-' :: '-' ::
              (st.source.drop (st.current + 1 + 1)).takeWhile longFlagChar,
              rustIsWhitespace x = false := by
            intro x hx
            rcases List.mem_cons.mp hx with hx | hx
            · rw [hx]; decide
            rcases List.mem_cons.mp hx with hx | hx
            · rw [hx]; decide
            exact longFlagChar_not_ws x (hrunP x hx)
          rcases hres with ⟨hne, hadd⟩ | ⟨heq, fuel2, hfv⟩
          · rw [addToken_eq _ .LongFlag (by dsimp only; exact hA)
              (by dsimp only; omega) (by dsimp only; omega)] at hadd
            dsimp only at hadd
            rw [hsc, hslice, rustTrim_all _ hnws, if_neg (by simp)] at hadd
            injection hadd with hadd
            refine ⟨[⟨.LongFlag, String.mk ('-' :: '-' ::
              (st.source.drop (st.current + 1 + 1)).takeWhile longFlagChar)⟩],
              by rw [← hadd], Or.inr (Or.inl ⟨_, rfl, ?_, Or.inl ⟨rfl, by rw [← hadd]⟩⟩)⟩
            show (longFlagL ('-' :: '-' ::
              (st.source.drop (st.current + 1 + 1)).takeWhile longFlagChar) &&
              asciiL ('-' :: '-' ::
              (st.source.drop (st.current + 1 + 1)).takeWhile longFlagChar)) = true
            rw [Bool.and_eq_true]
            constructor
            · simp only [longFlagL, beq_self_eq_true, Bool.true_and, List.all_eq_true]
              exact hrunP
            · rw [asciiL, List.all_eq_true]
              intro x hx
              rcases List.mem_cons.mp hx with hx | hx
              · rw [hx]; decide
              rcases List.mem_cons.mp hx with hx | hx
              · rw [hx]; decide
              simp [hA x (hrunMem x hx)]
          · have hposlt : pos < st.source.length := (List.get?_eq_some.mp heq).1
            obtain ⟨l, htok, hshape⟩ := flagValueLoop_shapeOk fuel2 _ st' (pos + 1) false
              (by dsimp only; exact hA) hfv (by dsimp only; omega) (by dsimp only; omega)
              (by dsimp only; omega)
              (by
                refine ⟨(st.source.drop (st.current + 1 + 1)).takeWhile longFlagChar, ?_, hrunP⟩
                dsimp only
                rw [hsc, Nat.add_sub_cancel]
                exact hslice)
            dsimp only at htok
            obtain ⟨_, _, hfh, _, _, _⟩ := flagValueLoop_frame fuel2 _ st' (pos + 1) false hfv
            dsimp only at hfh
            exact ⟨[⟨.LongFlagWithValue, l⟩], htok,
              Or.inr (Or.inl ⟨_, rfl, hshape, Or.inl ⟨rfl, hfh⟩⟩)⟩
        next st2 hm =>
          -- short flag
          have hst2 := matchChar_false_inv _ '-' st2 hm
          subst hst2
          have hadd := flagLoop_run fuel _ st' (by dsimp only; exact hA) h
          dsimp only at hadd
          have hrunlen := takeWhile_length_le (fun c => c.isAlphanum)
            (st.source.drop (st.current + 1))
          have hdl := List.length_drop (st.current + 1) st.source
          have hrunP : ∀ x ∈ (st.source.drop (st.current + 1)).takeWhile (fun c => c.isAlphanum),
              x.isAlphanum = true := fun x hx => List.mem_takeWhile_imp hx
          have hrunMem : ∀ x ∈ (st.source.drop (st.current + 1)).takeWhile (fun c => c.isAlphanum),
              x ∈ st.source := fun x hx =>
            List.mem_of_mem_drop (mem_of_mem_takeWhile _ _ _ hx)
          rw [addToken_eq _ .Flag (by dsimp only; exact hA)
            (by dsimp only; omega) (by dsimp only; omega)] at hadd
          dsimp only at hadd
          rw [hsc] at hadd
          rw [show st.current + 1 +
            ((st.source.drop (st.current + 1)).takeWhile (fun c => c.isAlphanum)).length -
            st.current =
            ((st.source.drop (st.current + 1)).takeWhile (fun c => c.isAlphanum)).length + 1
            from by omega] at hadd
          rw [hdropc, List.take_succ_cons, take_takeWhile_length] at hadd
          have hnws : ∀ x ∈ '-' ::
              (st.source.drop (st.current + 1)).takeWhile (fun c => c.isAlphanum),
              rustIsWhitespace x = false := by
            intro x hx
            rcases List.mem_cons.mp hx with hx | hx
            · rw [hx]; decide
            exact alnum_not_ws x (hrunP x hx)
          rw [rustTrim_all _ hnws, if_neg (by simp)] at hadd
          injection hadd with hadd
          refine ⟨[⟨.Flag, String.mk ('-' ::
            (st.source.drop (st.current + 1)).takeWhile (fun c => c.isAlphanum))⟩],
            by rw [← hadd], Or.inr (Or.inl ⟨_, rfl, ?_, Or.inl ⟨rfl, by rw [← hadd]⟩⟩)⟩
          show (shortFlagL ('-' ::
            (st.source.drop (st.current + 1)).takeWhile (fun c => c.isAlphanum)) &&
            asciiL ('-' ::
            (st.source.drop (st.current + 1)).takeWhile (fun c => c.isAlphanum))) = true
          rw [Bool.and_eq_true]
          constructor
          · simp only [shortFlagL, beq_self_eq_true, Bool.true_and, List.all_eq_true]
            exact hrunP
          · rw [asciiL, List.all_eq_true]
            intro x hx
            rcases List.mem_cons.mp hx with hx | hx
            · rw [hx]; decide
            simp [hA x (hrunMem x hx)]
      next hdash =>
        split at h
        next hpipe =>
          subst hpipe
          split at h
          · exact absurd h (by simp)
          next st2 ha =>
            have h2 := addToken_single st .Pipe '|' st2 hA hsc hc (by decide) ha
            subst h2
            injection h with h
            refine ⟨[⟨.Pipe, String.mk ['|']⟩], by rw [← h],
              Or.inr (Or.inl ⟨_, rfl, by decide, Or.inr (Or.inl ⟨rfl, by rw [← h]⟩)⟩)⟩
        next hpipe =>
          split at h
          next hin =>
            subst hin
            have h2 := addToken_single st .InputRedir '<' st' hA hsc hc (by decide) h
            refine ⟨[⟨.InputRedir, String.mk ['<']⟩], by rw [h2],
              Or.inr (Or.inl ⟨_, rfl, by decide, Or.inl ⟨rfl, by rw [h2]⟩⟩)⟩
          next hin =>
            split at h
            next hout =>
              subst hout
              have h2 := addToken_single st .OutputRedir '>' st' hA hsc hc (by decide) h
              refine ⟨[⟨.OutputRedir, String.mk ['>']⟩], by rw [h2],
                Or.inr (Or.inl ⟨_, rfl, by decide, Or.inl ⟨rfl, by rw [h2]⟩⟩)⟩
            next hout =>
              split at h
              next hamp =>
                subst hamp
                have h2 := addToken_single st .Background '&' st' hA hsc hc (by decide) h
                refine ⟨[⟨.Background, String.mk ['&']⟩], by rw [h2],
                  Or.inr (Or.inl ⟨_, rfl, by decide, Or.inl ⟨rfl, by rw [h2]⟩⟩)⟩
              next hamp =>
                -- word branch
                have h1 : inSkipWs c = false := by simpa using hwsk
                have hspec : specialChar c = false := by
                  simp [specialChar, h1, hdash, hpipe, hin, hout, hamp]
                rw [wordHandle] at h
                split at h
                · exact absurd h (by simp)
                next stw hw =>
                  have hstw := wordLoop_run fuel _ stw (by dsimp only; exact hA) hw
                  dsimp only at hstw
                  subst hstw
                  have hrunlen := takeWhile_length_le wordChar (st.source.drop (st.current + 1))
                  have hdl := List.length_drop (st.current + 1) st.source
                  have hrunP : ∀ x ∈ (st.source.drop (st.current + 1)).takeWhile wordChar,
                      wordChar x = true := fun x hx => List.mem_takeWhile_imp hx
                  have hrunMem : ∀ x ∈ (st.source.drop (st.current + 1)).takeWhile wordChar,
                      x ∈ st.source := fun x hx =>
                    List.mem_of_mem_drop (mem_of_mem_takeWhile _ _ _ hx)
                  have hrunNws : ∀ x ∈ (st.source.drop (st.current + 1)).takeWhile wordChar,
                      rustIsWhitespace x = false := fun x hx => wordChar_not_ws x (hrunP x hx)
                  have hCmem : c ∈ st.source := List.get?_mem hc
                  have hAc : charBytes c = 1 := hA c hCmem
                  have hwordish : wordishL (c :: (st.source.drop (st.current + 1)).takeWhile wordChar)
                      = true ∨ rustIsWhitespace c = true := by
                    by_cases hcws : rustIsWhitespace c = true
                    · exact Or.inr hcws
                    · refine Or.inl ?_
                      rw [wordishL, hspec]
                      have hcf : rustIsWhitespace c = false := by simpa using hcws
                      rw [hcf]
                      simp only [Bool.not_false, Bool.true_and, List.all_eq_true]
                      exact hrunP
                  have htailW : ((st.source.drop (st.current + 1)).takeWhile wordChar) ≠ [] →
                      wordishL ((st.source.drop (st.current + 1)).takeWhile wordChar) = true := by
                    intro hne
                    cases hrw : (st.source.drop (st.current + 1)).takeWhile wordChar with
                    | nil => exact absurd hrw hne
                    | cons r rs =>
                      rw [wordishL]
                      have hrP : wordChar r = true := hrunP r (by rw [hrw]; exact List.mem_cons_self _ _)
                      rw [wordChar_not_special r hrP, wordChar_not_ws r hrP]
                      simp only [Bool.not_false, Bool.true_and, List.all_eq_true]
                      intro x hx
                      exact hrunP x (by rw [hrw]; exact List.mem_cons_of_mem _ hx)
                  have hasciiCR : asciiL (c :: (st.source.drop (st.current + 1)).takeWhile wordChar)
                      = true := by
                    rw [asciiL, List.all_eq_true]
                    intro x hx
                    rcases List.mem_cons.mp hx with hx | hx
                    · rw [hx]; simp [hAc]
                    · simp [hA x (hrunMem x hx)]
                  have hasciiR : asciiL ((st.source.drop (st.current + 1)).takeWhile wordChar)
                      = true := by
                    rw [asciiL, List.all_eq_true]
                    intro x hx
                    simp [hA x (hrunMem x hx)]
                  split at h
                  next hhad =>
                    dsimp only at hhad
                    rw [addToken_eq _ .Arg (by dsimp only; exact hA)
                      (by dsimp only; omega) (by dsimp only; omega)] at h
                    dsimp only at h
                    rw [hsc] at h
                    rw [show st.current + 1 +
                      ((st.source.drop (st.current + 1)).takeWhile wordChar).length - st.current =
                      ((st.source.drop (st.current + 1)).takeWhile wordChar).length + 1
                      from by omega] at h
                    rw [hdropc, List.take_succ_cons, take_takeWhile_length] at h
                    by_cases hcws : rustIsWhitespace c = true
                    · rw [rustTrim_cons_ws c _ hcws hrunNws] at h
                      by_cases hrE : (st.source.drop (st.current + 1)).takeWhile wordChar = []
                      · rw [if_pos hrE] at h
                        injection h with h
                        exact ⟨[], by rw [← h, List.append_nil], Or.inl ⟨rfl, by rw [← h]⟩⟩
                      · rw [if_neg hrE] at h
                        injection h with h
                        refine ⟨[⟨.Arg, String.mk
                          ((st.source.drop (st.current + 1)).takeWhile wordChar)⟩],
                          by rw [← h], Or.inr (Or.inl ⟨_, rfl, ?_,
                            Or.inr (Or.inr (Or.inr ⟨rfl, hhad, by rw [← h]; exact hhad⟩))⟩)⟩
                        show (wordishL ((st.source.drop (st.current + 1)).takeWhile wordChar) &&
                          asciiL ((st.source.drop (st.current + 1)).takeWhile wordChar)) = true
                        rw [Bool.and_eq_true]
                        exact ⟨htailW hrE, hasciiR⟩
                    · have hcf : rustIsWhitespace c = false := by simpa using hcws
                      have hnwsAll : ∀ x ∈ c ::
                          (st.source.drop (st.current + 1)).takeWhile wordChar,
                          rustIsWhitespace x = false := by
                        intro x hx
                        rcases List.mem_cons.mp hx with hx | hx
                        · rw [hx]; exact hcf
                        · exact hrunNws x hx
                      rw [rustTrim_all _ hnwsAll, if_neg (by simp)] at h
                      injection h with h
                      refine ⟨[⟨.Arg, String.mk
                        (c :: (st.source.drop (st.current + 1)).takeWhile wordChar)⟩],
                        by rw [← h], Or.inr (Or.inl ⟨_, rfl, ?_,
                          Or.inr (Or.inr (Or.inr ⟨rfl, hhad, by rw [← h]; exact hhad⟩))⟩)⟩
                      show (wordishL (c :: (st.source.drop (st.current + 1)).takeWhile wordChar) &&
                        asciiL (c :: (st.source.drop (st.current + 1)).takeWhile wordChar)) = true
                      rw [Bool.and_eq_true]
                      rcases hwordish with hwd | hwd
                      · exact ⟨hwd, hasciiCR⟩
                      · exact absurd hwd (by simp [hcf])
                  next hhad =>
                    dsimp only at hhad
                    have hhadf : st.had_cmd = false := by simpa using hhad
                    split at h
                    · exact absurd h (by simp)
                    next st2 ha =>
                      injection h with h
                      rw [addToken_eq _ .Cmd (by dsimp only; exact hA)
                        (by dsimp only; omega) (by dsimp only; omega)] at ha
                      dsimp only at ha
                      rw [hsc] at ha
                      rw [show st.current + 1 +
                        ((st.source.drop (st.current + 1)).takeWhile wordChar).length - st.current =
                        ((st.source.drop (st.current + 1)).takeWhile wordChar).length + 1
                        from by omega] at ha
                      rw [hdropc, List.take_succ_cons, take_takeWhile_length] at ha
                      by_cases hcws : rustIsWhitespace c = true
                      · rw [rustTrim_cons_ws c _ hcws hrunNws] at ha
                        by_cases hrE : (st.source.drop (st.current + 1)).takeWhile wordChar = []
                        · rw [if_pos hrE] at ha
                          injection ha with ha
                          refine ⟨[], ?_, Or.inr (Or.inr ⟨rfl, hhadf, ?_, c, hCmem, hcws, h1⟩)⟩
                          · rw [← h, ← ha, List.append_nil]
                          · rw [← h, ← ha]
                        · rw [if_neg hrE] at ha
                          injection ha with ha
                          refine ⟨[⟨.Cmd, String.mk
                            ((st.source.drop (st.current + 1)).takeWhile wordChar)⟩],
                            by rw [← h, ← ha], Or.inr (Or.inl ⟨_, rfl, ?_,
                              Or.inr (Or.inr (Or.inl ⟨rfl, hhadf, by rw [← h]⟩))⟩)⟩
                          show (wordishL ((st.source.drop (st.current + 1)).takeWhile wordChar) &&
                            asciiL ((st.source.drop (st.current + 1)).takeWhile wordChar)) = true
                          rw [Bool.and_eq_true]
                          exact ⟨htailW hrE, hasciiR⟩
                      · have hcf : rustIsWhitespace c = false := by simpa using hcws
                        have hnwsAll : ∀ x ∈ c ::
                            (st.source.drop (st.current + 1)).takeWhile wordChar,
                            rustIsWhitespace x = false := by
                          intro x hx
                          rcases List.mem_cons.mp hx with hx | hx
                          · rw [hx]; exact hcf
                          · exact hrunNws x hx
                        rw [rustTrim_all _ hnwsAll, if_neg (by simp)] at ha
                        injection ha with ha
                        refine ⟨[⟨.Cmd, String.mk
                          (c :: (st.source.drop (st.current + 1)).takeWhile wordChar)⟩],
                          by rw [← h, ← ha], Or.inr (Or.inl ⟨_, rfl, ?_,
                            Or.inr (Or.inr (Or.inl ⟨rfl, hhadf, by rw [← h]⟩))⟩)⟩
                        show (wordishL (c :: (st.source.drop (st.current + 1)).takeWhile wordChar) &&
                          asciiL (c :: (st.source.drop (st.current + 1)).takeWhile wordChar)) = true
                        rw [Bool.and_eq_true]
                        rcases hwordish with hwd | hwd
                        · exact ⟨hwd, hasciiCR⟩
                        · exact absurd hwd (by simp [hcf])


/-! ## Loop invariants of the scanner -/

/-- Token shapes and the weak stage-shape invariant are preserved by the
scanning loop. -/
theorem scanLoop_shape : ∀ (fuel : Nat) (st st' : Tokenizer),
    (∀ x ∈ st.source, charBytes x = 1) →
    scanLoop fuel st = some st' →
    (∀ t ∈ st.tokens, shapeOk t = true) →
    stageShape false st.tokens = true →
    (shapeFlag false st.tokens = true → st.had_cmd = true) →
    (∀ t ∈ st'.tokens, shapeOk t = true) ∧ stageShape false st'.tokens = true := by
  intro fuel
  induction fuel with
  | zero => intro st st' hA h; exact absurd h (by simp [scanLoop])
  | succ fuel ih =>
    intro st st' hA h hshape hstage hflag
    rw [scanLoop] at h
    split at h
    · injection h with h
      rw [← h]
      exact ⟨hshape, hstage⟩
    next hend =>
      split at h
      · exact absurd h (by simp)
      next st1 hstep =>
        obtain ⟨Δ, hΔ, hcases⟩ := scanToken_step fuel { st with start := st.current } st1 hA rfl hstep
        obtain ⟨hs1, _, _, _⟩ := scanToken_frame fuel _ st1 hstep
        simp only at hs1 hΔ
        have hshape1 : ∀ t ∈ st1.tokens, shapeOk t = true := by
          intro t ht
          rw [hΔ] at ht
          rcases List.mem_append.mp ht with ht | ht
          · exact hshape t ht
          · rcases hcases with ⟨hE, _⟩ | ⟨u, hu, hsu, _⟩ | ⟨hE, _⟩
            · rw [hE] at ht; simp at ht
            · rw [hu] at ht
              rw [List.mem_singleton.mp ht]
              exact hsu
            · rw [hE] at ht; simp at ht
        have hstage1 : stageShape false st1.tokens = true := by
          rw [hΔ]
          rcases hcases with ⟨hE, _⟩ | ⟨u, hu, _, hk⟩ | ⟨hE, _, _, _⟩
          · rw [hE, List.append_nil]; exact hstage
          · rw [hu, stageShape_append, hstage, Bool.true_and]
            rcases hk with ⟨hnw, _⟩ | ⟨hkp, _⟩ | ⟨hkc, hh0, _⟩ | ⟨hka, _, _⟩
            · cases hku : u.kind <;>
                first | rfl | (rw [hku] at hnw; exact absurd hnw (by decide))
            · rw [hkp]
            · rw [hkc]
              have hh0b : st.had_cmd = false := hh0
              cases hsf : shapeFlag false st.tokens with
              | true =>
                rw [hflag hsf] at hh0b
                exact absurd hh0b (by decide)
              | false => rfl
            · rw [hka]
          · rw [hE, List.append_nil]; exact hstage
        have hflag1 : shapeFlag false st1.tokens = true → st1.had_cmd = true := by
          intro hsf
          rw [hΔ] at hsf
          rcases hcases with ⟨hE, hhp⟩ | ⟨u, hu, _, hk⟩ | ⟨_, _, hh1, _⟩
          · rw [hE, List.append_nil] at hsf
            rw [hhp]
            exact hflag hsf
          · rw [hu, shapeFlag_append] at hsf
            rcases hk with ⟨hnw, hhp⟩ | ⟨hkp, hhp⟩ | ⟨_, _, hh1⟩ | ⟨_, _, hh1⟩
            · rw [hhp]
              apply hflag
              cases hku : u.kind <;> rw [hku] at hsf <;>
                first | (rw [hku] at hnw; exact absurd hnw (by decide)) | exact hsf
            · rw [hkp] at hsf
              simp at hsf
            · exact hh1
            · exact hh1
          · exact hh1
        exact ih st1 st' (fun x hx => hA x (hs1 ▸ hx)) h hshape1 hstage1 hflag1

/-- Under tame whitespace the exact `had_cmd` classification discipline
is preserved by the scanning loop. -/
theorem scanLoop_class : ∀ (fuel : Nat) (st st' : Tokenizer),
    (∀ x ∈ st.source, charBytes x = 1) →
    tameWs st.source = true →
    scanLoop fuel st = some st' →
    classOk false st.tokens = true →
    classFlag false st.tokens = st.had_cmd →
    classOk false st'.tokens = true := by
  intro fuel
  induction fuel with
  | zero => intro st st' hA htame h; exact absurd h (by simp [scanLoop])
  | succ fuel ih =>
    intro st st' hA htame h hok hcf
    rw [scanLoop] at h
    split at h
    · injection h with h; rw [← h]; exact hok
    next hend =>
      split at h
      · exact absurd h (by simp)
      next st1 hstep =>
        obtain ⟨Δ, hΔ, hcases⟩ := scanToken_step fuel { st with start := st.current } st1 hA rfl hstep
        obtain ⟨hs1, _, _, _⟩ := scanToken_frame fuel _ st1 hstep
        simp only at hs1 hΔ
        have hok1 : classOk false st1.tokens = true ∧ classFlag false st1.tokens = st1.had_cmd := by
          rcases hcases with ⟨hE, hhp⟩ | ⟨u, hu, _, hk⟩ | ⟨_, _, _, c, hcm, hcw, hcs⟩
          · rw [hΔ, hE, List.append_nil]
            exact ⟨hok, by rw [hhp]; exact hcf⟩
          · rw [hΔ, hu, classOk_append, classFlag_append]
            rcases hk with ⟨hnw, hhp⟩ | ⟨hkp, hhp⟩ | ⟨hkc, hh0, hh1⟩ | ⟨hka, hh0, hh1⟩
            · constructor
              · rw [hok, Bool.true_and]
                cases hku : u.kind <;>
                  first | rfl | (rw [hku] at hnw; exact absurd hnw (by decide))
              · rw [hhp]
                cases hku : u.kind <;>
                  first | (rw [hku] at hnw; exact absurd hnw (by decide)) | exact hcf
            · constructor
              · rw [hok, Bool.true_and, hkp]
              · rw [hkp]
                exact hhp.symm
            · constructor
              · rw [hok, Bool.true_and, hkc, hcf]
                have hh0b : st.had_cmd = false := hh0
                rw [hh0b]
                rfl
              · rw [hkc]
                exact hh1.symm
            · constructor
              · rw [hok, Bool.true_and, hka, hcf]
                exact hh0
              · rw [hka]
                exact hh1.symm
          · exfalso
            rw [tameWs, List.all_eq_true] at htame
            have hx := htame c hcm
            rw [hcw, hcs] at hx
            simp at hx
        exact ih st1 st' (fun x hx => hA x (hs1 ▸ hx)) (by rw [hs1]; exact htame) h
          hok1.1 hok1.2

/-- Every token of a successful scan is well-shaped. -/
theorem scan_shape (s : String) (ts : List Token) (h : scan s = some ts) :
    ∀ t ∈ ts, shapeOk t = true := by
  have hA := scan_ascii s ts h
  rw [scan, scanTokens] at h
  split at h
  · exact absurd h (by simp)
  next st hst =>
    injection h with h
    obtain ⟨hsh, _⟩ := scanLoop_shape (byteLen s.data + 1) _ st hA hst
      (by intro t ht; simp at ht) (by rfl) (by intro hsf; simp [shapeFlag] at hsf)
    intro t ht
    rw [← h] at ht
    rcases List.mem_append.mp ht with ht | ht
    · exact hsh t ht
    · rw [List.mem_singleton.mp ht]
      decide

/-- The weak stage-shape invariant holds for every successful scan. -/
theorem scan_stageShape (s : String) (ts : List Token) (h : scan s = some ts) :
    stageShape false ts = true := by
  have hA := scan_ascii s ts h
  rw [scan, scanTokens] at h
  split at h
  · exact absurd h (by simp)
  next st hst =>
    injection h with h
    obtain ⟨_, hstage⟩ := scanLoop_shape (byteLen s.data + 1) _ st hA hst
      (by intro t ht; simp at ht) (by rfl) (by intro hsf; simp [shapeFlag] at hsf)
    rw [← h, stageShape_append, hstage]
    rfl

/-- The exact classification discipline holds for every successful scan
of a line whose whitespace the scanner actually skips. -/
theorem scan_classOk (s : String) (ts : List Token) (h : scan s = some ts)
    (htame : tameWs s.data = true) : classOk false ts = true := by
  have hA := scan_ascii s ts h
  rw [scan, scanTokens] at h
  split at h
  · exact absurd h (by simp)
  next st hst =>
    injection h with h
    have hok := scanLoop_class (byteLen s.data + 1) _ st hA htame hst (by rfl) (by rfl)
    rw [← h, classOk_append, hok]
    rfl

/-! ## Claim C5 — per-stage word classification -/

/-- C5, counterexample.  The first non-whitespace token of a stage need
not be classified `Cmd`: a leading short flag leaves `had_cmd` unset, so
`-l foo` classifies `foo` — its second non-whitespace token — as the
`Cmd`; and with degenerate whitespace (vertical tab: Rust whitespace the
scanner does not skip) the stage of `"\x0B foo"` has its leading word
token suppressed while the flag is still set, so its only token is an
`Arg` and no token of the stage is classified `Cmd`. -/
theorem c5_counterexample :
    (scan "-l foo" = some [⟨.Flag, "-l"⟩, ⟨.Cmd, "foo"⟩, ⟨.Eof, ""⟩] ∧
      (stageTokens [⟨.Flag, "-l"⟩, ⟨.Cmd, "foo"⟩, ⟨.Eof, ""⟩]).all c5StageClaim = false) ∧
    (scan "\x0B foo" = some [⟨.Arg, "foo"⟩, ⟨.Eof, ""⟩] ∧
      (stageTokens [⟨.Arg, "foo"⟩, ⟨.Eof, ""⟩]).all c5StageClaim = false) := by decide

/-- C5, amended.  For every input whose scan succeeds, the token sequence
satisfies the weak per-stage shape invariant: within each stage (the flag
resetting exactly at each `Pipe` token) no `Cmd` token ever follows a
`Cmd` or `Arg` token; and when the input contains no whitespace outside
the scanner's skip set, the full discipline holds: the first word token
of each stage, and only it, is classified `Cmd`, and every later word
token of the stage is classified `Arg`. -/
theorem c5_amended (s : String) (ts : List Token) (h : scan s = some ts) :
    stageShape false ts = true ∧
    (tameWs s.data = true → classOk false ts = true) :=
  ⟨scan_stageShape s ts h, fun htame => scan_classOk s ts h htame⟩

/-- C5 witness: the amended claim evaluated on `ls -l | grep foo`. -/
theorem c5_amended_witness :
    scan "ls -l | grep foo" =
      some [⟨.Cmd, "ls"⟩, ⟨.Flag, "-l"⟩, ⟨.Pipe, "|"⟩, ⟨.Cmd, "grep"⟩,
        ⟨.Arg, "foo"⟩, ⟨.Eof, ""⟩] ∧
    (stageShape false [⟨.Cmd, "ls"⟩, ⟨.Flag, "-l"⟩, ⟨.Pipe, "|"⟩, ⟨.Cmd, "grep"⟩,
        ⟨.Arg, "foo"⟩, ⟨.Eof, ""⟩] = true ∧
      (tameWs "ls -l | grep foo".data = true →
        classOk false [⟨.Cmd, "ls"⟩, ⟨.Flag, "-l"⟩, ⟨.Pipe, "|"⟩, ⟨.Cmd, "grep"⟩,
          ⟨.Arg, "foo"⟩, ⟨.Eof, ""⟩] = true)) :=
  ⟨by decide, c5_amended "ls -l | grep foo"
    [⟨.Cmd, "ls"⟩, ⟨.Flag, "-l"⟩, ⟨.Pipe, "|"⟩, ⟨.Cmd, "grep"⟩,
      ⟨.Arg, "foo"⟩, ⟨.Eof, ""⟩] (by decide)⟩


/-! ## Parse-output characterisation (towards the display round-trip) -/

theorem dispatch_name (l : String) : (dispatch l).name = l := by
  rw [dispatch]
  split
  next h => rw [h]
  next h =>
    split
    next h2 => rw [h2]
    next h2 =>
      split
      next h3 => rw [h3]
      next h3 => rfl

theorem dispatch_args_flags (l : String) : (dispatch l).args = [] ∧ (dispatch l).flags = [] := by
  rw [dispatch]
  split
  · exact ⟨rfl, rfl⟩
  · split
    · exact ⟨rfl, rfl⟩
    · split
      · exact ⟨rfl, rfl⟩
      · exact ⟨rfl, rfl⟩

theorem dispatch_good (l : String) (hw : wordishL l.data = true) (ha : asciiL l.data = true) :
    cmdGood (dispatch l) = true := by
  have hn := dispatch_name l
  obtain ⟨h1, h2⟩ := dispatch_args_flags l
  rw [cmdGood, hn, h1, h2]
  simp [hw, ha]

/-- Pushing a well-shaped token into a well-shaped command preserves the
shape. -/
theorem pushTok_good (c c2 : SCmd) (t : Token)
    (hg : cmdGood c = true) (hs : shapeOk t = true)
    (h : pushTok c t = some c2) : cmdGood c2 = true := by
  rw [cmdGood, Bool.and_eq_true, Bool.and_eq_true, Bool.and_eq_true, Bool.and_eq_true] at hg
  obtain ⟨⟨⟨⟨g1, g2⟩, g3⟩, g4⟩, g5⟩ := hg
  obtain ⟨k, lex⟩ := t
  cases k <;> simp only [pushTok] at h
  case Arg =>
    split at h
    · exact absurd h (by simp)
    next hk =>
      injection h with h
      rw [← h, cmdGood]
      dsimp only
      rw [List.all_append, g3, g4]
      simp only [shapeOk] at hs
      simp [g1, g2, hs, hk]
  case Flag =>
    split at h
    · exact absurd h (by simp)
    next hk =>
      injection h with h
      rw [← h, cmdGood]
      dsimp only
      rw [List.all_append, g3, g4]
      simp only [shapeOk] at hs
      simp [g1, g2, hs, hk, flagGood]
  case LongFlag =>
    split at h
    · exact absurd h (by simp)
    next hk =>
      injection h with h
      rw [← h, cmdGood]
      dsimp only
      rw [List.all_append, g3, g4]
      simp only [shapeOk] at hs
      simp [g1, g2, hs, hk, flagGood]
  case LongFlagWithValue =>
    split at h
    · exact absurd h (by simp)
    next hk =>
      split at h
      · exact absurd h (by simp)
      next a b hsp =>
        injection h with h
        rw [← h, cmdGood]
        dsimp only
        rw [List.all_append, g3, g4]
        simp only [shapeOk] at hs
        rw [hsp] at hs
        simp only [Option.isSome_some, Bool.true_and, Bool.and_eq_true] at hs
        simp [g1, g2, hs.1, hs.2, hk, flagGood]
  all_goals (injection h with h; rw [← h, cmdGood]; simp [g1, g2, g3, g4, g5])

/-- Folding well-shaped tokens preserves the command shape. -/
theorem pushBody_good : ∀ (ts : List Token) (c c2 : SCmd),
    (∀ t ∈ ts, shapeOk t = true) →
    cmdGood c = true →
    pushBody c ts = some c2 →
    cmdGood c2 = true := by
  intro ts
  induction ts with
  | nil => intro c c2 _ hg h; injection h with h; rw [← h]; exact hg
  | cons t ts ih =>
    intro c c2 hs hg h
    rw [pushBody] at h
    split at h
    · exact absurd h (by simp)
    next c1 hp =>
      exact ih c1 c2 (fun u hu => hs u (List.mem_cons_of_mem _ hu))
        (pushTok_good c c1 t hg (hs t (List.mem_cons_self _ _)) hp) h

/-- Inversion of a successful `parse_single_command`. -/
theorem parseSingle_ok_inv (toks : List Token) (s f : Nat) (c : SCmd)
    (h : parseSingle toks s f = some (.ok c)) :
    ∃ t, toks.get? s = some t ∧ t.kind = .Cmd ∧
      pushBody (dispatch t.lexeme) ((toks.take f).drop (s + 1)) = some c := by
  rw [parseSingle] at h
  split at h
  · exact absurd h (by simp)
  next t hg =>
    split at h
    · exact absurd h (by simp)
    next hk =>
      split at h
      · exact absurd h (by simp)
      · split at h
        · exact absurd h (by simp)
        next c1 hpb =>
          injection h with h
          injection h with h
          refine ⟨t, hg, by simpa using hk, ?_⟩
          rw [← h]
          exact hpb

/-- Every single command the end-to-end resolution can return is
well-shaped. -/
theorem resolve_single_good (s : String) (c : SCmd)
    (h : resolve s = some (.ok (.single c))) : cmdGood c = true := by
  rw [resolve] at h
  split at h
  · exact absurd h (by simp)
  next ts hscan =>
    have hshape := scan_shape s ts hscan
    rw [parse] at h
    split at h
    · exact absurd h (by simp)
    next hne =>
      split at h
      · split at h
        · exact absurd h (by simp)
        next e hps => exact absurd h (by simp)
        next c1 hps =>
          injection h with h
          injection h with h
          injection h with h
          obtain ⟨t, hget, hkind, hpb⟩ := parseSingle_ok_inv ts 0 ts.length c1 hps
          have htm : t ∈ ts := List.get?_mem hget
          have hts := hshape t htm
          obtain ⟨kt, lt⟩ := t
          simp only at hkind
          subst hkind
          simp only [shapeOk] at hts
          rw [Bool.and_eq_true] at hts
          rw [← h]
          refine pushBody_good _ _ _ ?_ (dispatch_good lt hts.1 hts.2) hpb
          intro u hu
          exact hshape u (List.mem_of_mem_take (List.mem_of_mem_drop hu))
      · split at h
        · exact absurd h (by simp)
        next e hps => exact absurd h (by simp)
        next cs hps =>
          injection h with h
          injection h with h
          exact absurd h (by simp)


/-! ## Total evaluation of the scanning loops on ASCII input -/

theorem skipWhitespace_eval : ∀ (fuel : Nat) (st : Tokenizer),
    (∀ x ∈ st.source, charBytes x = 1) →
    st.source.length - st.current < fuel →
    skipWhitespace fuel st = some { st with current :=
      st.current + ((st.source.drop st.current).takeWhile inSkipWs).length } := by
  intro fuel
  induction fuel with
  | zero => intro st hA hf; omega
  | succ fuel ih =>
    intro st hA hf
    rw [skipWhitespace]
    by_cases hend : byteLen st.source ≤ st.current
    · rw [if_pos hend]
      rw [byteLen_ascii _ hA] at hend
      rw [List.drop_eq_nil_of_le hend]
      simp
    · rw [if_neg hend]
      rw [byteLen_ascii _ hA] at hend
      have hlt : st.current < st.source.length := by omega
      cases hg : st.source.get? st.current with
      | none => exact absurd (List.get?_eq_none.mp hg) (by omega)
      | some c =>
        dsimp only
        by_cases hws : inSkipWs c = true
        · rw [if_pos hws]
          rw [ih { st with current := st.current + 1 } (by simpa using hA)
            (by dsimp only; omega)]
          dsimp only
          rw [drop_of_get _ _ _ hg, List.takeWhile_cons, if_pos hws]
          simp only [List.length_cons]
          have harith : st.current +
              (((st.source.drop (st.current + 1)).takeWhile inSkipWs).length + 1) =
              st.current + 1 +
              ((st.source.drop (st.current + 1)).takeWhile inSkipWs).length := by omega
          rw [harith]
        · rw [if_neg hws]
          rw [drop_of_get _ _ _ hg, List.takeWhile_cons, if_neg hws]
          simp

theorem wordLoop_eval : ∀ (fuel : Nat) (st : Tokenizer),
    (∀ x ∈ st.source, charBytes x = 1) →
    st.source.length - st.current < fuel →
    wordLoop fuel st = some { st with current :=
      st.current + ((st.source.drop st.current).takeWhile wordChar).length } := by
  intro fuel
  induction fuel with
  | zero => intro st hA hf; omega
  | succ fuel ih =>
    intro st hA hf
    rw [wordLoop]
    by_cases hend : byteLen st.source ≤ st.current
    · rw [if_pos hend]
      rw [byteLen_ascii _ hA] at hend
      rw [List.drop_eq_nil_of_le hend]
      simp
    · rw [if_neg hend]
      rw [byteLen_ascii _ hA] at hend
      have hlt : st.current < st.source.length := by omega
      cases hg : st.source.get? st.current with
      | none => exact absurd (List.get?_eq_none.mp hg) (by omega)
      | some c =>
        dsimp only
        by_cases hwc : wordChar c = true
        · rw [if_pos hwc]
          rw [ih { st with current := st.current + 1 } (by simpa using hA)
            (by dsimp only; omega)]
          dsimp only
          rw [drop_of_get _ _ _ hg, List.takeWhile_cons, if_pos hwc]
          simp only [List.length_cons]
          have harith : st.current +
              (((st.source.drop (st.current + 1)).takeWhile wordChar).length + 1) =
              st.current + 1 +
              ((st.source.drop (st.current + 1)).takeWhile wordChar).length := by omega
          rw [harith]
        · rw [if_neg hwc]
          rw [drop_of_get _ _ _ hg, List.takeWhile_cons, if_neg hwc]
          simp

theorem flagLoop_eval : ∀ (fuel : Nat) (st : Tokenizer),
    (∀ x ∈ st.source, charBytes x = 1) →
    st.source.length - st.current < fuel →
    flagLoop fuel st = addToken { st with current :=
      st.current + ((st.source.drop st.current).takeWhile (fun c => c.isAlphanum)).length }
      .Flag := by
  intro fuel
  induction fuel with
  | zero => intro st hA hf; omega
  | succ fuel ih =>
    intro st hA hf
    rw [flagLoop]
    by_cases hend : byteLen st.source ≤ st.current
    · rw [if_pos hend]
      rw [byteLen_ascii _ hA] at hend
      rw [List.drop_eq_nil_of_le hend]
      simp
    · rw [if_neg hend]
      rw [byteLen_ascii _ hA] at hend
      have hlt : st.current < st.source.length := by omega
      cases hg : st.source.get? st.current with
      | none => exact absurd (List.get?_eq_none.mp hg) (by omega)
      | some c =>
        dsimp only
        by_cases hal : c.isAlphanum = true
        · rw [if_pos hal]
          rw [ih { st with current := st.current + 1 } (by simpa using hA)
            (by dsimp only; omega)]
          dsimp only
          rw [drop_of_get _ _ _ hg, List.takeWhile_cons, if_pos hal]
          simp only [List.length_cons]
          have harith : st.current +
              (((st.source.drop (st.current + 1)).takeWhile (fun c => c.isAlphanum)).length + 1) =
              st.current + 1 +
              ((st.source.drop (st.current + 1)).takeWhile (fun c => c.isAlphanum)).length := by
            omega
          rw [harith]
        · rw [if_neg hal]
          rw [drop_of_get _ _ _ hg, List.takeWhile_cons, if_neg hal]
          simp

theorem longFlagLoop_eval : ∀ (fuel : Nat) (st : Tokenizer),
    (∀ x ∈ st.source, charBytes x = 1) →
    st.source.length - st.current < fuel →
    st.source.get?
      (st.current + ((st.source.drop st.current).takeWhile longFlagChar).length) ≠ some '=' →
    longFlagLoop fuel st = addToken { st with current :=
      st.current + ((st.source.drop st.current).takeWhile longFlagChar).length } .LongFlag := by
  intro fuel
  induction fuel with
  | zero => intro st hA hf; omega
  | succ fuel ih =>
    intro st hA hf hne
    rw [longFlagLoop]
    by_cases hend : byteLen st.source ≤ st.current
    · rw [if_pos hend]
      rw [byteLen_ascii _ hA] at hend
      rw [List.drop_eq_nil_of_le hend]
      simp
    · rw [if_neg hend]
      rw [byteLen_ascii _ hA] at hend
      have hlt : st.current < st.source.length := by omega
      cases hg : st.source.get? st.current with
      | none => exact absurd (List.get?_eq_none.mp hg) (by omega)
      | some c =>
        dsimp only
        by_cases heq : c = '='
        · exfalso
          apply hne
          have hL : ((st.source.drop st.current).takeWhile longFlagChar).length = 0 := by
            rw [drop_of_get _ _ _ hg, List.takeWhile_cons]
            rw [show longFlagChar c = false from by rw [heq]; decide]
            rfl
          rw [hL, Nat.add_zero]
          rw [heq] at hg
          exact hg
        · rw [if_neg heq]
          by_cases hlf : longFlagChar c = true
          · rw [if_pos hlf]
            have harith : st.current +
                (((st.source.drop (st.current + 1)).takeWhile longFlagChar).length + 1) =
                st.current + 1 +
                ((st.source.drop (st.current + 1)).takeWhile longFlagChar).length := by omega
            have hne2 : st.source.get? (st.current + 1 +
                ((st.source.drop (st.current + 1)).takeWhile longFlagChar).length) ≠ some '=' := by
              intro hcon
              apply hne
              rw [drop_of_get _ _ _ hg, List.takeWhile_cons, if_pos hlf]
              simp only [List.length_cons]
              rw [harith]
              exact hcon
            rw [ih { st with current := st.current + 1 } (by simpa using hA)
              (by dsimp only; omega) (by dsimp only; exact hne2)]
            dsimp only
            rw [drop_of_get _ _ _ hg, List.takeWhile_cons, if_pos hlf]
            simp only [List.length_cons]
            rw [harith]
          · rw [if_neg hlf]
            rw [drop_of_get _ _ _ hg, List.takeWhile_cons, if_neg hlf]
            simp


/-! ## Symbolic scanning of rendered commands -/

theorem get_of_drop (l : List Char) (n : Nat) (c : Char) (r : List Char)
    (h : l.drop n = c :: r) : l.get? n = some c := by
  have h0 : (l.drop n).get? 0 = some c := by rw [h]; rfl
  rw [List.get?_drop] at h0
  simpa using h0

theorem lt_length_of_drop_cons (l : List Char) (n : Nat) (c : Char) (r : List Char)
    (h : l.drop n = c :: r) : n < l.length :=
  (List.get?_eq_some.mp (get_of_drop l n c r h)).1

/-- `scan_token` over a single separating space followed by a
non-skippable character (or the end of input). -/
theorem scanToken_space (fuel : Nat) (st : Tokenizer) (rest : List Char)
    (hA : ∀ x ∈ st.source, charBytes x = 1)
    (hdrop : st.source.drop st.current = ' ' :: rest)
    (hrest : rest = [] ∨ ∃ r rs, rest = r :: rs ∧ inSkipWs r = false)
    (hfuel : st.source.length - st.current ≤ fuel) :
    scanToken fuel st = some { st with current := st.current + 1 } := by
  have hlt : st.current < st.source.length := lt_length_of_drop_cons _ _ _ _ hdrop
  have hg : st.source.get? st.current = some ' ' := get_of_drop _ _ _ _ hdrop
  have hrest2 : st.source.drop (st.current + 1) = rest := by
    have h2 := drop_of_get _ _ _ hg
    rw [hdrop] at h2
    injection h2 with _ h2
    exact h2.symm
  have hL : ((st.source.drop (st.current + 1)).takeWhile inSkipWs).length = 0 := by
    rw [hrest2]
    rcases hrest with hE | ⟨r, rs, hre, hri⟩
    · rw [hE]; rfl
    · rw [hre, List.takeWhile_cons, if_neg (by simp [hri])]
      rfl
  simp only [scanToken]
  rw [hg]
  dsimp only
  rw [if_pos (by decide : inSkipWs ' ' = true)]
  rw [skipWhitespace_eval fuel { st with current := st.current + 1 }
    (by dsimp only; exact hA) (by dsimp only; omega)]
  dsimp only
  rw [hL, Nat.add_zero]

/-- `scan_token` over a word chunk followed by a space, a dash, or the
end of input. -/
theorem scanToken_word (fuel : Nat) (st : Tokenizer) (w rest : List Char)
    (hA : ∀ x ∈ st.source, charBytes x = 1)
    (hsc : st.start = st.current)
    (hdrop : st.source.drop st.current = w ++ rest)
    (hw : wordishL w = true)
    (hrest : rest = [] ∨ ∃ r rs, rest = r :: rs ∧ (r = ' ' ∨ r = '-'))
    (hfuel : st.source.length - st.current ≤ fuel) :
    scanToken fuel st = some { st with
      tokens := st.tokens ++ [⟨if st.had_cmd then .Arg else .Cmd, String.mk w⟩]
      current := st.current + w.length
      had_cmd := true } := by
  obtain ⟨c, cs, hwc⟩ : ∃ c cs, w = c :: cs := by
    cases w with
    | nil => exact absurd hw (by decide)
    | cons c cs => exact ⟨c, cs, rfl⟩
  subst hwc
  rw [wordishL, Bool.and_eq_true, Bool.and_eq_true] at hw
  obtain ⟨⟨hcsp, hcws⟩, hcst⟩ := hw
  have hspec : specialChar c = false := by simpa using hcsp
  have hrws : rustIsWhitespace c = false := by simpa using hcws
  have hcsW : ∀ x ∈ cs, wordChar x = true := by
    rw [List.all_eq_true] at hcst
    exact hcst
  simp only [specialChar, Bool.or_eq_false_iff] at hspec
  obtain ⟨⟨⟨⟨⟨hws0, hd0⟩, hp0⟩, hl0⟩, hg0⟩, ha0⟩ := hspec
  have hlt : st.current < st.source.length := lt_length_of_drop_cons _ _ _ _ hdrop
  have hg : st.source.get? st.current = some c := get_of_drop _ _ _ _ hdrop
  have hdrop2 : st.source.drop (st.current + 1) = cs ++ rest := by
    have h2 := drop_of_get _ _ _ hg
    rw [hdrop] at h2
    injection h2 with _ h2
    exact h2.symm
  have hTW : (st.source.drop (st.current + 1)).takeWhile wordChar = cs := by
    rw [hdrop2]
    rcases hrest with hE | ⟨r, rs, hre, hri⟩
    · rw [hE, List.append_nil]
      exact takeWhile_all _ _ hcsW
    · rw [hre]
      refine takeWhile_all_cons _ _ _ _ hcsW ?_
      rcases hri with hri | hri <;> rw [hri] <;> decide
  have hcsle : cs.length ≤ st.source.length - (st.current + 1) := by
    rw [← hTW]
    have := takeWhile_length_le wordChar (st.source.drop (st.current + 1))
    rw [List.length_drop] at this
    omega
  have hnwsAll : ∀ x ∈ c :: cs, rustIsWhitespace x = false := by
    intro x hx
    rcases List.mem_cons.mp hx with hx | hx
    · rw [hx]; exact hrws
    · exact wordChar_not_ws x (hcsW x hx)
  simp only [scanToken]
  rw [hg]
  dsimp only
  rw [if_neg (by simp [hws0]), if_neg (by simpa using hd0), if_neg (by simpa using hp0),
    if_neg (by simpa using hl0), if_neg (by simpa using hg0), if_neg (by simpa using ha0)]
  rw [wordHandle]
  rw [wordLoop_eval fuel { st with current := st.current + 1 }
    (by dsimp only; exact hA) (by dsimp only; omega)]
  dsimp only
  rw [hTW]
  cases hhad : st.had_cmd with
  | true =>
    rw [if_pos rfl]
    rw [addToken_eq _ (.Arg) (by dsimp only; exact hA)
      (by dsimp only; omega) (by dsimp only; omega)]
    dsimp only
    rw [hsc]
    rw [show st.current + 1 + cs.length - st.current = cs.length + 1 from by omega]
    rw [hdrop, List.cons_append] at *
    rw [show (c :: (cs ++ rest)).take (cs.length + 1) = c :: (cs ++ rest).take cs.length
      from List.take_succ_cons]
    rw [List.take_left]
    rw [rustTrim_all _ hnwsAll, if_neg (by simp)]
    rw [show st.current + (c :: cs).length = st.current + 1 + cs.length
      from by simp only [List.length_cons]; omega]
    rfl
  | false =>
    rw [if_neg (by simp)]
    rw [addToken_eq _ (.Cmd) (by dsimp only; exact hA)
      (by dsimp only; omega) (by dsimp only; omega)]
    dsimp only
    rw [hsc]
    rw [show st.current + 1 + cs.length - st.current = cs.length + 1 from by omega]
    rw [hdrop]
    rw [show ((c :: cs) ++ rest).take (cs.length + 1) = c :: (cs ++ rest).take cs.length
      from List.take_succ_cons]
    rw [List.take_left]
    rw [rustTrim_all _ hnwsAll, if_neg (by simp)]
    dsimp only
    rw [show st.current + (c :: cs).length = st.current + 1 + cs.length
      from by simp only [List.length_cons]; omega]
    rfl


/-- `scan_token` over a short-flag chunk (`-` then alphanumerics)
followed by a space or the end of input. -/
theorem scanToken_flagS (fuel : Nat) (st : Tokenizer) (xs rest : List Char)
    (hA : ∀ x ∈ st.source, charBytes x = 1)
    (hsc : st.start = st.current)
    (hdrop : st.source.drop st.current = '-' :: (xs ++ rest))
    (hxs : ∀ x ∈ xs, x.isAlphanum = true)
    (hrest : rest = [] ∨ ∃ rs, rest = ' ' :: rs)
    (hfuel : st.source.length - st.current ≤ fuel) :
    scanToken fuel st = some { st with
      tokens := st.tokens ++ [⟨.Flag, String.mk ('-' :: xs)⟩]
      current := st.current + (xs.length + 1) } := by
  have hlt : st.current < st.source.length := lt_length_of_drop_cons _ _ _ _ hdrop
  have hg : st.source.get? st.current = some '-' := get_of_drop _ _ _ _ hdrop
  have hdrop2 : st.source.drop (st.current + 1) = xs ++ rest := by
    have h2 := drop_of_get _ _ _ hg
    rw [hdrop] at h2
    injection h2 with _ h2
    exact h2.symm
  have hTW : (st.source.drop (st.current + 1)).takeWhile (fun c => c.isAlphanum) = xs := by
    rw [hdrop2]
    rcases hrest with hE | ⟨rs, hre⟩
    · rw [hE, List.append_nil]
      exact takeWhile_all _ _ hxs
    · rw [hre]
      exact takeWhile_all_cons _ _ _ _ hxs (by decide)
  have hxsle : xs.length ≤ st.source.length - (st.current + 1) := by
    rw [← hTW]
    have := takeWhile_length_le (fun c => c.isAlphanum) (st.source.drop (st.current + 1))
    rw [List.length_drop] at this
    omega
  have hmc : matchChar { st with current := st.current + 1 } '-' =
      some (false, { st with current := st.current + 1 }) := by
    rw [matchChar]
    dsimp only
    by_cases hend2 : byteLen st.source ≤ st.current + 1
    · rw [if_pos hend2]
    · rw [if_neg hend2]
      rw [byteLen_ascii _ hA] at hend2
      cases xs with
      | nil =>
        rcases hrest with hE | ⟨rs, hre⟩
        · exfalso
          rw [hE, List.nil_append] at hdrop2
          rw [List.drop_eq_nil_iff_le] at hdrop2
          omega
        · rw [hre, List.nil_append] at hdrop2
          rw [get_of_drop _ _ _ _ hdrop2]
          dsimp only
          rw [if_neg (by decide : ¬(' ' = '-'))]
      | cons x xs2 =>
        rw [get_of_drop _ _ _ _ hdrop2]
        dsimp only
        have hx0 : x.isAlphanum = true := hxs x (List.mem_cons_self _ _)
        have hxne : ¬(x = '-') := by
          intro hcon
          rw [hcon] at hx0
          exact absurd hx0 (by decide)
        rw [if_neg hxne]
  have hnwsAll : ∀ x ∈ '-' :: xs, rustIsWhitespace x = false := by
    intro x hx
    rcases List.mem_cons.mp hx with hx | hx
    · rw [hx]; decide
    · exact alnum_not_ws x (hxs x hx)
  simp only [scanToken]
  rw [hg]
  dsimp only
  rw [if_neg (by decide), if_pos rfl]
  rw [hmc]
  dsimp only
  rw [flagLoop_eval fuel { st with current := st.current + 1 }
    (by dsimp only; exact hA) (by dsimp only; omega)]
  dsimp only
  rw [hTW]
  rw [addToken_eq _ (.Flag) (by dsimp only; exact hA)
    (by dsimp only; omega) (by dsimp only; omega)]
  dsimp only
  rw [hsc]
  rw [show st.current + 1 + xs.length - st.current = xs.length + 1 from by omega]
  rw [hdrop]
  rw [show ('-' :: (xs ++ rest)).take (xs.length + 1) = '-' :: (xs ++ rest).take xs.length
    from List.take_succ_cons]
  rw [List.take_left]
  rw [rustTrim_all _ hnwsAll, if_neg (by simp)]
  rw [show st.current + (xs.length + 1) = st.current + 1 + xs.length from by omega]

/-- `scan_token` over a long-flag chunk (`--` then long-flag characters)
followed by a space or the end of input. -/
theorem scanToken_flagL (fuel : Nat) (st : Tokenizer) (xs rest : List Char)
    (hA : ∀ x ∈ st.source, charBytes x = 1)
    (hsc : st.start = st.current)
    (hdrop : st.source.drop st.current = '-' :: '-' :: (xs ++ rest))
    (hxs : ∀ x ∈ xs, longFlagChar x = true)
    (hrest : rest = [] ∨ ∃ rs, rest = ' ' :: rs)
    (hfuel : st.source.length - st.current ≤ fuel) :
    scanToken fuel st = some { st with
      tokens := st.tokens ++ [⟨.LongFlag, String.mk ('-' :: '-' :: xs)⟩]
      current := st.current + (xs.length + 2) } := by
  have hlt : st.current < st.source.length := lt_length_of_drop_cons _ _ _ _ hdrop
  have hg : st.source.get? st.current = some '-' := get_of_drop _ _ _ _ hdrop
  have hdrop2 : st.source.drop (st.current + 1) = '-' :: (xs ++ rest) := by
    have h2 := drop_of_get _ _ _ hg
    rw [hdrop] at h2
    injection h2 with _ h2
    exact h2.symm
  have hlt2 : st.current + 1 < st.source.length := lt_length_of_drop_cons _ _ _ _ hdrop2
  have hg2 : st.source.get? (st.current + 1) = some '-' := get_of_drop _ _ _ _ hdrop2
  have hdrop3 : st.source.drop (st.current + 1 + 1) = xs ++ rest := by
    have h2 := drop_of_get _ _ _ hg2
    rw [hdrop2] at h2
    injection h2 with _ h2
    exact h2.symm
  have hTW : (st.source.drop (st.current + 1 + 1)).takeWhile longFlagChar = xs := by
    rw [hdrop3]
    rcases hrest with hE | ⟨rs, hre⟩
    · rw [hE, List.append_nil]
      exact takeWhile_all _ _ hxs
    · rw [hre]
      exact takeWhile_all_cons _ _ _ _ hxs (by decide)
  have hxsle : xs.length ≤ st.source.length - (st.current + 1 + 1) := by
    rw [← hTW]
    have := takeWhile_length_le longFlagChar (st.source.drop (st.current + 1 + 1))
    rw [List.length_drop] at this
    omega
  have hdrop4 : st.source.drop (st.current + 1 + 1 + xs.length) = rest := by
    rw [← List.drop_drop]
    rw [hdrop3]
    exact List.drop_left xs rest
  have hne : st.source.get? (st.current + 1 + 1 + xs.length) ≠ some '=' := by
    rcases hrest with hE | ⟨rs, hre⟩
    · have hnone : st.source.get? (st.current + 1 + 1 + xs.length) = none := by
        rw [List.get?_eq_none]
        rw [hE] at hdrop4
        rw [List.drop_eq_nil_iff_le] at hdrop4
        exact hdrop4
      rw [hnone]
      simp
    · have hsp : st.source.get? (st.current + 1 + 1 + xs.length) = some ' ' := by
        rw [hre] at hdrop4
        exact get_of_drop _ _ _ _ hdrop4
      rw [hsp]
      simp
  have hmc : matchChar { st with current := st.current + 1 } '-' =
      some (true, { st with current := st.current + 1 + 1 }) := by
    rw [matchChar]
    dsimp only
    rw [if_neg (by rw [byteLen_ascii _ hA]; omega)]
    rw [hg2]
    dsimp only
    rw [if_pos rfl]
  have hnwsAll : ∀ x ∈ '-' :: '-' :: xs, rustIsWhitespace x = false := by
    intro x hx
    rcases List.mem_cons.mp hx with hx | hx
    · rw [hx]; decide
    rcases List.mem_cons.mp hx with hx | hx
    · rw [hx]; decide
    exact longFlagChar_not_ws x (hxs x hx)
  simp only [scanToken]
  rw [hg]
  dsimp only
  rw [if_neg (by decide), if_pos rfl]
  rw [hmc]
  dsimp only
  rw [longFlagLoop_eval fuel { st with current := st.current + 1 + 1 }
    (by dsimp only; exact hA) (by dsimp only; omega)
    (by dsimp only; rw [hTW]; exact hne)]
  dsimp only
  rw [hTW]
  rw [addToken_eq _ (.LongFlag) (by dsimp only; exact hA)
    (by dsimp only; omega) (by dsimp only; omega)]
  dsimp only
  rw [hsc]
  rw [show st.current + 1 + 1 + xs.length - st.current = xs.length + 1 + 1 from by omega]
  rw [hdrop]
  rw [List.take_succ_cons, List.take_succ_cons, List.take_left]
  rw [rustTrim_all _ hnwsAll, if_neg (by simp)]
  rw [show st.current + (xs.length + 2) = st.current + 1 + 1 + xs.length from by omega]


/-! ## Rendering helpers -/

theorem mk_data (s : String) : String.mk s.data = s := rfl

theorem wordishL_ne_nil (w : List Char) (h : wordishL w = true) : w ≠ [] := by
  intro hcon
  rw [hcon] at h
  exact absurd h (by decide)

theorem wordishL_head_not_skip (c : Char) (cs : List Char)
    (h : wordishL (c :: cs) = true) : inSkipWs c = false := by
  rw [wordishL, Bool.and_eq_true, Bool.and_eq_true] at h
  have hsp : specialChar c = false := by simpa using h.1.1
  simp only [specialChar, Bool.or_eq_false_iff] at hsp
  exact hsp.1.1.1.1.1

theorem joinSpace_cons (x : String) (y : String) (t : List String) :
    joinSpace (x :: y :: t) = x ++ " " ++ joinSpace (y :: t) := rfl

theorem joinSpace_cons_data (x : String) (y : String) (t : List String) :
    (joinSpace (x :: y :: t)).data = x.data ++ ' ' :: (joinSpace (y :: t)).data := by
  rw [joinSpace_cons]
  rw [String.data_append, String.data_append]
  rw [List.append_assoc]
  rfl

/-- The shape of a well-formed flag identity rendering: a dash-led chunk
that rescans to exactly the token `flagTok` yields. -/
theorem flagGood_render (f : Flag) (hf : flagGood f = true) :
    (∃ xs, (FlagIdent.render f.ident).data = '-' :: xs ∧
      (∀ x ∈ xs, x.isAlphanum = true) ∧
      flagTok f = ⟨.Flag, FlagIdent.render f.ident⟩) ∨
    (∃ xs, (FlagIdent.render f.ident).data = '-' :: '-' :: xs ∧
      (∀ x ∈ xs, longFlagChar x = true) ∧
      flagTok f = ⟨.LongFlag, FlagIdent.render f.ident⟩) := by
  obtain ⟨⟨os, ol⟩, v⟩ := f
  rw [flagGood] at hf
  cases os with
  | some s =>
    cases ol with
    | none =>
      simp only at hf
      rw [Bool.and_eq_true] at hf
      obtain ⟨h1, _⟩ := hf
      left
      cases hs : s.data with
      | nil => rw [hs] at h1; exact absurd h1 (by decide)
      | cons c xs =>
        rw [hs] at h1
        rw [shortFlagL, Bool.and_eq_true] at h1
        obtain ⟨hc, hxs⟩ := h1
        refine ⟨xs, ?_, ?_, rfl⟩
        · rw [show FlagIdent.render ⟨some s, none⟩ = s from rfl, hs]
          rw [show c = '-' from by simpa using hc]
        · rw [List.all_eq_true] at hxs
          exact hxs
    | some l2 => exact absurd hf (by simp)
  | none =>
    cases ol with
    | none => exact absurd hf (by simp)
    | some l2 =>
      simp only at hf
      rw [Bool.and_eq_true] at hf
      obtain ⟨h1, _⟩ := hf
      right
      cases hs : l2.data with
      | nil => rw [hs] at h1; exact absurd h1 (by decide)
      | cons c1 rest1 =>
        cases hr : rest1 with
        | nil =>
          rw [hs, hr] at h1
          exact absurd h1 (by simp [longFlagL])
        | cons c2 xs =>
          rw [hs, hr] at h1
          rw [longFlagL, Bool.and_eq_true, Bool.and_eq_true] at h1
          obtain ⟨⟨hc1, hc2⟩, hxs⟩ := h1
          refine ⟨xs, ?_, ?_, rfl⟩
          · rw [show FlagIdent.render ⟨none, some l2⟩ = l2 from rfl, hs, hr]
            rw [show c1 = '-' from by simpa using hc1, show c2 = '-' from by simpa using hc2]
          · rw [List.all_eq_true] at hxs
            exact hxs

theorem flagGood_ascii (f : Flag) (hf : flagGood f = true) :
    asciiL (FlagIdent.render f.ident).data = true := by
  obtain ⟨⟨os, ol⟩, v⟩ := f
  rw [flagGood] at hf
  cases os with
  | some s =>
    cases ol with
    | none =>
      simp only at hf
      rw [Bool.and_eq_true] at hf
      exact hf.2
    | some l2 => exact absurd hf (by simp)
  | none =>
    cases ol with
    | none => exact absurd hf (by simp)
    | some l2 =>
      simp only at hf
      rw [Bool.and_eq_true] at hf
      exact hf.2

/-- The rendered flag block of a nonempty well-formed flag list starts
with a dash. -/
theorem joinSpace_flags_head (f2 : Flag) (fs2 : List Flag) (hf : flagGood f2 = true) :
    ∃ tl, (joinSpace ((f2 :: fs2).map (fun f => FlagIdent.render f.ident))).data =
      '-' :: tl := by
  have hhead : ∃ xs0, (FlagIdent.render f2.ident).data = '-' :: xs0 := by
    rcases flagGood_render f2 hf with ⟨xs, hre, _, _⟩ | ⟨xs, hre, _, _⟩
    · exact ⟨xs, hre⟩
    · exact ⟨'-' :: xs, hre⟩
  obtain ⟨xs0, hx0⟩ := hhead
  cases fs2 with
  | nil => exact ⟨xs0, by rw [List.map_cons, List.map_nil, joinSpace, hx0]⟩
  | cons f3 fs3 =>
    rw [List.map_cons, List.map_cons]
    rw [joinSpace_cons_data, hx0, List.cons_append]
    exact ⟨_, rfl⟩

/-- The rendered word block of a nonempty argument list starts with a
non-skippable character. -/
theorem joinSpace_words_head (a2 : String) (as2 : List String) (X : List Char)
    (hw : wordishL a2.data = true) :
    ∃ c tl, (joinSpace (a2 :: as2)).data ++ X = c :: tl ∧ inSkipWs c = false := by
  obtain ⟨c, cs, hc⟩ : ∃ c cs, a2.data = c :: cs := by
    cases hd : a2.data with
    | nil => rw [hd] at hw; exact absurd hw (by decide)
    | cons c cs => exact ⟨c, cs, rfl⟩
  have hskip : inSkipWs c = false := by
    rw [hc] at hw
    exact wordishL_head_not_skip c cs hw
  cases as2 with
  | nil =>
    rw [joinSpace, hc, List.cons_append]
    exact ⟨c, cs ++ X, rfl, hskip⟩
  | cons a3 as3 =>
    rw [joinSpace_cons_data, hc, List.cons_append, List.cons_append]
    exact ⟨c, _, rfl, hskip⟩

/-- Every character of a rendering of ASCII strings is ASCII. -/
theorem joinSpace_ascii : ∀ (l : List String), (∀ s ∈ l, asciiL s.data = true) →
    ∀ x ∈ (joinSpace l).data, charBytes x = 1 := by
  intro l
  induction l with
  | nil => intro _ x hx; exact absurd hx (by simp [joinSpace])
  | cons a t ih =>
    intro h x hx
    cases t with
    | nil =>
      rw [joinSpace] at hx
      have ha := h a (List.mem_cons_self _ _)
      rw [asciiL, List.all_eq_true] at ha
      have := ha x hx
      simpa using this
    | cons b t2 =>
      rw [joinSpace_cons_data] at hx
      rcases List.mem_append.mp hx with hx | hx
      · have ha := h a (List.mem_cons_self _ _)
        rw [asciiL, List.all_eq_true] at ha
        have := ha x hx
        simpa using this
      · rcases List.mem_cons.mp hx with hx | hx
        · rw [hx]; decide
        · exact ih (fun s hs => h s (List.mem_cons_of_mem _ hs)) x hx


theorem drop_succ_of_drop_cons (l : List Char) (n : Nat) (c : Char) (r : List Char)
    (h : l.drop n = c :: r) : l.drop (n + 1) = r := by
  have h2 := drop_of_get _ _ _ (get_of_drop _ _ _ _ h)
  rw [h] at h2
  injection h2 with _ h2
  exact h2.symm

theorem drop_add_of_drop_append (l : List Char) (n : Nat) (d r : List Char)
    (h : l.drop n = d ++ r) : l.drop (n + d.length) = r := by
  rw [← List.drop_drop, h]
  exact List.drop_left d r

/-- `scan_token` over one rendered flag identity produces exactly the
token that flag rescans to. -/
theorem scanToken_flagChunk (fuel : Nat) (st : Tokenizer) (f : Flag) (rest : List Char)
    (hA : ∀ x ∈ st.source, charBytes x = 1)
    (hsc : st.start = st.current)
    (hgf : flagGood f = true)
    (hdrop : st.source.drop st.current = (FlagIdent.render f.ident).data ++ rest)
    (hrest : rest = [] ∨ ∃ rs, rest = ' ' :: rs)
    (hfuel : st.source.length - st.current ≤ fuel) :
    scanToken fuel st = some { st with
      tokens := st.tokens ++ [flagTok f]
      current := st.current + (FlagIdent.render f.ident).data.length } := by
  rcases flagGood_render f hgf with ⟨xs, hre, hxs, htok⟩ | ⟨xs, hre, hxs, htok⟩
  · rw [hre, List.cons_append] at hdrop
    rw [scanToken_flagS fuel st xs rest hA hsc hdrop hxs hrest hfuel]
    rw [htok, hre]
    rw [show String.mk ('-' :: xs) = FlagIdent.render f.ident from by
      rw [← hre]]
    rw [List.length_cons]
  · rw [hre, List.cons_append, List.cons_append] at hdrop
    rw [scanToken_flagL fuel st xs rest hA hsc hdrop hxs hrest hfuel]
    rw [htok, hre]
    rw [show String.mk ('-' :: '-' :: xs) = FlagIdent.render f.ident from by
      rw [← hre]]
    rw [List.length_cons, List.length_cons]

/-- Scanning the rendered flag block appends exactly the rescanned flag
tokens. -/
theorem scanLoop_flags : ∀ (flags : List Flag) (fuel : Nat) (st : Tokenizer),
    (∀ x ∈ st.source, charBytes x = 1) →
    flags.all flagGood = true →
    st.source.drop st.current =
      (joinSpace (flags.map (fun f => FlagIdent.render f.ident))).data →
    st.source.length - st.current < fuel →
    ∃ st', scanLoop fuel st = some st' ∧
      st'.tokens = st.tokens ++ flags.map flagTok := by
  intro flags
  induction flags with
  | nil =>
    intro fuel st hA hg hdrop hf
    cases fuel with
    | zero => omega
    | succ fuel =>
      have hpos : byteLen st.source ≤ st.current := by
        rw [byteLen_ascii _ hA]
        have hnil : st.source.drop st.current = [] := hdrop
        rw [List.drop_eq_nil_iff_le] at hnil
        exact hnil
      rw [scanLoop, if_pos hpos]
      exact ⟨st, rfl, by simp⟩
  | cons f fs ih =>
    intro fuel st hA hg hdrop hf
    rw [List.all_cons, Bool.and_eq_true] at hg
    obtain ⟨hgf, hgfs⟩ := hg
    obtain ⟨xs0, hx0⟩ : ∃ xs0, (FlagIdent.render f.ident).data = '-' :: xs0 := by
      rcases flagGood_render f hgf with ⟨xs, hre, _, _⟩ | ⟨xs, hre, _, _⟩
      · exact ⟨xs, hre⟩
      · exact ⟨'-' :: xs, hre⟩
    cases fs with
    | nil =>
      have hdrop1 : st.source.drop st.current =
          (FlagIdent.render f.ident).data ++ [] := by
        rw [List.append_nil]
        exact hdrop
      have hL := congrArg List.length hdrop1
      rw [List.length_drop, List.length_append, List.length_nil] at hL
      have hL0 : 1 ≤ (FlagIdent.render f.ident).data.length := by
        rw [hx0]
        simp
      cases fuel with
      | zero => omega
      | succ fuel =>
        rw [scanLoop]
        rw [if_neg (by rw [byteLen_ascii _ hA]; omega)]
        rw [scanToken_flagChunk fuel { st with start := st.current } f []
          (by dsimp only; exact hA) rfl hgf (by dsimp only; exact hdrop1)
          (Or.inl rfl) (by dsimp only; omega)]
        dsimp only
        cases fuel with
        | zero => omega
        | succ fuel =>
          rw [scanLoop]
          rw [if_pos (by dsimp only; rw [byteLen_ascii _ hA]; omega)]
          exact ⟨_, rfl, by simp⟩
    | cons f2 fs2 =>
      rw [List.map_cons, List.map_cons, joinSpace_cons_data] at hdrop
      have hL := congrArg List.length hdrop
      rw [List.length_drop, List.length_append, List.length_cons] at hL
      have hL0 : 1 ≤ (FlagIdent.render f.ident).data.length := by
        rw [hx0]
        simp
      have hdropS := drop_add_of_drop_append _ _ _ _ hdrop
      have hdropJ := drop_succ_of_drop_cons _ _ _ _ hdropS
      obtain ⟨tl, hJhead⟩ := joinSpace_flags_head f2 fs2 (by
        rw [List.all_cons, Bool.and_eq_true] at hgfs
        exact hgfs.1)
      cases fuel with
      | zero => omega
      | succ fuel =>
        rw [scanLoop]
        rw [if_neg (by rw [byteLen_ascii _ hA]; omega)]
        rw [scanToken_flagChunk fuel { st with start := st.current } f
          (' ' :: (joinSpace ((f2 :: fs2).map (fun f => FlagIdent.render f.ident))).data)
          (by dsimp only; exact hA) rfl hgf (by dsimp only; exact hdrop)
          (Or.inr ⟨_, rfl⟩) (by dsimp only; omega)]
        dsimp only
        cases fuel with
        | zero => omega
        | succ fuel =>
          rw [scanLoop]
          rw [if_neg (by dsimp only; rw [byteLen_ascii _ hA]; omega)]
          rw [scanToken_space fuel
            { tokens := st.tokens ++ [flagTok f], source := st.source,
              start := st.current + (FlagIdent.render f.ident).data.length,
              current := st.current + (FlagIdent.render f.ident).data.length,
              had_cmd := st.had_cmd }
            (joinSpace (FlagIdent.render f2.ident ::
              fs2.map (fun g : Flag => FlagIdent.render g.ident))).data
            hA hdropS (Or.inr ⟨'-', tl, hJhead, by decide⟩) (by dsimp only; omega)]
          dsimp only
          obtain ⟨st', h1, h2⟩ := ih fuel
            { tokens := st.tokens ++ [flagTok f], source := st.source,
              start := st.current + (FlagIdent.render f.ident).data.length,
              current := st.current + (FlagIdent.render f.ident).data.length + 1,
              had_cmd := st.had_cmd }
            hA hgfs hdropJ (by dsimp only; omega)
          refine ⟨st', h1, ?_⟩
          rw [h2]
          simp


/-- Scanning the rendered argument block followed by the flag block
appends exactly the argument and flag tokens. -/
theorem scanLoop_args : ∀ (args : List String) (flags : List Flag) (fuel : Nat) (st : Tokenizer),
    (∀ x ∈ st.source, charBytes x = 1) →
    args.all (fun a => wordishL a.data && asciiL a.data) = true →
    flags.all flagGood = true →
    st.had_cmd = true →
    st.source.drop st.current = (joinSpace args).data ++
      (joinSpace (flags.map (fun f => FlagIdent.render f.ident))).data →
    st.source.length - st.current < fuel →
    ∃ st', scanLoop fuel st = some st' ∧
      st'.tokens = st.tokens ++ args.map (fun a => (⟨.Arg, a⟩ : Token)) ++
        flags.map flagTok := by
  intro args
  induction args with
  | nil =>
    intro flags fuel st hA ha hg hhad hdrop hf
    have hdrop2 : st.source.drop st.current =
        (joinSpace (flags.map (fun f => FlagIdent.render f.ident))).data :=
      hdrop.trans (List.nil_append _)
    obtain ⟨st', h1, h2⟩ := scanLoop_flags flags fuel st hA hg hdrop2 hf
    exact ⟨st', h1, by rw [h2]; simp⟩
  | cons a as ih =>
    intro flags fuel st hA ha hg hhad hdrop hf
    rw [List.all_cons, Bool.and_eq_true] at ha
    obtain ⟨haw, has⟩ := ha
    rw [Bool.and_eq_true] at haw
    have ha1 : 1 ≤ a.data.length :=
      List.length_pos.mpr (wordishL_ne_nil _ haw.1)
    cases as with
    | nil =>
      have hdrop1 : st.source.drop st.current = a.data ++
          (joinSpace (flags.map (fun f => FlagIdent.render f.ident))).data := hdrop
      have hrestW : (joinSpace (flags.map (fun f => FlagIdent.render f.ident))).data = [] ∨
          ∃ r rs, (joinSpace (flags.map (fun f => FlagIdent.render f.ident))).data =
            r :: rs ∧ (r = ' ' ∨ r = '-') := by
        cases flags with
        | nil => exact Or.inl rfl
        | cons f2 fs2 =>
          obtain ⟨tl, hJ⟩ := joinSpace_flags_head f2 fs2 (by
            rw [List.all_cons, Bool.and_eq_true] at hg
            exact hg.1)
          exact Or.inr ⟨'-', tl, hJ, Or.inr rfl⟩
      have hL := congrArg List.length hdrop1
      rw [List.length_drop, List.length_append] at hL
      cases fuel with
      | zero => omega
      | succ fuel =>
        rw [scanLoop]
        rw [if_neg (by rw [byteLen_ascii _ hA]; omega)]
        rw [scanToken_word fuel { st with start := st.current } a.data
          (joinSpace (flags.map (fun f => FlagIdent.render f.ident))).data
          (by dsimp only; exact hA) rfl (by dsimp only; exact hdrop1) haw.1
          hrestW (by dsimp only; omega)]
        dsimp only
        rw [hhad, if_pos rfl]
        have hdropF := drop_add_of_drop_append _ _ _ _ hdrop1
        obtain ⟨st', h1, h2⟩ := scanLoop_flags flags fuel
          { tokens := st.tokens ++ [(⟨.Arg, String.mk a.data⟩ : Token)],
            source := st.source, start := st.current,
            current := st.current + a.data.length, had_cmd := true }
          hA hg hdropF (by dsimp only; omega)
        refine ⟨st', h1, ?_⟩
        rw [h2]
        dsimp only
        rw [mk_data]
        simp
    | cons a2 as2 =>
      rw [joinSpace_cons_data, List.append_assoc, List.cons_append] at hdrop
      have hL := congrArg List.length hdrop
      rw [List.length_drop, List.length_append, List.length_cons] at hL
      have hdropS := drop_add_of_drop_append _ _ _ _ hdrop
      have hdropJ := drop_succ_of_drop_cons _ _ _ _ hdropS
      have ha2w : wordishL a2.data = true := by
        rw [List.all_cons, Bool.and_eq_true] at has
        rw [Bool.and_eq_true] at has
        exact has.1.1
      obtain ⟨c, tl, hhead, hskip⟩ := joinSpace_words_head a2 as2
        (joinSpace (flags.map (fun f => FlagIdent.render f.ident))).data ha2w
      cases fuel with
      | zero => omega
      | succ fuel =>
        rw [scanLoop]
        rw [if_neg (by rw [byteLen_ascii _ hA]; omega)]
        rw [scanToken_word fuel { st with start := st.current } a.data
          (' ' :: ((joinSpace (a2 :: as2)).data ++
            (joinSpace (flags.map (fun f => FlagIdent.render f.ident))).data))
          (by dsimp only; exact hA) rfl (by dsimp only; exact hdrop) haw.1
          (Or.inr ⟨' ', _, rfl, Or.inl rfl⟩) (by dsimp only; omega)]
        dsimp only
        rw [hhad, if_pos rfl]
        cases fuel with
        | zero => omega
        | succ fuel =>
          rw [scanLoop]
          rw [if_neg (by dsimp only; rw [byteLen_ascii _ hA]; omega)]
          rw [scanToken_space fuel
            { tokens := st.tokens ++ [(⟨.Arg, String.mk a.data⟩ : Token)],
              source := st.source, start := st.current + a.data.length,
              current := st.current + a.data.length, had_cmd := true }
            ((joinSpace (a2 :: as2)).data ++
              (joinSpace (flags.map (fun f => FlagIdent.render f.ident))).data)
            hA hdropS (Or.inr ⟨c, tl, hhead, by rw [hskip]⟩) (by dsimp only; omega)]
          dsimp only
          obtain ⟨st', h1, h2⟩ := ih flags fuel
            { tokens := st.tokens ++ [(⟨.Arg, String.mk a.data⟩ : Token)],
              source := st.source, start := st.current + a.data.length,
              current := st.current + a.data.length + 1, had_cmd := true }
            hA has hg rfl hdropJ (by dsimp only; omega)
          refine ⟨st', h1, ?_⟩
          rw [h2]
          dsimp only
          rw [mk_data]
          simp


/-- Scanning the full rendering of a well-shaped command reproduces the
command, argument, and flag tokens, then the end-of-input marker. -/
theorem scan_render (name : String) (args : List String) (flags : List Flag)
    (hn : wordishL name.data = true) (hna : asciiL name.data = true)
    (ha : args.all (fun a => wordishL a.data && asciiL a.data) = true)
    (hg : flags.all flagGood = true) :
    scan (name ++ " " ++ joinSpace args ++
        joinSpace (flags.map (fun f => FlagIdent.render f.ident))) =
      some (⟨.Cmd, name⟩ :: (args.map (fun a => (⟨.Arg, a⟩ : Token)) ++
        flags.map flagTok ++ [⟨.Eof, ""⟩])) := by
  have hdata : (name ++ " " ++ joinSpace args ++
      joinSpace (flags.map (fun f => FlagIdent.render f.ident))).data =
      name.data ++ ' ' :: ((joinSpace args).data ++
        (joinSpace (flags.map (fun f => FlagIdent.render f.ident))).data) := by
    rw [String.data_append, String.data_append, String.data_append]
    rw [show (" " : String).data = [' '] from rfl]
    rw [List.append_assoc, List.append_assoc]
    rfl
  have hA : ∀ x ∈ (name ++ " " ++ joinSpace args ++
      joinSpace (flags.map (fun f => FlagIdent.render f.ident))).data, charBytes x = 1 := by
    rw [hdata]
    intro x hx
    rcases List.mem_append.mp hx with hx | hx
    · rw [asciiL, List.all_eq_true] at hna
      simpa using hna x hx
    rcases List.mem_cons.mp hx with hx | hx
    · rw [hx]; decide
    rcases List.mem_append.mp hx with hx | hx
    · refine joinSpace_ascii args ?_ x hx
      intro s hs
      rw [List.all_eq_true] at ha
      have := ha s hs
      rw [Bool.and_eq_true] at this
      exact this.2
    · refine joinSpace_ascii _ ?_ x hx
      intro r hr
      obtain ⟨f, hfm, hfe⟩ := List.mem_map.mp hr
      rw [← hfe]
      refine flagGood_ascii f ?_
      rw [List.all_eq_true] at hg
      exact hg f hfm
  rw [scan, scanTokens]
  generalize hsrc : (name ++ " " ++ joinSpace args ++
      joinSpace (flags.map (fun f => FlagIdent.render f.ident))).data = src
  rw [hsrc] at hdata hA
  have ha1 : 1 ≤ name.data.length := List.length_pos.mpr (wordishL_ne_nil _ hn)
  have hL := congrArg List.length hdata
  rw [List.length_append, List.length_cons] at hL
  obtain ⟨m, hm⟩ : ∃ m, byteLen src = m + 1 + 1 := by
    refine ⟨byteLen src - 2, ?_⟩
    rw [byteLen_ascii _ hA]
    omega
  have hmlen : src.length = m + 1 + 1 := by
    rw [← byteLen_ascii _ hA]
    exact hm
  rw [hm]
  have hdrop0 : src.drop 0 = name.data ++ ' ' :: ((joinSpace args).data ++
      (joinSpace (flags.map (fun f => FlagIdent.render f.ident))).data) := by
    rw [List.drop_zero]
    exact hdata
  have hrestS : (joinSpace args).data ++
      (joinSpace (flags.map (fun f => FlagIdent.render f.ident))).data = [] ∨
      ∃ r rs, (joinSpace args).data ++
        (joinSpace (flags.map (fun f => FlagIdent.render f.ident))).data = r :: rs ∧
        inSkipWs r = false := by
    cases args with
    | cons a2 as2 =>
      have ha2w : wordishL a2.data = true := by
        rw [List.all_cons, Bool.and_eq_true] at ha
        have := ha.1
        rw [Bool.and_eq_true] at this
        exact this.1
      obtain ⟨c, tl, hhead, hskip⟩ := joinSpace_words_head a2 as2 _ ha2w
      exact Or.inr ⟨c, tl, hhead, hskip⟩
    | nil =>
      cases flags with
      | nil => exact Or.inl rfl
      | cons f2 fs2 =>
        obtain ⟨tl, hJ⟩ := joinSpace_flags_head f2 fs2 (by
          rw [List.all_cons, Bool.and_eq_true] at hg
          exact hg.1)
        exact Or.inr ⟨'-', tl, hJ, by decide⟩
  rw [scanLoop]
  rw [if_neg (by dsimp only; rw [byteLen_ascii _ hA]; omega)]
  dsimp only
  rw [scanToken_word (m + 1 + 1)
    { tokens := [], source := src, start := 0, current := 0, had_cmd := false }
    name.data
    (' ' :: ((joinSpace args).data ++
      (joinSpace (flags.map (fun f => FlagIdent.render f.ident))).data))
    hA rfl hdrop0 hn (Or.inr ⟨' ', _, rfl, Or.inl rfl⟩) (by dsimp only; omega)]
  dsimp only
  rw [if_neg (by decide : ¬(false = true)), mk_data, Nat.zero_add]
  have hdropS := drop_add_of_drop_append _ _ _ _ hdrop0
  rw [Nat.zero_add] at hdropS
  have hdropA := drop_succ_of_drop_cons _ _ _ _ hdropS
  rw [scanLoop]
  rw [if_neg (by dsimp only; rw [byteLen_ascii _ hA]; omega)]
  dsimp only
  rw [scanToken_space (m + 1)
    { tokens := [] ++ [(⟨.Cmd, name⟩ : Token)], source := src,
      start := name.data.length, current := name.data.length, had_cmd := true }
    ((joinSpace args).data ++
      (joinSpace (flags.map (fun f => FlagIdent.render f.ident))).data)
    hA hdropS hrestS (by dsimp only; omega)]
  dsimp only
  obtain ⟨st', h1, h2⟩ := scanLoop_args args flags (m + 1)
    { tokens := [] ++ [(⟨.Cmd, name⟩ : Token)], source := src,
      start := name.data.length, current := name.data.length + 1, had_cmd := true }
    hA ha hg rfl hdropA (by dsimp only; omega)
  rw [h1]
  dsimp only
  rw [h2]
  simp


/-! ## Reparsing a rendered command -/

theorem pushBody_append : ∀ (ts : List Token) (c : SCmd) (us : List Token),
    pushBody c (ts ++ us) =
      (match pushBody c ts with
       | none => none
       | some c2 => pushBody c2 us) := by
  intro ts
  induction ts with
  | nil => intro c us; rfl
  | cons t ts ih =>
    intro c us
    rw [List.cons_append, pushBody, pushBody]
    cases hp : pushTok c t with
    | none => rfl
    | some c1 => exact ih c1 us

theorem pushBody_args_eval : ∀ (args : List String) (c : SCmd), ¬(c.kind = .pwd) →
    pushBody c (args.map (fun a => (⟨.Arg, a⟩ : Token))) =
      some { c with args := c.args ++ args } := by
  intro args
  induction args with
  | nil => intro c hk; rw [List.map_nil, pushBody]; simp
  | cons a as ih =>
    intro c hk
    rw [List.map_cons, pushBody]
    rw [show pushTok c ⟨.Arg, a⟩ = some { c with args := c.args ++ [a] } from by
      simp [pushTok, hk]]
    dsimp only
    rw [ih { c with args := c.args ++ [a] } (by dsimp only; exact hk)]
    dsimp only
    simp

theorem pushBody_flags_eval : ∀ (flags : List Flag) (c : SCmd), ¬(c.kind = .pwd) →
    flags.all flagGood = true →
    pushBody c (flags.map flagTok) =
      some { c with flags := c.flags ++ flags.map (fun f => ⟨f.ident, none⟩) } := by
  intro flags
  induction flags with
  | nil => intro c hk _; rw [List.map_nil, List.map_nil, pushBody]; simp
  | cons f fs ih =>
    intro c hk hg
    rw [List.all_cons, Bool.and_eq_true] at hg
    obtain ⟨hgf, hgfs⟩ := hg
    rw [List.map_cons, pushBody]
    have hpt : pushTok c (flagTok f) = some { c with flags := c.flags ++ [⟨f.ident, none⟩] } := by
      obtain ⟨⟨os, ol⟩, v⟩ := f
      rw [flagGood] at hgf
      cases os with
      | some s =>
        cases ol with
        | none =>
          rw [show flagTok ⟨⟨some s, none⟩, v⟩ = ⟨.Flag, s⟩ from rfl]
          simp [pushTok, hk]
        | some l2 => exact absurd hgf (by simp)
      | none =>
        cases ol with
        | none => exact absurd hgf (by simp)
        | some l2 =>
          rw [show flagTok ⟨⟨none, some l2⟩, v⟩ = ⟨.LongFlag, l2⟩ from rfl]
          simp [pushTok, hk]
    rw [hpt]
    dsimp only
    rw [ih { c with flags := c.flags ++ [⟨f.ident, none⟩] } (by dsimp only; exact hk) hgfs]
    dsimp only
    rw [List.map_cons]
    simp

theorem pushBody_eof (c : SCmd) : pushBody c [(⟨.Eof, ""⟩ : Token)] = some c := by
  rw [pushBody]
  rw [show pushTok c ⟨.Eof, ""⟩ = some c from by simp [pushTok]]
  rfl

theorem pipePositionsAux_nil : ∀ (ts : List Token) (i : Nat),
    (∀ t ∈ ts, ¬(t.kind = .Pipe)) → pipePositionsAux ts i = [] := by
  intro ts
  induction ts with
  | nil => intro i _; rfl
  | cons t ts ih =>
    intro i h
    rw [pipePositionsAux]
    rw [if_neg (h t (List.mem_cons_self _ _))]
    exact ih (i + 1) (fun u hu => h u (List.mem_cons_of_mem _ hu))

/-- Re-parsing the token sequence a rendered command scans back to
yields a single command with the same name and positional arguments. -/
theorem parse_rescan (name : String) (args : List String) (flags : List Flag)
    (hg : flags.all flagGood = true)
    (hpwd : (dispatch name).kind = .pwd → args = [] ∧ flags = []) :
    ∃ c2, parse (⟨.Cmd, name⟩ :: (args.map (fun a => (⟨.Arg, a⟩ : Token)) ++
        flags.map flagTok ++ [⟨.Eof, ""⟩])) = some (.ok (.single c2)) ∧
      c2.kind = (dispatch name).kind ∧ c2.name = name ∧ c2.args = args := by
  have hnp : ∀ t ∈ (⟨.Cmd, name⟩ : Token) :: (args.map (fun a => (⟨.Arg, a⟩ : Token)) ++
      flags.map flagTok ++ [⟨.Eof, ""⟩]), ¬(t.kind = .Pipe) := by
    intro t ht
    rcases List.mem_cons.mp ht with ht | ht
    · rw [ht]; simp
    rcases List.mem_append.mp ht with ht | ht
    rcases List.mem_append.mp ht with ht | ht
    · obtain ⟨a, _, hae⟩ := List.mem_map.mp ht
      rw [← hae]; simp
    · obtain ⟨f, _, hfe⟩ := List.mem_map.mp ht
      rw [← hfe]
      cases hs : f.ident.short with
      | some s => simp [flagTok, hs]
      | none =>
        cases hl : f.ident.long with
        | some l => simp [flagTok, hs, hl]
        | none => simp [flagTok, hs, hl]
    · rw [List.mem_singleton.mp ht]; simp
  rw [parse]
  rw [if_neg (by simp)]
  rw [pipePositions, pipePositionsAux_nil _ 0 hnp]
  rw [parseSingle]
  rw [show ((⟨.Cmd, name⟩ : Token) :: (args.map (fun a => (⟨.Arg, a⟩ : Token)) ++
      flags.map flagTok ++ [⟨.Eof, ""⟩])).get? 0 = some ⟨.Cmd, name⟩ from rfl]
  dsimp only
  rw [if_neg (by simp)]
  rw [if_neg (by rw [List.length_cons]; omega)]
  rw [List.take_length]
  rw [show ((⟨.Cmd, name⟩ : Token) :: (args.map (fun a => (⟨.Arg, a⟩ : Token)) ++
      flags.map flagTok ++ [⟨.Eof, ""⟩])).drop (0 + 1) =
      args.map (fun a => (⟨.Arg, a⟩ : Token)) ++ flags.map flagTok ++ [⟨.Eof, ""⟩] from rfl]
  by_cases hk : (dispatch name).kind = .pwd
  · obtain ⟨ha0, hf0⟩ := hpwd hk
    subst ha0
    subst hf0
    rw [show (([] : List String).map (fun a => (⟨.Arg, a⟩ : Token)) ++
        ([] : List Flag).map flagTok ++ [(⟨.Eof, ""⟩ : Token)]) = [(⟨.Eof, ""⟩ : Token)]
      from rfl]
    rw [pushBody_eof]
    refine ⟨dispatch name, rfl, rfl, dispatch_name name, (dispatch_args_flags name).1⟩
  · rw [List.append_assoc, pushBody_append]
    rw [pushBody_args_eval args (dispatch name) hk]
    dsimp only
    rw [pushBody_append]
    rw [pushBody_flags_eval flags _ (by dsimp only; exact hk) hg]
    dsimp only
    rw [pushBody_eof]
    refine ⟨_, rfl, rfl, dispatch_name name, ?_⟩
    dsimp only
    rw [(dispatch_args_flags name).1]
    simp


/-! ## Claim C9 — display format and round-trip -/

/-- C9.  Every command renders as its name, one space, the positional
arguments joined by single spaces, then — with no separating space —
the flag identities joined by single spaces; and for every successfully
resolved command, resolving its rendering again yields a command with
the same name and the same positional arguments. -/
theorem c9_roundtrip (s : String) (p : PCmd) (h : resolve s = some (.ok p)) :
    p.render = p.getName ++ " " ++ joinSpace p.getArgs ++
      joinSpace (p.getFlags.map (fun f => FlagIdent.render f.ident)) ∧
    ∃ q, resolve p.render = some (.ok q) ∧
      q.getName = p.getName ∧ q.getArgs = p.getArgs := by
  refine ⟨rfl, ?_⟩
  cases p with
  | pipeline cs =>
    refine ⟨.single ⟨.system, "pipeline", [], []⟩, ?_, rfl, rfl⟩
    have hr : PCmd.render (.pipeline cs) = "pipeline " := rfl
    rw [hr]
    decide
  | single c =>
    have hgood := resolve_single_good s c h
    rw [cmdGood, Bool.and_eq_true, Bool.and_eq_true, Bool.and_eq_true,
      Bool.and_eq_true] at hgood
    obtain ⟨⟨⟨⟨g1, g2⟩, g3⟩, g4⟩, g5⟩ := hgood
    rw [Bool.and_eq_true] at g2
    have g1e : c.kind = (dispatch c.name).kind := by simpa using g1
    have hga : (SCmd.getArgs c).all (fun a => wordishL a.data && asciiL a.data) = true := by
      rw [SCmd.getArgs]
      cases hk : c.kind <;> first | exact g3 | rfl
    have hgf : (SCmd.getFlags c).all flagGood = true := by
      rw [SCmd.getFlags]
      cases hk : c.kind <;> first | exact g4 | rfl
    have hpwd2 : (dispatch c.name).kind = .pwd →
        SCmd.getArgs c = [] ∧ SCmd.getFlags c = [] := by
      intro hk
      have hck : c.kind = .pwd := by rw [g1e, hk]
      constructor
      · rw [SCmd.getArgs, hck]
      · rw [SCmd.getFlags, hck]
    have hscan := scan_render c.name (SCmd.getArgs c) (SCmd.getFlags c) g2.1 g2.2 hga hgf
    obtain ⟨c2, hparse, hk2, hn2, ha2⟩ :=
      parse_rescan c.name (SCmd.getArgs c) (SCmd.getFlags c) hgf hpwd2
    refine ⟨.single c2, ?_, hn2, ?_⟩
    · rw [resolve]
      rw [show PCmd.render (.single c) = c.name ++ " " ++ joinSpace (SCmd.getArgs c) ++
        joinSpace ((SCmd.getFlags c).map (fun f => FlagIdent.render f.ident)) from rfl]
      rw [hscan]
      exact hparse
    · show SCmd.getArgs c2 = SCmd.getArgs c
      rw [SCmd.getArgs, hk2, ← g1e]
      cases hck : c.kind
      case pwd => simp [SCmd.getArgs, hck]
      all_goals simp [ha2, SCmd.getArgs, hck]

/-- C9 witness: the round-trip evaluated on `ls x -l`. -/
theorem c9_roundtrip_witness :
    resolve "ls x -l" =
      some (.ok (.single ⟨.system, "ls", ["x"], [⟨⟨some "-l", none⟩, none⟩]⟩)) ∧
    ((PCmd.single ⟨.system, "ls", ["x"], [⟨⟨some "-l", none⟩, none⟩]⟩).render =
      (PCmd.single ⟨.system, "ls", ["x"], [⟨⟨some "-l", none⟩, none⟩]⟩).getName ++ " " ++
        joinSpace (PCmd.single ⟨.system, "ls", ["x"], [⟨⟨some "-l", none⟩, none⟩]⟩).getArgs ++
        joinSpace ((PCmd.single ⟨.system, "ls", ["x"],
          [⟨⟨some "-l", none⟩, none⟩]⟩).getFlags.map (fun f => FlagIdent.render f.ident)) ∧
      ∃ q, resolve (PCmd.single ⟨.system, "ls", ["x"],
          [⟨⟨some "-l", none⟩, none⟩]⟩).render = some (.ok q) ∧
        q.getName = (PCmd.single ⟨.system, "ls", ["x"],
          [⟨⟨some "-l", none⟩, none⟩]⟩).getName ∧
        q.getArgs = (PCmd.single ⟨.system, "ls", ["x"],
          [⟨⟨some "-l", none⟩, none⟩]⟩).getArgs) :=
  ⟨by decide, c9_roundtrip "ls x -l"
    (.single ⟨.system, "ls", ["x"], [⟨⟨some "-l", none⟩, none⟩]⟩) (by decide)⟩

end MiniShell
